import Mathlib

/-!
Verification development for the yunyun persistent block store
(`yunyun.py`).  The backing file is modelled as a list of bytes
(`List Nat`, each entry a byte value).  The external collaborators are
parameters of the model: the 64-bit key hash (`xxhash.xxh64(...).intdigest()`)
is a function `H : List Nat → Nat`, the digest used for derived block keys
(`hashlib.sha256`) is a function `D : List Nat → List Nat`, and the node
metadata serializer (`pickle`) is a pair `enc`/`dec` of functions.
Machine integers are `Nat` with explicit `% 2 ^ w` performed by the
little-endian encoders, exactly where `struct.pack` fixes a field width.
Exceptions are modelled by `Except`, whose error case carries the store
state at the moment of the raise (Python mutations made before a raise
persist).  The unbounded `while` loops of `getIndexes` and
`requestFreeIndexCell` are given explicit fuel; the fuel chosen suffices
for every store whose index chain moves strictly forward (on a corrupt
cyclic chain the Python code would never return, so no claim concerns
that case).
-/

namespace Yunyun

/-- Little-endian encoding of a natural number into `w` bytes, as
`struct.pack` does for the fixed-width fields (the value is reduced
modulo `2 ^ (8 * w)` by construction). -/
def encLE : Nat → Nat → List Nat
  | 0, _ => []
  | w + 1, n => n % 256 :: encLE w (n / 256)

/-- Little-endian decoding of `w` bytes at position `p` of file `f`,
as `struct.unpack` does (missing bytes read as 0; the Python code would
raise there, and no claim touches that case). -/
def decLE (f : List Nat) : Nat → Nat → Nat
  | 0, _ => 0
  | w + 1, p => f.getD p 0 + 256 * decLE f w (p + 1)

/-- Encoding of a `?` (bool) field of `struct.pack`. -/
def encBool (b : Bool) : List Nat := [if b then 1 else 0]

/-- Decoding of a `?` (bool) field: any nonzero byte is `true`. -/
def decBool (f : List Nat) (p : Nat) : Bool := f.getD p 0 != 0

/-- Decoded form of the index header pattern `<?IHH`
(`has_continuation`, `continuation_offset`, `index_size`, `block_size`). -/
structure IndexHeaderT where
  hasCont : Bool
  cont : Nat
  iSize : Nat
  bSize : Nat
deriving DecidableEq

/-- Decoded form of the index cell pattern `<?QIH`
(`occupied`, `key_hash`, `data_offset`, `data_length`). -/
structure CellT where
  occupied : Bool
  keyHash : Nat
  dataOffset : Nat
  dataLength : Nat
deriving DecidableEq

/-- The persistent state of an `Interface`: the bytes of the backing file
plus the in-memory `_index_size` and `_block_size` attributes (which
`getIndexes` re-reads from the headers). -/
structure Store where
  file : List Nat
  indexSize : Nat
  blockSize : Nat
deriving DecidableEq

/-- The exceptions of `yunyun.Exceptions`, plus `io.UnsupportedOperation`
raised by `seek`. -/
inductive YErr where
  | BlockNotFound
  | WriteAboveBlockSize
  | NodeExists
  | NodeDoesNotExist
  | UnsupportedOperation
deriving DecidableEq

/-- `constructIndex(continuation)`: 9 bytes `<?IHH` with
`bool(continuation)` as the first field. -/
def encodeHeaderC (cont isz bsz : Nat) : List Nat :=
  encBool (cont != 0) ++ encLE 4 cont ++ encLE 2 isz ++ encLE 2 bsz

/-- `constructIndexCell(occupied, key, seek, size)` after the key has been
hashed: 15 bytes `<?QIH`. -/
def encodeCell (c : CellT) : List Nat :=
  encBool c.occupied ++ encLE 8 c.keyHash ++ encLE 4 c.dataOffset ++ encLE 2 c.dataLength

/-- `readIndexHeader` applied to the 9 bytes at position `p`. -/
def decodeHeader (f : List Nat) (p : Nat) : IndexHeaderT :=
  ⟨decBool f p, decLE f 4 (p + 1), decLE f 2 (p + 5), decLE f 2 (p + 7)⟩

/-- `readIndexCell` applied to the 15 bytes at position `p`. -/
def decodeCell (f : List Nat) (p : Nat) : CellT :=
  ⟨decBool f p, decLE f 8 (p + 1), decLE f 4 (p + 9), decLE f 2 (p + 13)⟩

/-- `f.seek(p); f.read(n)` (short at end of file, like Python). -/
def readBytes (f : List Nat) (p n : Nat) : List Nat := (f.drop p).take n

/-- `f.seek(p); f.write(d)`: overwrite in place, zero-filling any gap when
`p` is past the end of file (Python semantics for writes past EOF). -/
def writeBytes (f : List Nat) (p : Nat) (d : List Nat) : List Nat :=
  (f ++ List.replicate (p - f.length) 0).take p ++ d ++ f.drop (p + d.length)

/-- `f.truncate(n)`: cut or zero-extend the file to length `n`. -/
def truncFile (f : List Nat) (n : Nat) : List Nat :=
  f.take n ++ List.replicate (n - f.length) 0

/-- `self._indexes = self._index_size // self._index_cellsize`, with the
cell size fixed at 15 bytes (the length of `constructIndexCell()`). -/
def nIdxOf (isz : Nat) : Nat := isz / 15

/-- Byte string repeated `n` times (`bytes * n`). -/
def repBytes : Nat → List Nat → List Nat
  | 0, _ => []
  | n + 1, b => b ++ repBytes n b

/-- The header-chain walk of `getIndexes`: from `pos`, while `pos` is
inside the file, read a header, and follow `continuation_offset` while
`has_continuation` holds.  `fuel` bounds the number of segments visited;
it is chosen large enough for every forward-moving chain. -/
def getIndexesGo (f : List Nat) : Nat → Nat → List (Nat × IndexHeaderT)
  | 0, _ => []
  | fuel + 1, pos =>
    if pos < f.length then
      let h := decodeHeader f pos
      (pos, h) :: (if h.hasCont then getIndexesGo f fuel h.cont else [])
    else []

/-- `Interface.getIndexes`: walk the chain from offset 0 and update
`_index_size` / `_block_size` (and hence `_indexes`) from each header
read; the net effect on the attributes is that of the last header. -/
def getIndexes (s : Store) : Store × List (Nat × IndexHeaderT) :=
  let l := getIndexesGo s.file (s.file.length + 1) 0
  match l.getLast? with
  | some ph => ({ s with indexSize := ph.2.iSize, blockSize := ph.2.bSize }, l)
  | none => (s, l)

/-- The inner loop of `getIndexesCells`: read `n` cells of 15 bytes
starting at `base` (just after a segment header). -/
def cellsOfSegB (f : List Nat) : Nat → Nat → List (Nat × CellT)
  | _, 0 => []
  | base, n + 1 => (base, decodeCell f base) :: cellsOfSegB f (base + 15) n

/-- The outer loop of `getIndexesCells` over the segments returned by
`getIndexes`. -/
def collectCells (f : List Nat) (n : Nat) : List (Nat × IndexHeaderT) → List (Nat × CellT)
  | [] => []
  | ph :: rest => cellsOfSegB f (ph.1 + 9) n ++ collectCells f n rest

/-- `Interface.getIndexesCells`: the mapping from cell byte offset to
decoded cell, in segment-chain order (a Python dict preserves insertion
order; offsets repeat only on corrupt chains, which no claim touches). -/
def getIndexesCells (s : Store) : Store × List (Nat × CellT) :=
  let p := getIndexes s
  (p.1, collectCells p.1.file (nIdxOf p.1.indexSize) p.2)

/-- `Interface.createIndex`: rewrite the previous last segment's header to
point at end of file, then append a fresh header (no continuation) and a
full array of `constructIndexCell()` cells.  The default cell hashes the
empty key, so fresh cells carry `H []`. -/
def createIndex (H : List Nat → Nat) (s : Store) : Store :=
  let p := getIndexes s
  let s1 := p.1
  let f := s1.file
  let f1 := match p.2.getLast? with
    | some ph => writeBytes f ph.1 (encodeHeaderC f.length s1.indexSize s1.blockSize)
    | none => f
  { s1 with file :=
      f1 ++ encodeHeaderC 0 s1.indexSize s1.blockSize
         ++ repBytes (nIdxOf s1.indexSize) (encodeCell ⟨false, H [], 0, 0⟩) }

/-- The scan of `keyExists`: first cell whose stored hash equals `hkey`
and which is occupied; `0` when none matches. -/
def findMatch (hkey : Nat) : List (Nat × CellT) → Nat
  | [] => 0
  | pc :: rest =>
    if pc.2.keyHash = hkey ∧ pc.2.occupied = true then pc.1 else findMatch hkey rest

/-- `Interface.keyExists`: hash the key and scan all cells. -/
def keyExists (H : List Nat → Nat) (s : Store) (key : List Nat) : Store × Nat :=
  let p := getIndexesCells s
  (p.1, findMatch (H key) p.2)

/-- The scan of `requestFreeIndexCell`: first unoccupied cell. -/
def findFree : List (Nat × CellT) → Option Nat
  | [] => none
  | pc :: rest => if pc.2.occupied = false then some pc.1 else findFree rest

/-- `Interface.requestFreeIndexCell`: scan for a free cell, growing the
index when none exists and retrying.  One growth always produces a free
cell when a segment holds at least one cell, so fuel 2 realises the
`while True` loop on every such store. -/
def requestFreeGo (H : List Nat → Nat) : Nat → Store → Store × Nat
  | 0, s => (s, 0)
  | fuel + 1, s =>
    let p := getIndexesCells s
    match findFree p.2 with
    | some k => (p.1, k)
    | none => requestFreeGo H fuel (createIndex H p.1)

/-- `Interface.requestFreeIndexCell` (see `requestFreeGo`). -/
def requestFreeIndexCell (H : List Nat → Nat) (s : Store) : Store × Nat :=
  requestFreeGo H 2 s

/-- `Interface.writeBlock(key, value, hard)`.  Raises
`WriteAboveBlockSize` before touching the file when the value exceeds the
block size; otherwise finds or allocates a cell, allocates or reuses a
block region, rewrites the cell with the key's hash and the value's
length, and writes the value at the cell's `data_offset`. -/
def writeBlock (H : List Nat → Nat) (s : Store) (key value : List Nat) (hard : Bool) :
    Except (YErr × Store) Store :=
  if value.length > s.blockSize then .error (.WriteAboveBlockSize, s)
  else
    let p := keyExists H s key
    let q :=
      if p.2 = 0 then
        let r := requestFreeIndexCell H p.1
        let cell := decodeCell r.1.file r.2
        let fl :=
          if cell.dataOffset = 0 then
            (if hard then writeBytes r.1.file r.1.file.length (List.replicate r.1.blockSize 0)
             else truncFile r.1.file (r.1.file.length + r.1.blockSize),
             r.1.file.length)
          else (r.1.file, cell.dataOffset)
        let f4 := writeBytes fl.1 r.2 (encodeCell ⟨true, H key, fl.2, cell.dataLength⟩)
        ({ r.1 with file := f4 }, r.2)
      else (p.1, p.2)
    let cell2 := decodeCell q.1.file q.2
    let f5 := writeBytes q.1.file q.2 (encodeCell ⟨cell2.occupied, H key, cell2.dataOffset, value.length⟩)
    let f6 := writeBytes f5 cell2.dataOffset value
    .ok { q.1 with file := f6 }

/-- `Interface.discardBlock(key)`: mark the key's cell unoccupied, keeping
`data_offset` and `data_length`; the rewritten cell hashes the empty key.
Raises `BlockNotFound` when the key is absent. -/
def discardBlock (H : List Nat → Nat) (s : Store) (key : List Nat) :
    Except (YErr × Store) Store :=
  let p := keyExists H s key
  if p.2 ≠ 0 then
    let cell := decodeCell p.1.file p.2
    let f2 := writeBytes p.1.file p.2 (encodeCell ⟨false, H [], cell.dataOffset, cell.dataLength⟩)
    .ok { p.1 with file := f2 }
  else .error (.BlockNotFound, p.1)

/-- `Interface.readBlock(key)`: read `data_length` bytes at `data_offset`
of the key's cell; raises `BlockNotFound` when the key is absent. -/
def readBlock (H : List Nat → Nat) (s : Store) (key : List Nat) :
    Except (YErr × Store) (List Nat × Store) :=
  let p := keyExists H s key
  if p.2 ≠ 0 then
    let cell := decodeCell p.1.file p.2
    .ok (readBytes p.1.file cell.dataOffset cell.dataLength, p.1)
  else .error (.BlockNotFound, p.1)

/-- The `Interface` constructor on a missing or empty file: create the
initial index segment. -/
def initStore (H : List Nat → Nat) (isz bsz : Nat) : Store :=
  createIndex H ⟨[], isz, bsz⟩

/-- `math.ceil(a / b)` for natural `a` and positive `b` (the Python code
divides floats; all sizes involved are far below the range where float
division loses integrality for the claims at hand). -/
def ceilDiv (a b : Nat) : Nat := (a + b - 1) / b

/-- The node metadata record stored by the multiblock layer
(`{'key': …, 'blocks': …, 'size': …}`). -/
structure NodeProps where
  key : List Nat
  blocks : Nat
  size : Nat
deriving DecidableEq

/-- The external collaborators of `MultiblockHandler`: the 64-bit key
hash `H`, the digest `D` used to derive per-block keys (`sha256`), and
the metadata serializer `enc` / `dec` (`pickle.dumps` / `pickle.loads`). -/
structure Ctx where
  H : List Nat → Nat
  D : List Nat → List Nat
  enc : NodeProps → List Nat
  dec : List Nat → NodeProps

/-- The ASCII bytes of the literal prefix of derived block keys. -/
def inodeblk : List Nat := [73, 78, 79, 68, 69, 66, 76, 75]

/-- `MultiblockHandler.constructNodeBlockKey`: the ASCII tag `INODEBLK`
followed by the digest of the node key concatenated with the 32-bit
little-endian block index. -/
def constructNodeBlockKey (ctx : Ctx) (key : List Nat) (block : Nat) : List Nat :=
  inodeblk ++ ctx.D (key ++ encLE 4 block)

/-- `MultiblockHandler._getNodeProperties`: unpickle the value stored
under the node's own key. -/
def getNodeProperties (ctx : Ctx) (s : Store) (key : List Nat) :
    Except (YErr × Store) (NodeProps × Store) :=
  match readBlock ctx.H s key with
  | .error e => .error e
  | .ok bs => .ok (ctx.dec bs.1, bs.2)

/-- `MultiblockHandler._setNodeProperties`. -/
def setNodeProperties (ctx : Ctx) (s : Store) (key : List Nat) (props : NodeProps) :
    Except (YErr × Store) Store :=
  writeBlock ctx.H s key (ctx.enc props) false

/-- `MultiblockHandler.nodeExists`. -/
def nodeExists (H : List Nat → Nat) (s : Store) (key : List Nat) : Store × Bool :=
  let p := keyExists H s key
  (p.1, p.2 != 0)

/-- `MultiblockHandler.makeNode`: write fresh metadata, or raise
`NodeExists`. -/
def makeNode (ctx : Ctx) (s : Store) (key : List Nat) : Except (YErr × Store) Store :=
  let p := nodeExists ctx.H s key
  if p.2 = false then setNodeProperties ctx p.1 key ⟨key, 0, 0⟩
  else .error (.NodeExists, p.1)

/-- A `MultiblockFileHandle`: the underlying interface state, the node
key it is bound to, and its cursor. -/
structure Handle where
  st : Store
  key : List Nat
  position : Nat
deriving DecidableEq

/-- `MultiblockHandler.getHandle`: a fresh handle at position 0, or
`NodeDoesNotExist`. -/
def getHandle (ctx : Ctx) (s : Store) (key : List Nat) : Except (YErr × Store) Handle :=
  let p := nodeExists ctx.H s key
  if p.2 = true then .ok ⟨p.1, key, 0⟩ else .error (.NodeDoesNotExist, p.1)

namespace Handle

/-- `MultiblockFileHandle.tell`. -/
def tell (h : Handle) : Nat := h.position

/-- `MultiblockFileHandle.length`: re-read the node metadata and return
its `size` field. -/
def length (ctx : Ctx) (h : Handle) : Except (YErr × Handle) (Nat × Handle) :=
  match getNodeProperties ctx h.st h.key with
  | .error e => .error (e.1, { h with st := e.2 })
  | .ok ps => .ok (ps.1.size, { h with st := ps.2 })

/-- `MultiblockFileHandle.seek(offset, whence)`: absolute, relative, or
end-relative; an end-relative seek with a nonzero offset raises
`io.UnsupportedOperation`, and otherwise seeks to the current logical
length.  Positions are modelled as naturals (no claim seeks backwards
past zero). -/
def seek (ctx : Ctx) (h : Handle) (offset : Nat) (whence : Nat) :
    Except (YErr × Handle) (Nat × Handle) :=
  if whence = 0 then .ok (offset, { h with position := offset })
  else if whence = 1 then .ok (h.position + offset, { h with position := h.position + offset })
  else if whence = 2 then
    if offset ≠ 0 then .error (.UnsupportedOperation, h)
    else
      match length ctx h with
      | .error e => .error e
      | .ok lh => .ok (lh.1, { lh.2 with position := lh.1 })
  else .ok (h.position, h)

/-- The loop of `_readrange`: read and concatenate the derived blocks
`first, first+1, …, first+count-1`. -/
def readBlocksGo (ctx : Ctx) (key : List Nat) : Store → Nat → Nat → Except (YErr × Store) (List Nat × Store)
  | s, _, 0 => .ok ([], s)
  | s, first, count + 1 =>
    match readBlock ctx.H s (constructNodeBlockKey ctx key first) with
    | .error e => .error e
    | .ok bs =>
      match readBlocksGo ctx key bs.2 (first + 1) count with
      | .error e => .error e
      | .ok rest => .ok (bs.1 ++ rest.1, rest.2)

/-- `MultiblockFileHandle._readrange(start, end, pad)`: resolve the
derived blocks covering the range, concatenate them, and (when `pad`)
slice the concatenation down to the exact requested range. -/
def readrange (ctx : Ctx) (h : Handle) (start e : Nat) (pad : Bool) :
    Except (YErr × Handle) (List Nat × Handle) :=
  let sb := start / h.st.blockSize
  let eb := ceilDiv e h.st.blockSize
  match readBlocksGo ctx h.key h.st sb (eb - sb) with
  | .error er => .error (er.1, { h with st := er.2 })
  | .ok fs =>
    let h1 : Handle := { h with st := fs.2 }
    if pad then
      let cleanStart := start - sb * h1.st.blockSize
      .ok (((fs.1.drop cleanStart).take (e - start)), h1)
    else .ok (fs.1, h1)

/-- `MultiblockFileHandle.read(size)`: read `size` bytes at the cursor
(defaulting to the remaining length) and advance the cursor. -/
def read (ctx : Ctx) (h : Handle) (size? : Option Nat) :
    Except (YErr × Handle) (List Nat × Handle) :=
  match size? with
  | some size =>
    (match readrange ctx h h.position (h.position + size) true with
     | .error e => .error e
     | .ok fh => .ok (fh.1, { fh.2 with position := fh.2.position + size }))
  | none =>
    match length ctx h with
    | .error e => .error e
    | .ok lh =>
      let h1 := lh.2
      let size := lh.1 - h1.position
      match readrange ctx h1 h1.position (h1.position + size) true with
      | .error e => .error e
      | .ok fh => .ok (fh.1, { fh.2 with position := fh.2.position + size })

/-- The growth loop of `truncate`: for every block index below
`final_blocks` whose derived key is absent, write a zero-filled block. -/
def allocBlocksGo (ctx : Ctx) (key : List Nat) : Store → Nat → Nat → Except (YErr × Store) Store
  | s, _, 0 => .ok s
  | s, idx, count + 1 =>
    let k := constructNodeBlockKey ctx key idx
    let p := keyExists ctx.H s k
    if p.2 = 0 then
      match writeBlock ctx.H p.1 k (List.replicate p.1.blockSize 0) false with
      | .error e => .error e
      | .ok s2 => allocBlocksGo ctx key s2 (idx + 1) count
    else allocBlocksGo ctx key p.1 (idx + 1) count

/-- The shrink loop of `truncate`: discard the derived keys
`first, …, first+count-1`. -/
def discardBlocksGo (ctx : Ctx) (key : List Nat) : Store → Nat → Nat → Except (YErr × Store) Store
  | s, _, 0 => .ok s
  | s, idx, count + 1 =>
    match discardBlock ctx.H s (constructNodeBlockKey ctx key idx) with
    | .error e => .error e
    | .ok s2 => discardBlocksGo ctx key s2 (idx + 1) count

/-- `MultiblockFileHandle.truncate(size)`: allocate or discard derived
blocks as needed, then rewrite the metadata with the new `size` and
block count.  The cursor is untouched. -/
def truncate (ctx : Ctx) (h : Handle) (size? : Option Nat) :
    Except (YErr × Handle) Handle :=
  match length ctx h with
  | .error e => .error e
  | .ok lh =>
    let currentSize := lh.1
    let h1 := lh.2
    let size := size?.getD currentSize
    let finalBlocks := ceilDiv size h1.st.blockSize
    let currentBlocks := ceilDiv currentSize h1.st.blockSize
    let step : Except (YErr × Store) Store :=
      if currentBlocks < finalBlocks then allocBlocksGo ctx h1.key h1.st 0 finalBlocks
      else if finalBlocks < currentBlocks then
        discardBlocksGo ctx h1.key h1.st finalBlocks (currentBlocks - finalBlocks)
      else .ok h1.st
    match step with
    | .error e => .error (e.1, { h1 with st := e.2 })
    | .ok s2 =>
      match getNodeProperties ctx s2 h1.key with
      | .error e => .error (e.1, { h1 with st := e.2 })
      | .ok ps =>
        let props := ps.1
        match setNodeProperties ctx ps.2 h1.key { props with size := size, blocks := finalBlocks } with
        | .error e => .error (e.1, { h1 with st := e.2 })
        | .ok s3 => .ok { h1 with st := s3 }

/-- The rewrite loop of `write`: write the spliced buffer back in
block-size chunks (`chunk_buffer[ipos:ipos+block_size]`) starting at
derived block `first`. -/
def writeBlocksGo (ctx : Ctx) (key : List Nat) : Store → List Nat → Nat → Nat → Nat → Except (YErr × Store) Store
  | s, _, _, _, 0 => .ok s
  | s, buf, ipos, first, count + 1 =>
    match writeBlock ctx.H s (constructNodeBlockKey ctx key first) ((buf.drop ipos).take s.blockSize) false with
    | .error e => .error e
    | .ok s2 => writeBlocksGo ctx key s2 buf (ipos + s2.blockSize) (first + 1) count

/-- `MultiblockFileHandle.write(b)`: grow the node when the write extends
past the current length, read the touched block span unpadded, splice the
payload in at the right offset, rewrite the span in block-size chunks,
and advance the cursor. -/
def write (ctx : Ctx) (h : Handle) (b : List Nat) :
    Except (YErr × Handle) (Nat × Handle) :=
  match length ctx h with
  | .error e => .error e
  | .ok lh =>
    let h1 := lh.2
    let grow : Except (YErr × Handle) Handle :=
      if lh.1 < h1.position + b.length then truncate ctx h1 (some (h1.position + b.length))
      else .ok h1
    match grow with
    | .error e => .error e
    | .ok h2 =>
      let sb := h2.position / h2.st.blockSize
      let eb := ceilDiv (h2.position + b.length) h2.st.blockSize
      match readrange ctx h2 h2.position (h2.position + b.length) false with
      | .error e => .error e
      | .ok fh =>
        let h3 := fh.2
        let cleanStart := h3.position - sb * h3.st.blockSize
        let buf := (fh.1.take cleanStart) ++ b ++ fh.1.drop (cleanStart + b.length)
        match writeBlocksGo ctx h3.key h3.st buf 0 sb (eb - sb) with
        | .error e => .error (e.1, { h3 with st := e.2 })
        | .ok s4 => .ok (b.length, { h3 with st := s4, position := h3.position + b.length })

end Handle

/-!
Abstract view of a well-formed backing file: a list of regions, each
either an index segment (a list of decoded cells) or a block region (raw
bytes).  `render` lays the regions out as the byte file: each segment is
rendered as its header followed by its encoded cells, where the header's
continuation field points at the next segment region (or 0 for the last
one); each block region is rendered as its raw bytes.  Every file the
code ever produces is the rendering of such a region list, so the
universally-quantified claims are stated over rendered stores.
-/

/-- A region of the backing file: an index segment or a block region. -/
inductive Region where
  | seg (cells : List CellT)
  | blk (data : List Nat)
deriving DecidableEq

/-- Abstract store: configured sizes plus the region layout. -/
structure Abs where
  iSize : Nat
  bSize : Nat
  regions : List Region
deriving DecidableEq

/-- Rendered size of one region. -/
def regLen : Region → Nat
  | .seg cs => 9 + 15 * cs.length
  | .blk d => d.length

/-- Total rendered size of a region list. -/
def sumLens : List Region → Nat
  | [] => 0
  | r :: rest => regLen r + sumLens rest

/-- Offset of the first segment in a region list laid out from `off`,
or 0 when the list holds no segment. -/
def nextSegOff : Nat → List Region → Nat
  | _, [] => 0
  | off, .seg _ :: _ => off
  | off, .blk d :: rest => nextSegOff (off + d.length) rest

/-- Concatenated encoding of a cell list. -/
def cellsBytes : List CellT → List Nat
  | [] => []
  | c :: cs => encodeCell c ++ cellsBytes cs

/-- Layout of a region list starting at byte offset `off`. -/
def renderGo (isz bsz : Nat) : List Region → Nat → List Nat
  | [], _ => []
  | .seg cs :: rest, off =>
    encodeHeaderC (nextSegOff (off + (9 + 15 * cs.length)) rest) isz bsz
      ++ cellsBytes cs ++ renderGo isz bsz rest (off + (9 + 15 * cs.length))
  | .blk d :: rest, off => d ++ renderGo isz bsz rest (off + d.length)

/-- The byte file of an abstract store. -/
def render (A : Abs) : List Nat := renderGo A.iSize A.bSize A.regions 0

/-- The concrete store of an abstract store. -/
def toStore (A : Abs) : Store := ⟨render A, A.iSize, A.bSize⟩

/-- Offsets and cells of one segment whose cell array starts at `base`. -/
def cellsOfSegA : Nat → List CellT → List (Nat × CellT)
  | _, [] => []
  | base, c :: cs => (base, c) :: cellsOfSegA (base + 15) cs

/-- All cell offsets and cells of a region list laid out from `off`, in
scan order. -/
def cellsA : List Region → Nat → List (Nat × CellT)
  | [], _ => []
  | .seg cs :: rest, off => cellsOfSegA (off + 9) cs ++ cellsA rest (off + (9 + 15 * cs.length))
  | .blk d :: rest, off => cellsA rest (off + d.length)

/-- All block-region offsets and data of a region list laid out from
`off`. -/
def blkA : List Region → Nat → List (Nat × List Nat)
  | [], _ => []
  | .seg cs :: rest, off => blkA rest (off + (9 + 15 * cs.length))
  | .blk d :: rest, off => (off, d) :: blkA rest (off + d.length)

/-- Offsets and decoded headers of the segments of a region list, in
chain order. -/
def segHeadersA (isz bsz : Nat) : List Region → Nat → List (Nat × IndexHeaderT)
  | [], _ => []
  | .seg cs :: rest, off =>
    let nxt := nextSegOff (off + (9 + 15 * cs.length)) rest
    (off, ⟨nxt != 0, nxt, isz, bsz⟩) :: segHeadersA isz bsz rest (off + (9 + 15 * cs.length))
  | .blk d :: rest, off => segHeadersA isz bsz rest (off + d.length)

/-- Number of segments of a region list. -/
def segCount : List Region → Nat
  | [] => 0
  | .seg _ :: rest => segCount rest + 1
  | .blk _ :: rest => segCount rest

/-- Replacement of the cell at index `j`. -/
def setCellsAt : List CellT → Nat → CellT → List CellT
  | [], _, _ => []
  | _ :: cs, 0, c => c :: cs
  | c0 :: cs, j + 1, c => c0 :: setCellsAt cs j c

/-- Replacement of the cell whose byte offset is `pos` (meaningful when
`pos` is one of the offsets of `cellsA`). -/
def setCellR : List Region → Nat → Nat → CellT → List Region
  | [], _, _, _ => []
  | .seg cs :: rest, off, pos, c =>
    if pos < off + (9 + 15 * cs.length) then
      .seg (setCellsAt cs ((pos - (off + 9)) / 15) c) :: rest
    else .seg cs :: setCellR rest (off + (9 + 15 * cs.length)) pos c
  | .blk d :: rest, off, pos, c => .blk d :: setCellR rest (off + d.length) pos c

/-- Overlay of `v` at the start of the block region whose byte offset is
`pos` (meaningful when `pos` is one of the offsets of `blkA`). -/
def setBlkR : List Region → Nat → Nat → List Nat → List Region
  | [], _, _, _ => []
  | .seg cs :: rest, off, pos, v => .seg cs :: setBlkR rest (off + (9 + 15 * cs.length)) pos v
  | .blk d :: rest, off, pos, v =>
    if pos = off then .blk (v ++ d.drop v.length) :: rest
    else .blk d :: setBlkR rest (off + d.length) pos v

/-- Bounds required of every cell of a well-formed store. -/
def cellOKb (bsz : Nat) (c : CellT) : Bool :=
  decide (c.keyHash < 2 ^ 64) && decide (c.dataOffset < 2 ^ 32) && decide (c.dataLength ≤ bsz)
  && (!c.occupied || decide (c.dataOffset ≠ 0))

/-- Structural requirements on each region: segments carry exactly
`index_size / 15` in-bounds cells, block regions carry exactly
`block_size` bytes. -/
def regionsOKb (isz bsz : Nat) : List Region → Bool
  | [] => true
  | .seg cs :: rest => (cs.length == nIdxOf isz) && cs.all (cellOKb bsz) && regionsOKb isz bsz rest
  | .blk d :: rest => (d.length == bsz) && regionsOKb isz bsz rest

/-- The first region is a segment (the file starts with the initial
index segment at offset 0). -/
def headSegB : List Region → Bool
  | .seg _ :: _ => true
  | _ => false

/-- Well-formedness of an abstract store: structural region bounds, the
first region a segment, every nonzero `data_offset` the offset of a
block region, distinct cells never sharing a nonzero `data_offset`,
size fields within their packed widths, and the whole file within the
32-bit offset space. -/
def WF (A : Abs) : Prop :=
  headSegB A.regions = true ∧
  regionsOKb A.iSize A.bSize A.regions = true ∧
  (∀ pc ∈ cellsA A.regions 0, pc.2.dataOffset = 0 ∨
    ∃ bd ∈ blkA A.regions 0, bd.1 = pc.2.dataOffset) ∧
  List.Pairwise (fun a b : Nat × CellT =>
    a.2.dataOffset = 0 ∨ b.2.dataOffset = 0 ∨ a.2.dataOffset ≠ b.2.dataOffset)
    (cellsA A.regions 0) ∧
  A.iSize < 2 ^ 16 ∧ A.bSize < 2 ^ 16 ∧ 0 < A.bSize ∧ 15 ≤ A.iSize ∧
  (render A).length < 2 ^ 32

/-- Number of unoccupied cells of an abstract store. -/
def freeCount (A : Abs) : Nat :=
  (cellsA A.regions 0).countP (fun pc => pc.2.occupied == false)

/-- The fresh all-unoccupied segment appended by `createIndex` (its
default-constructed cells hash the empty key). -/
def emptySeg (H : List Nat → Nat) (isz : Nat) : Region :=
  .seg (List.replicate (nIdxOf isz) ⟨false, H [], 0, 0⟩)

/-- The abstract effect of `createIndex`. -/
def growA (H : List Nat → Nat) (A : Abs) : Abs :=
  ⟨A.iSize, A.bSize, A.regions ++ [emptySeg H A.iSize]⟩

/-- Number of `createIndex` calls needed to write `m` fresh keys into a
store holding `f` free cells with `n` cells per segment. -/
def neededGrowth (m f n : Nat) : Nat :=
  if m ≤ f then 0 else ceilDiv (m - f) n

/-- Iterated `writeBlock` over a list of key/value pairs (all with
`hard = false`). -/
def writeMany (H : List Nat → Nat) (s : Store) : List (List Nat × List Nat) → Except (YErr × Store) Store
  | [] => .ok s
  | kv :: rest =>
    match writeBlock H s kv.1 kv.2 false with
    | .error e => .error e
    | .ok s2 => writeMany H s2 rest

/-- Abstract effect of the common tail of `writeBlock` on a store whose
key cell (at offset `p`, currently holding `c`) is already resolved: the
cell is rewritten with the key's hash and the value's length, and the
value is spliced into the block region at the cell's `data_offset`. -/
def wbTailA (H : List Nat → Nat) (A : Abs) (key value : List Nat) (p : Nat) (c : CellT) : Abs :=
  ⟨A.iSize, A.bSize,
    setBlkR (setCellR A.regions 0 p ⟨c.occupied, H key, c.dataOffset, value.length⟩)
      0 c.dataOffset value⟩

/-- The cell stored at byte offset `p`, looked up in scan order (the
dictionary built by `getIndexesCells`, keyed by offset). -/
def cellAt (l : List (Nat × CellT)) (p : Nat) : Option CellT :=
  (l.find? (fun pc => pc.1 == p)).map (fun pc => pc.2)

/-- The block region starting at byte offset `o`. -/
def blkAt (l : List (Nat × List Nat)) (o : Nat) : Option (List Nat) :=
  (l.find? (fun pd => pd.1 == o)).map (fun pd => pd.2)

/-- The value `readBlock` yields for a key of hash `hk` on an abstract
store: the first `data_length` bytes of the matched cell's block region,
or nothing when no occupied cell matches. -/
def lookupA (A : Abs) (hk : Nat) : Option (List Nat) :=
  let p := findMatch hk (cellsA A.regions 0)
  if p = 0 then none
  else
    match cellAt (cellsA A.regions 0) p with
    | none => none
    | some c =>
      match blkAt (blkA A.regions 0) c.dataOffset with
      | none => none
      | some d => some (d.take c.dataLength)

/-- Cells whose `data_offset` was never assigned (still `0`) occur only
after every assigned cell.  `requestFreeIndexCell` returns the first
unoccupied cell, so a cell is assigned a block region only while every
earlier cell is occupied, and a `data_offset`, once nonzero, is never
reset (`discardBlock` and `writeBlock` both retain it).  Every store
reachable through the interface from a fresh file therefore satisfies
this predicate. -/
def allocPrefix (A : Abs) : Prop :=
  List.Pairwise (fun a b : Nat × CellT => a.2.dataOffset = 0 → b.2.dataOffset = 0)
    (cellsA A.regions 0)

/-- Every unoccupied cell stores the hash of the empty key: fresh cells
are `constructIndexCell()` built from `key = b''`, and `discardBlock`
rewrites the discarded cell with `key = b''`.  Every store reachable
through the interface satisfies this predicate. -/
def freeHash (H : List Nat → Nat) (A : Abs) : Prop :=
  ∀ pc ∈ cellsA A.regions 0, pc.2.occupied = false → pc.2.keyHash = H []

/-- A concrete stand-in for `xxhash.xxh64(...).intdigest()`: any function
into the 64-bit range works for the universally-quantified results, and
this one is cheap to evaluate on the closed instances below. -/
def tH : List Nat → Nat := fun k => (k.foldl (fun a b => a * 257 + b + 1) 1) % 2 ^ 64

/-- A concrete stand-in for `hashlib.sha256(...).digest()`. -/
def tD : List Nat → List Nat := fun l => l

/-- A concrete stand-in for `pickle.dumps` on node-property dicts. -/
def tEnc : NodeProps → List Nat := fun p => p.blocks :: p.size :: p.key

/-- The inverse of `tEnc`, standing in for `pickle.loads`. -/
def tDec : List Nat → NodeProps := fun l => ⟨l.drop 2, l.getD 0 0, l.getD 1 0⟩

/-- The concrete collaborators used by the closed instances. -/
def tCtx : Ctx := ⟨tH, tD, tEnc, tDec⟩

/-- A fresh store (`index_size = 30`, `block_size = 4`): one segment of
two unoccupied cells, as `createIndex` lays it out on an empty file. -/
def c1A : Abs := ⟨30, 4, [.seg [⟨false, tH [], 0, 0⟩, ⟨false, tH [], 0, 0⟩]]⟩

/-- A store holding one key (hash `tH [1]`, cell at offset 9, block at
offset 39) next to one never-used cell. -/
def c5A : Abs := ⟨30, 4, [.seg [⟨true, tH [1], 39, 2⟩, ⟨false, tH [], 0, 0⟩],
  .blk [5, 6, 0, 0]]⟩

/-- A store holding the node metadata of key `[9]` (`blocks = 1`,
`size = 4`, pickled by `tEnc` as `[1, 4, 9]`). -/
def c9A : Abs := ⟨30, 4, [.seg [⟨true, tH [9], 39, 3⟩, ⟨false, tH [], 0, 0⟩],
  .blk [1, 4, 9, 0]]⟩

/-- A store holding the derived block 0 of node key `[7]` with payload
`[9, 9, 9, 9]`. -/
def c2A : Abs := ⟨30, 4,
  [.seg [⟨true, tH (constructNodeBlockKey tCtx [7] 0), 39, 4⟩, ⟨false, tH [], 0, 0⟩],
   .blk [9, 9, 9, 9]]⟩

/-- A store holding the node metadata of key `[9]` (`blocks = 1`,
`size = 2`) and its derived block 0 with payload `[8, 8, 0, 0]`. -/
def c3A : Abs := ⟨30, 4,
  [.seg [⟨true, tH [9], 39, 3⟩, ⟨true, tH (constructNodeBlockKey tCtx [9] 0), 43, 4⟩],
   .blk [1, 2, 9, 0], .blk [8, 8, 0, 0]]⟩

/-!
Byte-level lemmas: lengths, encode/decode round trips, and the algebra
of `writeBytes` / `readBytes` over concatenations.
-/

theorem encLE_length (w n : Nat) : (encLE w n).length = w := by
  induction w generalizing n with
  | zero => rfl
  | succ w ih => simp [encLE, ih]

theorem encodeCell_length (c : CellT) : (encodeCell c).length = 15 := by
  simp [encodeCell, encBool, encLE_length]

theorem encodeHeaderC_length (cont isz bsz : Nat) : (encodeHeaderC cont isz bsz).length = 9 := by
  simp [encodeHeaderC, encBool, encLE_length]

theorem cellsBytes_length (cs : List CellT) : (cellsBytes cs).length = 15 * cs.length := by
  induction cs with
  | nil => rfl
  | cons c cs ih => simp [cellsBytes, encodeCell_length, ih]; ring

theorem getD_drop (f : List Nat) (p i : Nat) : (f.drop p).getD i 0 = f.getD (p + i) 0 := by
  induction f generalizing p with
  | nil => simp
  | cons x t ih =>
    cases p with
    | zero => simp
    | succ p => simp [Nat.succ_add, ih p]

theorem decLE_drop (f : List Nat) (w : Nat) : ∀ p i, decLE (f.drop p) w i = decLE f w (p + i) := by
  induction w with
  | zero => intro p i; rfl
  | succ w ih =>
    intro p i
    simp only [decLE, getD_drop, ih p (i + 1), Nat.add_assoc]

theorem getD_append_r (a b : List Nat) (i : Nat) : (a ++ b).getD (a.length + i) 0 = b.getD i 0 := by
  induction a with
  | nil => simp
  | cons x t ih => simpa [Nat.succ_add] using ih

theorem decLE_append_r (a b : List Nat) (w : Nat) : ∀ p, decLE (a ++ b) w (a.length + p) = decLE b w p := by
  induction w with
  | zero => intro p; rfl
  | succ w ih =>
    intro p
    simp only [decLE, getD_append_r, Nat.add_assoc, ih (p + 1)]

theorem decLE_encLE (w : Nat) : ∀ (n : Nat) (rest : List Nat),
    decLE (encLE w n ++ rest) w 0 = n % 256 ^ w := by
  induction w with
  | zero => intro n rest; simp [decLE, Nat.mod_one]
  | succ w ih =>
    intro n rest
    have h1 : decLE ((n % 256) :: (encLE w (n / 256) ++ rest)) w 1
        = decLE (encLE w (n / 256) ++ rest) w 0 := by
      have := decLE_append_r [n % 256] (encLE w (n / 256) ++ rest) w 0
      simpa using this
    have h2 : n % 256 ^ (w + 1) = n % 256 + 256 * (n / 256 % 256 ^ w) := by
      rw [Nat.pow_succ, Nat.mul_comm, Nat.mod_mul]
    simp only [encLE, List.cons_append, List.append_eq, decLE, List.getD_cons_zero, h1, ih, h2]

theorem decBool_cons (x : Nat) (l : List Nat) : decBool (x :: l) 0 = (x != 0) := by
  simp [decBool]

theorem decodeCell_drop (f : List Nat) (p : Nat) : decodeCell f p = decodeCell (f.drop p) 0 := by
  unfold decodeCell decBool
  rw [getD_drop, decLE_drop, decLE_drop, decLE_drop]
  norm_num

theorem decodeHeader_drop (f : List Nat) (p : Nat) : decodeHeader f p = decodeHeader (f.drop p) 0 := by
  unfold decodeHeader decBool
  rw [getD_drop, decLE_drop, decLE_drop, decLE_drop]
  norm_num

theorem decodeCell_encodeCell (c : CellT) (rest : List Nat) :
    decodeCell (encodeCell c ++ rest) 0 =
      ⟨c.occupied, c.keyHash % 2 ^ 64, c.dataOffset % 2 ^ 32, c.dataLength % 2 ^ 16⟩ := by
  have e1 : encodeCell c ++ rest
      = (if c.occupied then 1 else 0) ::
        (encLE 8 c.keyHash ++ (encLE 4 c.dataOffset ++ (encLE 2 c.dataLength ++ rest))) := by
    simp [encodeCell, encBool]
  have hocc : decBool (encodeCell c ++ rest) 0 = c.occupied := by
    rw [e1, decBool_cons]; cases c.occupied <;> simp
  have hkh : decLE (encodeCell c ++ rest) 8 1 = c.keyHash % 2 ^ 64 := by
    rw [e1]
    have := decLE_append_r [if c.occupied then 1 else 0]
      (encLE 8 c.keyHash ++ (encLE 4 c.dataOffset ++ (encLE 2 c.dataLength ++ rest))) 8 0
    simp only [List.length_singleton, List.singleton_append] at this
    rw [this, decLE_encLE]
    norm_num
  have hdo : decLE (encodeCell c ++ rest) 4 9 = c.dataOffset % 2 ^ 32 := by
    have e2 : encodeCell c ++ rest
        = ((if c.occupied then 1 else 0) :: encLE 8 c.keyHash)
          ++ (encLE 4 c.dataOffset ++ (encLE 2 c.dataLength ++ rest)) := by
      simp [encodeCell, encBool]
    have hl : ((if c.occupied then 1 else 0) :: encLE 8 c.keyHash).length = 9 := by
      simp [encLE_length]
    rw [e2]
    have := decLE_append_r ((if c.occupied then 1 else 0) :: encLE 8 c.keyHash)
      (encLE 4 c.dataOffset ++ (encLE 2 c.dataLength ++ rest)) 4 0
    rw [hl] at this
    simpa [decLE_encLE] using this
  have hdl : decLE (encodeCell c ++ rest) 2 13 = c.dataLength % 2 ^ 16 := by
    have e2 : encodeCell c ++ rest
        = ((if c.occupied then 1 else 0) :: (encLE 8 c.keyHash ++ encLE 4 c.dataOffset))
          ++ (encLE 2 c.dataLength ++ rest) := by
      simp [encodeCell, encBool]
    have hl : ((if c.occupied then 1 else 0) :: (encLE 8 c.keyHash ++ encLE 4 c.dataOffset)).length = 13 := by
      simp [encLE_length]
    rw [e2]
    have := decLE_append_r
      ((if c.occupied then 1 else 0) :: (encLE 8 c.keyHash ++ encLE 4 c.dataOffset))
      (encLE 2 c.dataLength ++ rest) 2 0
    rw [hl] at this
    simpa [decLE_encLE] using this
  unfold decodeCell
  rw [hocc, hkh, hdo, hdl]

theorem decodeHeader_encodeHeaderC (cont isz bsz : Nat) (rest : List Nat) :
    decodeHeader (encodeHeaderC cont isz bsz ++ rest) 0 =
      ⟨cont != 0, cont % 2 ^ 32, isz % 2 ^ 16, bsz % 2 ^ 16⟩ := by
  have e1 : encodeHeaderC cont isz bsz ++ rest
      = (if cont != 0 then 1 else 0) :: (encLE 4 cont ++ (encLE 2 isz ++ (encLE 2 bsz ++ rest))) := by
    simp [encodeHeaderC, encBool]
  have hocc : decBool (encodeHeaderC cont isz bsz ++ rest) 0 = (cont != 0) := by
    rw [e1, decBool_cons]; cases h : (cont != 0) <;> simp
  have hc : decLE (encodeHeaderC cont isz bsz ++ rest) 4 1 = cont % 2 ^ 32 := by
    rw [e1]
    have := decLE_append_r [if cont != 0 then 1 else 0]
      (encLE 4 cont ++ (encLE 2 isz ++ (encLE 2 bsz ++ rest))) 4 0
    simp only [List.length_singleton, List.singleton_append] at this
    rw [this, decLE_encLE]
    norm_num
  have hi : decLE (encodeHeaderC cont isz bsz ++ rest) 2 5 = isz % 2 ^ 16 := by
    have e2 : encodeHeaderC cont isz bsz ++ rest
        = ((if cont != 0 then 1 else 0) :: encLE 4 cont) ++ (encLE 2 isz ++ (encLE 2 bsz ++ rest)) := by
      simp [encodeHeaderC, encBool]
    have hl : ((if cont != 0 then 1 else 0) :: encLE 4 cont).length = 5 := by
      simp [encLE_length]
    rw [e2]
    have := decLE_append_r ((if cont != 0 then 1 else 0) :: encLE 4 cont)
      (encLE 2 isz ++ (encLE 2 bsz ++ rest)) 2 0
    rw [hl] at this
    simpa [decLE_encLE] using this
  have hb : decLE (encodeHeaderC cont isz bsz ++ rest) 2 7 = bsz % 2 ^ 16 := by
    have e2 : encodeHeaderC cont isz bsz ++ rest
        = ((if cont != 0 then 1 else 0) :: (encLE 4 cont ++ encLE 2 isz)) ++ (encLE 2 bsz ++ rest) := by
      simp [encodeHeaderC, encBool]
    have hl : ((if cont != 0 then 1 else 0) :: (encLE 4 cont ++ encLE 2 isz)).length = 7 := by
      simp [encLE_length]
    rw [e2]
    have := decLE_append_r ((if cont != 0 then 1 else 0) :: (encLE 4 cont ++ encLE 2 isz))
      (encLE 2 bsz ++ rest) 2 0
    rw [hl] at this
    simpa [decLE_encLE] using this
  unfold decodeHeader
  rw [hocc, hc, hi, hb]

theorem writeBytes_length (f : List Nat) (p : Nat) (d : List Nat) :
    (writeBytes f p d).length = max (p + d.length) f.length := by
  simp only [writeBytes, List.length_append, List.length_take, List.length_replicate,
    List.length_drop]
  omega

theorem writeBytes_zero (f d : List Nat) : writeBytes f 0 d = d ++ f.drop d.length := by
  simp [writeBytes]

theorem writeBytes_append_r (a b : List Nat) (p : Nat) (d : List Nat) :
    writeBytes (a ++ b) (a.length + p) d = a ++ writeBytes b p d := by
  unfold writeBytes
  rw [List.length_append]
  have h2 : a.length + p - (a.length + b.length) = p - b.length := by omega
  rw [h2, List.append_assoc a b, List.take_append p]
  have h3 : (a ++ b).drop (a.length + p + d.length) = b.drop (p + d.length) := by
    have h4 : (a ++ b).drop (a.length + (p + d.length)) = b.drop (p + d.length) :=
      List.drop_append _
    rw [← h4]; congr 1; omega
  rw [h3]
  simp [List.append_assoc]

theorem writeBytes_append_l (a b : List Nat) (p : Nat) (d : List Nat)
    (h : p + d.length ≤ a.length) :
    writeBytes (a ++ b) p d = writeBytes a p d ++ b := by
  unfold writeBytes
  have h1 : p - (a ++ b).length = 0 := by simp; omega
  have h2 : p - a.length = 0 := by omega
  have h3 : (a ++ b ++ List.replicate 0 0).take p = a.take p := by
    simp only [List.replicate_zero, List.append_nil]
    exact List.take_append_of_le_length (by omega)
  have h4 : (a ++ List.replicate 0 0).take p = a.take p := by
    simp only [List.replicate_zero, List.append_nil]
  have h5 : (a ++ b).drop (p + d.length) = a.drop (p + d.length) ++ b :=
    List.drop_append_of_le_length h
  rw [h1, h2, h3, h4, h5]
  simp [List.append_assoc]

theorem writeBytes_at_end (f d : List Nat) : writeBytes f f.length d = f ++ d := by
  unfold writeBytes
  simp [List.drop_eq_nil_of_le]

theorem truncFile_extend (f : List Nat) (n : Nat) :
    truncFile f (f.length + n) = f ++ List.replicate n 0 := by
  unfold truncFile
  rw [List.take_of_length_le (by omega)]
  have h : f.length + n - f.length = n := by omega
  rw [h]

theorem readBytes_append_r (a b : List Nat) (p n : Nat) :
    readBytes (a ++ b) (a.length + p) n = readBytes b p n := by
  unfold readBytes
  rw [List.drop_append]

theorem readBytes_le (a b : List Nat) (p n : Nat) (h : p + n ≤ a.length) :
    readBytes (a ++ b) p n = readBytes a p n := by
  unfold readBytes
  rw [List.drop_append_of_le_length (by omega)]
  exact List.take_append_of_le_length (by simp; omega)

theorem renderGo_length (isz bsz : Nat) (rs : List Region) : ∀ off,
    (renderGo isz bsz rs off).length = sumLens rs := by
  induction rs with
  | nil => intro off; rfl
  | cons r rest ih =>
    intro off
    cases r with
    | seg cs =>
      simp [renderGo, sumLens, regLen, encodeHeaderC_length, cellsBytes_length, ih]
      omega
    | blk d =>
      simp [renderGo, sumLens, regLen, ih]

/-!
Refinement of the index walk: on a rendered well-formed store,
`getIndexes` returns exactly the segments of the abstract store (in
chain order) and leaves the store unchanged, and `getIndexesCells`
returns exactly the abstract cell listing.
-/

theorem drop_trans (F X Y : List Nat) (off : Nat) (h : F.drop off = X ++ Y) :
    F.drop (off + X.length) = Y := by
  have h2 := List.drop_drop X.length off F
  rw [← h2, h, List.drop_left]

theorem headSeg_cases (rs : List Region) (h : headSegB rs = true) :
    ∃ cs rest, rs = .seg cs :: rest := by
  cases rs with
  | nil => simp [headSegB] at h
  | cons r rest =>
    cases r with
    | seg cs => exact ⟨cs, rest, rfl⟩
    | blk d => simp [headSegB] at h

theorem segCount_le_sumLens (rs : List Region) : 9 * segCount rs ≤ sumLens rs := by
  induction rs with
  | nil => simp [segCount, sumLens]
  | cons r rest ih =>
    cases r with
    | seg cs => simp [segCount, sumLens, regLen]; omega
    | blk d => simp [segCount, sumLens, regLen]; omega

theorem nextSegOff_zero_iff (rs : List Region) : ∀ off, 0 < off →
    (nextSegOff off rs = 0 ↔ segCount rs = 0) := by
  induction rs with
  | nil => intro off hoff; simp [nextSegOff, segCount]
  | cons r rest ih =>
    intro off hoff
    cases r with
    | seg cs => simp [nextSegOff, segCount]; omega
    | blk d => simpa [nextSegOff, segCount] using ih (off + d.length) (by omega)

theorem nextSegOff_le (rs : List Region) : ∀ off, nextSegOff off rs ≤ off + sumLens rs := by
  induction rs with
  | nil => intro off; simp [nextSegOff]
  | cons r rest ih =>
    intro off
    cases r with
    | seg cs => simp [nextSegOff]
    | blk d =>
      have := ih (off + d.length)
      simp only [nextSegOff, sumLens, regLen]
      omega

theorem segHeadersA_nil (isz bsz : Nat) (rs : List Region) (h : segCount rs = 0) :
    ∀ off, segHeadersA isz bsz rs off = [] := by
  induction rs with
  | nil => intro off; rfl
  | cons r rest ih =>
    intro off
    cases r with
    | seg cs => simp [segCount] at h
    | blk d => exact ih (by simpa [segCount] using h) _

theorem segHeadersA_fields (isz bsz : Nat) (rs : List Region) : ∀ off ph,
    ph ∈ segHeadersA isz bsz rs off → ph.2.iSize = isz ∧ ph.2.bSize = bsz := by
  induction rs with
  | nil => intro off ph hm; simp [segHeadersA] at hm
  | cons r rest ih =>
    intro off ph hm
    cases r with
    | seg cs =>
      simp only [segHeadersA, List.mem_cons] at hm
      rcases hm with hm | hm
      · subst hm; exact ⟨rfl, rfl⟩
      · exact ih _ _ hm
    | blk d => exact ih _ _ hm

theorem chainSkip (isz bsz : Nat) (F : List Nat) (rs : List Region) : ∀ off,
    F.drop off = renderGo isz bsz rs off → segCount rs ≠ 0 →
    ∃ cs rest2,
      F.drop (nextSegOff off rs) = renderGo isz bsz (.seg cs :: rest2) (nextSegOff off rs) ∧
      segCount rs = segCount rest2 + 1 ∧
      segHeadersA isz bsz rs off = segHeadersA isz bsz (.seg cs :: rest2) (nextSegOff off rs) := by
  induction rs with
  | nil => intro off _ hsc; simp [segCount] at hsc
  | cons r rest ih =>
    intro off hdrop hsc
    cases r with
    | seg cs =>
      refine ⟨cs, rest, ?_, rfl, rfl⟩
      simpa [nextSegOff] using hdrop
    | blk d =>
      have hdrop2 : F.drop (off + d.length) = renderGo isz bsz rest (off + d.length) := by
        have : F.drop off = d ++ renderGo isz bsz rest (off + d.length) := by
          simpa [renderGo] using hdrop
        have h2 := drop_trans F d (renderGo isz bsz rest (off + d.length)) off this
        simpa using h2
      have hsc2 : segCount rest ≠ 0 := by simpa [segCount] using hsc
      obtain ⟨cs, rest2, h1, h2, h3⟩ := ih (off + d.length) hdrop2 hsc2
      exact ⟨cs, rest2, by simpa [nextSegOff] using h1, by simpa [segCount] using h2,
        by simpa [segHeadersA, nextSegOff] using h3⟩

theorem drop_render_seg_len (isz bsz : Nat) (F : List Nat) (cs : List CellT)
    (rest : List Region) (off : Nat)
    (h : F.drop off = renderGo isz bsz (.seg cs :: rest) off) :
    off + (9 + 15 * cs.length + sumLens rest) = F.length ∧ off < F.length := by
  have hl := congrArg List.length h
  rw [renderGo_length] at hl
  simp only [List.length_drop, sumLens, regLen] at hl
  omega

theorem getIndexesGo_renders (isz bsz : Nat) (F : List Nat)
    (hisz : isz < 2 ^ 16) (hbsz : bsz < 2 ^ 16) (hF : F.length < 2 ^ 32) :
    ∀ fuel cs rest off, segCount rest < fuel →
      F.drop off = renderGo isz bsz (.seg cs :: rest) off →
      getIndexesGo F fuel off = segHeadersA isz bsz (.seg cs :: rest) off := by
  intro fuel
  induction fuel with
  | zero => intro cs rest off hf; omega
  | succ fuel ih =>
    intro cs rest off hf hdrop
    obtain ⟨hsum, hlt⟩ := drop_render_seg_len isz bsz F cs rest off hdrop
    have hdrop' : F.drop off
        = encodeHeaderC (nextSegOff (off + (9 + 15 * cs.length)) rest) isz bsz
          ++ (cellsBytes cs ++ renderGo isz bsz rest (off + (9 + 15 * cs.length))) := by
      rw [hdrop]
      simp [renderGo, List.append_assoc]
    have hnxtle : nextSegOff (off + (9 + 15 * cs.length)) rest ≤ F.length := by
      have := nextSegOff_le rest (off + (9 + 15 * cs.length))
      omega
    have hdec : decodeHeader F off
        = ⟨nextSegOff (off + (9 + 15 * cs.length)) rest != 0,
           nextSegOff (off + (9 + 15 * cs.length)) rest, isz, bsz⟩ := by
      rw [decodeHeader_drop, hdrop', decodeHeader_encodeHeaderC]
      have h1 : nextSegOff (off + (9 + 15 * cs.length)) rest % 2 ^ 32
          = nextSegOff (off + (9 + 15 * cs.length)) rest := Nat.mod_eq_of_lt (by omega)
      have h2 : isz % 2 ^ 16 = isz := Nat.mod_eq_of_lt hisz
      have h3 : bsz % 2 ^ 16 = bsz := Nat.mod_eq_of_lt hbsz
      rw [h1, h2, h3]
    have hgoal : segHeadersA isz bsz (.seg cs :: rest) off
        = (off, (⟨nextSegOff (off + (9 + 15 * cs.length)) rest != 0,
            nextSegOff (off + (9 + 15 * cs.length)) rest, isz, bsz⟩ : IndexHeaderT))
          :: segHeadersA isz bsz rest (off + (9 + 15 * cs.length)) := by
      simp [segHeadersA]
    by_cases hzero : nextSegOff (off + (9 + 15 * cs.length)) rest = 0
    · have hsc0 : segCount rest = 0 :=
        (nextSegOff_zero_iff rest (off + (9 + 15 * cs.length)) (by omega)).1 hzero
      rw [hgoal, segHeadersA_nil isz bsz rest hsc0]
      simp only [getIndexesGo, if_pos hlt, hdec, hzero]
      simp
    · have hsc : segCount rest ≠ 0 := by
        intro h0
        exact hzero ((nextSegOff_zero_iff rest (off + (9 + 15 * cs.length)) (by omega)).2 h0)
      have hdroprest : F.drop (off + (9 + 15 * cs.length))
          = renderGo isz bsz rest (off + (9 + 15 * cs.length)) := by
        have hstep := drop_trans F
          (encodeHeaderC (nextSegOff (off + (9 + 15 * cs.length)) rest) isz bsz ++ cellsBytes cs)
          (renderGo isz bsz rest (off + (9 + 15 * cs.length))) off
          (by rw [hdrop']; simp [List.append_assoc])
        have hlen : (encodeHeaderC (nextSegOff (off + (9 + 15 * cs.length)) rest) isz bsz
            ++ cellsBytes cs).length = 9 + 15 * cs.length := by
          simp [encodeHeaderC_length, cellsBytes_length]
        rwa [hlen] at hstep
      obtain ⟨cs2, rest2, hd2, hc2, hh2⟩ :=
        chainSkip isz bsz F rest (off + (9 + 15 * cs.length)) hdroprest hsc
      have hih := ih cs2 rest2 (nextSegOff (off + (9 + 15 * cs.length)) rest) (by omega) hd2
      rw [hgoal, hh2]
      simp only [getIndexesGo, if_pos hlt, hdec]
      have hbn : (nextSegOff (off + (9 + 15 * cs.length)) rest != 0) = true := by
        simpa using hzero
      simp only [hbn, if_pos rfl]
      simp only [hih]
      rfl

theorem WF_fields (A : Abs) (h : WF A) :
    headSegB A.regions = true ∧ regionsOKb A.iSize A.bSize A.regions = true ∧
    A.iSize < 2 ^ 16 ∧ A.bSize < 2 ^ 16 ∧ 0 < A.bSize ∧ 15 ≤ A.iSize ∧
    (render A).length < 2 ^ 32 :=
  ⟨h.1, h.2.1, h.2.2.2.2.1, h.2.2.2.2.2.1, h.2.2.2.2.2.2.1, h.2.2.2.2.2.2.2.1, h.2.2.2.2.2.2.2.2⟩

theorem getIndexes_spec (A : Abs) (h : WF A) :
    getIndexes (toStore A) = (toStore A, segHeadersA A.iSize A.bSize A.regions 0) := by
  obtain ⟨hhead, hrok, hisz, hbsz, hbpos, hige, hflen⟩ := WF_fields A h
  obtain ⟨cs, rest, hre⟩ := headSeg_cases A.regions hhead
  have hdrop0 : (render A).drop 0 = renderGo A.iSize A.bSize A.regions 0 := by
    simp [render]
  have hfuel : segCount rest < (render A).length + 1 := by
    have h1 := segCount_le_sumLens A.regions
    have h2 : (render A).length = sumLens A.regions := renderGo_length _ _ _ _
    rw [hre] at h1 h2
    simp only [segCount] at h1
    omega
  have hgo := getIndexesGo_renders A.iSize A.bSize (render A) hisz hbsz hflen
    ((render A).length + 1) cs rest 0 hfuel (by rw [← hre]; exact hdrop0)
  rw [hre] at *
  unfold getIndexes
  simp only [toStore] at *
  rw [hgo]
  have hne : segHeadersA A.iSize A.bSize (Region.seg cs :: rest) 0 ≠ [] := by
    simp [segHeadersA]
  cases hlast : (segHeadersA A.iSize A.bSize (Region.seg cs :: rest) 0).getLast? with
  | none => exact absurd (List.getLast?_eq_none_iff.1 hlast) hne
  | some ph =>
    have hmem : ph ∈ segHeadersA A.iSize A.bSize (Region.seg cs :: rest) 0 := by
      obtain ⟨hne2, heq⟩ := List.mem_getLast?_eq_getLast (Option.mem_def.2 hlast)
      rw [heq]
      exact List.getLast_mem hne2
    obtain ⟨hi, hb⟩ := segHeadersA_fields A.iSize A.bSize (Region.seg cs :: rest) 0 ph hmem
    simp [hi, hb]

theorem cellOKb_bounds (bsz : Nat) (c : CellT) (h : cellOKb bsz c = true) :
    c.keyHash < 2 ^ 64 ∧ c.dataOffset < 2 ^ 32 ∧ c.dataLength ≤ bsz ∧
      (c.occupied = true → c.dataOffset ≠ 0) := by
  simp only [cellOKb, Bool.and_eq_true, Bool.or_eq_true, Bool.not_eq_true',
    decide_eq_true_eq] at h
  refine ⟨h.1.1.1, h.1.1.2, h.1.2, ?_⟩
  intro hocc
  rcases h.2 with h2 | h2
  · rw [hocc] at h2; cases h2
  · exact h2

theorem regionsOKb_seg (isz bsz : Nat) (cs : List CellT) (rest : List Region)
    (h : regionsOKb isz bsz (.seg cs :: rest) = true) :
    cs.length = nIdxOf isz ∧ (∀ c ∈ cs, cellOKb bsz c = true) ∧
      regionsOKb isz bsz rest = true := by
  simp only [regionsOKb, Bool.and_eq_true, beq_iff_eq, List.all_eq_true] at h
  exact ⟨h.1.1, h.1.2, h.2⟩

theorem regionsOKb_blk (isz bsz : Nat) (d : List Nat) (rest : List Region)
    (h : regionsOKb isz bsz (.blk d :: rest) = true) :
    d.length = bsz ∧ regionsOKb isz bsz rest = true := by
  simp only [regionsOKb, Bool.and_eq_true, beq_iff_eq] at h
  exact ⟨h.1, h.2⟩

theorem cellsOfSegB_spec (F : List Nat) (bsz : Nat) (hbsz : bsz < 2 ^ 16) :
    ∀ (cs : List CellT) (off : Nat) (tail : List Nat),
      F.drop off = cellsBytes cs ++ tail →
      (∀ c ∈ cs, cellOKb bsz c = true) →
      cellsOfSegB F off cs.length = cellsOfSegA off cs := by
  intro cs
  induction cs with
  | nil => intro off tail _ _; rfl
  | cons c cs ih =>
    intro off tail hdrop hok
    have hdropc : F.drop off = encodeCell c ++ (cellsBytes cs ++ tail) := by
      simpa [cellsBytes, List.append_assoc] using hdrop
    have hdec : decodeCell F off = c := by
      rw [decodeCell_drop, hdropc, decodeCell_encodeCell]
      obtain ⟨h1, h2, h3, _⟩ := cellOKb_bounds bsz c (hok c (by simp))
      have e1 : c.keyHash % 2 ^ 64 = c.keyHash := Nat.mod_eq_of_lt h1
      have e2 : c.dataOffset % 2 ^ 32 = c.dataOffset := Nat.mod_eq_of_lt h2
      have e3 : c.dataLength % 2 ^ 16 = c.dataLength := Nat.mod_eq_of_lt (by omega)
      rw [e1, e2, e3]
    have hnext : F.drop (off + 15) = cellsBytes cs ++ tail := by
      have hstep := drop_trans F (encodeCell c) (cellsBytes cs ++ tail) off hdropc
      rwa [encodeCell_length] at hstep
    simp [cellsOfSegB, cellsOfSegA, hdec,
      ih (off + 15) tail hnext (fun c2 hc2 => hok c2 (by simp [hc2]))]

theorem collectCells_spec (isz bsz : Nat) (F : List Nat) (hbsz : bsz < 2 ^ 16) :
    ∀ (rs : List Region) (off : Nat),
      F.drop off = renderGo isz bsz rs off →
      regionsOKb isz bsz rs = true →
      collectCells F (nIdxOf isz) (segHeadersA isz bsz rs off) = cellsA rs off := by
  intro rs
  induction rs with
  | nil => intro off _ _; rfl
  | cons r rest ih =>
    intro off hdrop hok
    cases r with
    | seg cs =>
      obtain ⟨hlen, hcells, hrest⟩ := regionsOKb_seg isz bsz cs rest hok
      have hdrop' : F.drop off
          = encodeHeaderC (nextSegOff (off + (9 + 15 * cs.length)) rest) isz bsz
            ++ (cellsBytes cs ++ renderGo isz bsz rest (off + (9 + 15 * cs.length))) := by
        rw [hdrop]
        simp [renderGo, List.append_assoc]
      have hdropcells : F.drop (off + 9)
          = cellsBytes cs ++ renderGo isz bsz rest (off + (9 + 15 * cs.length)) := by
        have hstep := drop_trans F
          (encodeHeaderC (nextSegOff (off + (9 + 15 * cs.length)) rest) isz bsz)
          (cellsBytes cs ++ renderGo isz bsz rest (off + (9 + 15 * cs.length))) off hdrop'
        rwa [encodeHeaderC_length] at hstep
      have hdroprest : F.drop (off + (9 + 15 * cs.length))
          = renderGo isz bsz rest (off + (9 + 15 * cs.length)) := by
        have hstep := drop_trans F (cellsBytes cs)
          (renderGo isz bsz rest (off + (9 + 15 * cs.length))) (off + 9) hdropcells
        rw [cellsBytes_length] at hstep
        have he : off + 9 + 15 * cs.length = off + (9 + 15 * cs.length) := by omega
        rwa [he] at hstep
      have hseg : cellsOfSegB F (off + 9) (nIdxOf isz) = cellsOfSegA (off + 9) cs := by
        rw [← hlen]
        exact cellsOfSegB_spec F bsz hbsz cs (off + 9) _ hdropcells hcells
      simp [segHeadersA, collectCells, cellsA, hseg, ih _ hdroprest hrest]
    | blk d =>
      obtain ⟨hdl, hrest⟩ := regionsOKb_blk isz bsz d rest hok
      have hdroprest : F.drop (off + d.length) = renderGo isz bsz rest (off + d.length) := by
        apply drop_trans F d _ off
        simpa [renderGo] using hdrop
      simp only [segHeadersA, cellsA]
      exact ih _ hdroprest hrest

theorem getIndexesCells_spec (A : Abs) (h : WF A) :
    getIndexesCells (toStore A) = (toStore A, cellsA A.regions 0) := by
  obtain ⟨hhead, hrok, hisz, hbsz, hbpos, hige, hflen⟩ := WF_fields A h
  unfold getIndexesCells
  rw [getIndexes_spec A h]
  have hcc := collectCells_spec A.iSize A.bSize (render A) hbsz A.regions 0
    (by simp [render]) hrok
  simpa [toStore] using hcc

theorem keyExists_spec (H : List Nat → Nat) (A : Abs) (h : WF A) (key : List Nat) :
    keyExists H (toStore A) key = (toStore A, findMatch (H key) (cellsA A.regions 0)) := by
  unfold keyExists
  rw [getIndexesCells_spec A h]

/-!
Structural facts about the abstract cell and block listings: offset
bounds, decoding at a listed offset, and the behaviour of the
`keyExists` / `requestFreeIndexCell` scans.
-/

theorem cellsOfSegA_bounds (cs : List CellT) : ∀ base pc, pc ∈ cellsOfSegA base cs →
    base ≤ pc.1 ∧ pc.1 + 15 ≤ base + 15 * cs.length := by
  induction cs with
  | nil => intro base pc h; simp [cellsOfSegA] at h
  | cons c cs ih =>
    intro base pc h
    simp only [cellsOfSegA, List.mem_cons] at h
    rcases h with h | h
    · subst h
      show base ≤ base ∧ base + 15 ≤ base + 15 * (c :: cs).length
      simp only [List.length_cons]
      omega
    · have := ih (base + 15) pc h
      simp only [List.length_cons]
      omega

theorem cellsA_bounds (rs : List Region) : ∀ off pc, pc ∈ cellsA rs off →
    off + 9 ≤ pc.1 ∧ pc.1 + 15 ≤ off + sumLens rs := by
  induction rs with
  | nil => intro off pc h; simp [cellsA] at h
  | cons r rest ih =>
    intro off pc h
    cases r with
    | seg cs =>
      simp only [cellsA, List.mem_append] at h
      simp only [sumLens, regLen]
      rcases h with h | h
      · have := cellsOfSegA_bounds cs (off + 9) pc h
        omega
      · have := ih (off + (9 + 15 * cs.length)) pc h
        omega
    | blk d =>
      simp only [cellsA] at h
      have := ih (off + d.length) pc h
      simp only [sumLens, regLen]
      omega

theorem blkA_bounds (rs : List Region) : ∀ off pd, pd ∈ blkA rs off →
    off ≤ pd.1 ∧ pd.1 + pd.2.length ≤ off + sumLens rs := by
  induction rs with
  | nil => intro off pd h; simp [blkA] at h
  | cons r rest ih =>
    intro off pd h
    cases r with
    | seg cs =>
      simp only [blkA] at h
      have := ih _ pd h
      simp only [sumLens, regLen]
      omega
    | blk d =>
      simp only [blkA, List.mem_cons] at h
      simp only [sumLens, regLen]
      rcases h with h | h
      · subst h
        exact ⟨Nat.le_refl _, by show off + d.length ≤ off + (d.length + sumLens rest); omega⟩
      · have := ih (off + d.length) pd h
        omega

theorem cellsOfSegA_decode (F : List Nat) (bsz : Nat) (hbsz : bsz < 2 ^ 16) :
    ∀ (cs : List CellT) (base : Nat) (tail : List Nat),
      F.drop base = cellsBytes cs ++ tail →
      (∀ c ∈ cs, cellOKb bsz c = true) →
      ∀ pc ∈ cellsOfSegA base cs, decodeCell F pc.1 = pc.2 := by
  intro cs
  induction cs with
  | nil => intro base tail _ _ pc h; simp [cellsOfSegA] at h
  | cons c cs ih =>
    intro base tail hdrop hok pc h
    have hdropc : F.drop base = encodeCell c ++ (cellsBytes cs ++ tail) := by
      simpa [cellsBytes, List.append_assoc] using hdrop
    simp only [cellsOfSegA, List.mem_cons] at h
    rcases h with h | h
    · subst h
      rw [decodeCell_drop, hdropc, decodeCell_encodeCell]
      obtain ⟨h1, h2, h3, _⟩ := cellOKb_bounds bsz c (hok c (by simp))
      have e1 : c.keyHash % 2 ^ 64 = c.keyHash := Nat.mod_eq_of_lt h1
      have e2 : c.dataOffset % 2 ^ 32 = c.dataOffset := Nat.mod_eq_of_lt h2
      have e3 : c.dataLength % 2 ^ 16 = c.dataLength := Nat.mod_eq_of_lt (by omega)
      rw [e1, e2, e3]
    · have hnext : F.drop (base + 15) = cellsBytes cs ++ tail := by
        have hstep := drop_trans F (encodeCell c) (cellsBytes cs ++ tail) base hdropc
        rwa [encodeCell_length] at hstep
      exact ih (base + 15) tail hnext (fun c2 hc2 => hok c2 (by simp [hc2])) pc h

theorem cellsA_decode (isz bsz : Nat) (F : List Nat) (hbsz : bsz < 2 ^ 16) :
    ∀ (rs : List Region) (off : Nat),
      F.drop off = renderGo isz bsz rs off →
      regionsOKb isz bsz rs = true →
      ∀ pc ∈ cellsA rs off, decodeCell F pc.1 = pc.2 := by
  intro rs
  induction rs with
  | nil => intro off _ _ pc h; simp [cellsA] at h
  | cons r rest ih =>
    intro off hdrop hok pc h
    cases r with
    | seg cs =>
      obtain ⟨hlen, hcells, hrest⟩ := regionsOKb_seg isz bsz cs rest hok
      have hdrop' : F.drop off
          = encodeHeaderC (nextSegOff (off + (9 + 15 * cs.length)) rest) isz bsz
            ++ (cellsBytes cs ++ renderGo isz bsz rest (off + (9 + 15 * cs.length))) := by
        rw [hdrop]
        simp [renderGo, List.append_assoc]
      have hdropcells : F.drop (off + 9)
          = cellsBytes cs ++ renderGo isz bsz rest (off + (9 + 15 * cs.length)) := by
        have hstep := drop_trans F _ _ off hdrop'
        rwa [encodeHeaderC_length] at hstep
      have hdroprest : F.drop (off + (9 + 15 * cs.length))
          = renderGo isz bsz rest (off + (9 + 15 * cs.length)) := by
        have hstep := drop_trans F (cellsBytes cs) _ (off + 9) hdropcells
        rw [cellsBytes_length] at hstep
        have he : off + 9 + 15 * cs.length = off + (9 + 15 * cs.length) := by omega
        rwa [he] at hstep
      simp only [cellsA, List.mem_append] at h
      rcases h with h | h
      · exact cellsOfSegA_decode F bsz hbsz cs (off + 9) _ hdropcells hcells pc h
      · exact ih _ hdroprest hrest pc h
    | blk d =>
      obtain ⟨hdl, hrest⟩ := regionsOKb_blk isz bsz d rest hok
      have hdroprest : F.drop (off + d.length) = renderGo isz bsz rest (off + d.length) := by
        apply drop_trans F d _ off
        simpa [renderGo] using hdrop
      simp only [cellsA] at h
      exact ih _ hdroprest hrest pc h

theorem blkA_drop (isz bsz : Nat) (F : List Nat) :
    ∀ (rs : List Region) (off : Nat),
      F.drop off = renderGo isz bsz rs off →
      ∀ pd ∈ blkA rs off, ∃ tail, F.drop pd.1 = pd.2 ++ tail := by
  intro rs
  induction rs with
  | nil => intro off _ pd h; simp [blkA] at h
  | cons r rest ih =>
    intro off hdrop pd h
    cases r with
    | seg cs =>
      have hdrop' : F.drop off
          = (encodeHeaderC (nextSegOff (off + (9 + 15 * cs.length)) rest) isz bsz
             ++ cellsBytes cs) ++ renderGo isz bsz rest (off + (9 + 15 * cs.length)) := by
        rw [hdrop]
        simp [renderGo, List.append_assoc]
      have hdroprest : F.drop (off + (9 + 15 * cs.length))
          = renderGo isz bsz rest (off + (9 + 15 * cs.length)) := by
        have hstep := drop_trans F _ _ off hdrop'
        rwa [List.length_append, encodeHeaderC_length, cellsBytes_length] at hstep
      simp only [blkA] at h
      exact ih _ hdroprest pd h
    | blk d =>
      have hdropd : F.drop off = d ++ renderGo isz bsz rest (off + d.length) := by
        simpa [renderGo] using hdrop
      simp only [blkA, List.mem_cons] at h
      rcases h with h | h
      · subst h
        exact ⟨renderGo isz bsz rest (off + d.length), hdropd⟩
      · have hdroprest : F.drop (off + d.length) = renderGo isz bsz rest (off + d.length) :=
          drop_trans F d _ off hdropd
        exact ih _ hdroprest pd h

theorem findMatch_cases (hkey : Nat) (l : List (Nat × CellT)) :
    findMatch hkey l = 0 ∨
      ∃ c, (findMatch hkey l, c) ∈ l ∧ c.occupied = true ∧ c.keyHash = hkey := by
  induction l with
  | nil => left; rfl
  | cons pc rest ih =>
    by_cases h : pc.2.keyHash = hkey ∧ pc.2.occupied = true
    · right
      refine ⟨pc.2, ?_, h.2, h.1⟩
      simp [findMatch, if_pos h]
    · simp only [findMatch, if_neg h]
      rcases ih with ih | ⟨c, hm, ho, hh⟩
      · left; exact ih
      · right; exact ⟨c, by simp [hm], ho, hh⟩

theorem findMatch_zero_no_match (hkey : Nat) (l : List (Nat × CellT))
    (h0 : ∀ pc ∈ l, pc.1 ≠ 0) (h : findMatch hkey l = 0) :
    ∀ pc ∈ l, ¬(pc.2.keyHash = hkey ∧ pc.2.occupied = true) := by
  induction l with
  | nil => intro pc h2; simp at h2
  | cons pc0 rest ih =>
    intro pc hm
    by_cases hc : pc0.2.keyHash = hkey ∧ pc0.2.occupied = true
    · exfalso
      simp only [findMatch, if_pos hc] at h
      exact h0 pc0 (by simp) h
    · simp only [findMatch, if_neg hc] at h
      simp only [List.mem_cons] at hm
      rcases hm with hm | hm
      · subst hm; exact hc
      · exact ih (fun pc2 h2 => h0 pc2 (by simp [h2])) h pc hm

theorem findMatch_of_no_match (hkey : Nat) (l : List (Nat × CellT))
    (h : ∀ pc ∈ l, ¬(pc.2.keyHash = hkey ∧ pc.2.occupied = true)) :
    findMatch hkey l = 0 := by
  induction l with
  | nil => rfl
  | cons pc rest ih =>
    simp only [findMatch, if_neg (h pc (by simp))]
    exact ih (fun pc2 h2 => h pc2 (by simp [h2]))

theorem findFree_mem (l : List (Nat × CellT)) : ∀ p, findFree l = some p →
    ∃ c, (p, c) ∈ l ∧ c.occupied = false := by
  induction l with
  | nil => intro p h; simp [findFree] at h
  | cons pc rest ih =>
    intro p h
    by_cases hc : pc.2.occupied = false
    · simp only [findFree, if_pos hc] at h
      have hp : pc.1 = p := by injection h
      refine ⟨pc.2, ?_, hc⟩
      rw [← hp]
      exact List.mem_cons_self pc rest
    · simp only [findFree, if_neg hc] at h
      obtain ⟨c, hm, ho⟩ := ih p h
      exact ⟨c, by simp [hm], ho⟩

theorem findFree_none (l : List (Nat × CellT)) :
    findFree l = none ↔ ∀ pc ∈ l, pc.2.occupied = true := by
  induction l with
  | nil => simp [findFree]
  | cons pc rest ih =>
    by_cases hc : pc.2.occupied = false
    · simp only [findFree, if_pos hc]
      constructor
      · intro h; cases h
      · intro h
        have := h pc (by simp)
        rw [this] at hc; cases hc
    · simp only [findFree, if_neg hc, ih]
      constructor
      · intro h pc2 hm
        simp only [List.mem_cons] at hm
        rcases hm with hm | hm
        · subst hm; simpa using hc
        · exact h pc2 hm
      · intro h pc2 hm
        exact h pc2 (by simp [hm])

theorem findFree_append (a b : List (Nat × CellT)) :
    findFree (a ++ b) = match findFree a with
      | some p => some p
      | none => findFree b := by
  induction a with
  | nil => simp [findFree]
  | cons pc rest ih =>
    by_cases hc : pc.2.occupied = false
    · simp [findFree, if_pos hc]
    · simp [findFree, if_neg hc, ih]

/-!
Refinement of in-place cell rewrites: writing an encoded cell at a
listed cell offset renders the abstract store with that cell replaced.
-/

theorem setCellsAt_length (cs : List CellT) : ∀ j c, (setCellsAt cs j c).length = cs.length := by
  induction cs with
  | nil => intro j c; cases j <;> rfl
  | cons c0 cs ih =>
    intro j c
    cases j with
    | zero => rfl
    | succ j => simp [setCellsAt, ih]

theorem cellsBytes_write (cs : List CellT) : ∀ j c, j < cs.length →
    writeBytes (cellsBytes cs) (15 * j) (encodeCell c) = cellsBytes (setCellsAt cs j c) := by
  induction cs with
  | nil => intro j c h; simp at h
  | cons c0 cs ih =>
    intro j c h
    cases j with
    | zero =>
      rw [Nat.mul_zero, writeBytes_zero]
      simp only [cellsBytes, setCellsAt]
      have hd := List.drop_left (encodeCell c0) (cellsBytes cs)
      rw [encodeCell_length] at hd
      rw [encodeCell_length, hd]
    | succ j =>
      have h15 : 15 * (j + 1) = (encodeCell c0).length + 15 * j := by
        rw [encodeCell_length]; ring
      simp only [cellsBytes, setCellsAt]
      rw [h15, writeBytes_append_r, ih j c (by simpa using h)]

theorem cellsOfSegA_off (cs : List CellT) : ∀ base pc, pc ∈ cellsOfSegA base cs →
    ∃ j, j < cs.length ∧ pc.1 = base + 15 * j := by
  induction cs with
  | nil => intro base pc h; simp [cellsOfSegA] at h
  | cons c cs ih =>
    intro base pc h
    simp only [cellsOfSegA, List.mem_cons] at h
    rcases h with h | h
    · exact ⟨0, by simp, by rw [h]; simp⟩
    · obtain ⟨j, hj, he⟩ := ih (base + 15) pc h
      exact ⟨j + 1, by simpa using hj, by rw [he]; ring⟩

theorem nextSegOff_setCellR (rs : List Region) : ∀ o off p c,
    nextSegOff o (setCellR rs off p c) = nextSegOff o rs := by
  induction rs with
  | nil => intro o off p c; rfl
  | cons r rest ih =>
    intro o off p c
    cases r with
    | seg cs =>
      by_cases hlt : p < off + (9 + 15 * cs.length)
      · simp [setCellR, if_pos hlt, nextSegOff]
      · simp [setCellR, if_neg hlt, nextSegOff]
    | blk d => simp [setCellR, nextSegOff, ih]

theorem writeBytes_setCellR (isz bsz : Nat) : ∀ (rs : List Region) (off p : Nat) (c0 c : CellT),
    (p, c0) ∈ cellsA rs off →
    writeBytes (renderGo isz bsz rs off) (p - off) (encodeCell c)
      = renderGo isz bsz (setCellR rs off p c) off := by
  intro rs
  induction rs with
  | nil => intro off p c0 c h; simp [cellsA] at h
  | cons r rest ih =>
    intro off p c0 c h
    cases r with
    | seg cs =>
      simp only [cellsA, List.mem_append] at h
      rcases h with h | h
      · obtain ⟨j, hj, he⟩ := cellsOfSegA_off cs (off + 9) (p, c0) h
        simp only at he
        have hlt : p < off + (9 + 15 * cs.length) := by omega
        have hpo : p - off = 9 + 15 * j := by omega
        have hidx : (p - (off + 9)) / 15 = j := by
          have : p - (off + 9) = 15 * j := by omega
          rw [this, Nat.mul_div_cancel_left j (by norm_num)]
        have hsplit : renderGo isz bsz (Region.seg cs :: rest) off
            = (encodeHeaderC (nextSegOff (off + (9 + 15 * cs.length)) rest) isz bsz
               ++ cellsBytes cs) ++ renderGo isz bsz rest (off + (9 + 15 * cs.length)) := by
          simp [renderGo, List.append_assoc]
        have hinner : writeBytes
            (encodeHeaderC (nextSegOff (off + (9 + 15 * cs.length)) rest) isz bsz
             ++ cellsBytes cs) (9 + 15 * j) (encodeCell c)
            = encodeHeaderC (nextSegOff (off + (9 + 15 * cs.length)) rest) isz bsz
              ++ cellsBytes (setCellsAt cs j c) := by
          have h9 : 9 + 15 * j
              = (encodeHeaderC (nextSegOff (off + (9 + 15 * cs.length)) rest) isz bsz).length
                + 15 * j := by
            rw [encodeHeaderC_length]
          rw [h9, writeBytes_append_r, cellsBytes_write cs j c hj]
        rw [hsplit, hpo]
        rw [writeBytes_append_l _ _ _ _
          (by simp [encodeHeaderC_length, cellsBytes_length, encodeCell_length]; omega)]
        rw [hinner]
        simp only [setCellR, if_pos hlt, hidx, renderGo]
        rw [setCellsAt_length]
      · have hb := cellsA_bounds rest (off + (9 + 15 * cs.length)) (p, c0) h
        simp only at hb
        have hge : ¬(p < off + (9 + 15 * cs.length)) := by omega
        have hsplit : renderGo isz bsz (Region.seg cs :: rest) off
            = (encodeHeaderC (nextSegOff (off + (9 + 15 * cs.length)) rest) isz bsz
               ++ cellsBytes cs) ++ renderGo isz bsz rest (off + (9 + 15 * cs.length)) := by
          simp [renderGo, List.append_assoc]
        have hlen : (encodeHeaderC (nextSegOff (off + (9 + 15 * cs.length)) rest) isz bsz
            ++ cellsBytes cs).length = 9 + 15 * cs.length := by
          simp [encodeHeaderC_length, cellsBytes_length]
        have hpo : p - off = (encodeHeaderC (nextSegOff (off + (9 + 15 * cs.length)) rest) isz bsz
            ++ cellsBytes cs).length + (p - (off + (9 + 15 * cs.length))) := by
          rw [hlen]; omega
        rw [hsplit, hpo, writeBytes_append_r,
          ih (off + (9 + 15 * cs.length)) p c0 c h]
        simp only [setCellR, if_neg hge, renderGo]
        rw [nextSegOff_setCellR]
    | blk d =>
      simp only [cellsA] at h
      have hb := cellsA_bounds rest (off + d.length) (p, c0) h
      simp only at hb
      have hsplit : renderGo isz bsz (Region.blk d :: rest) off
          = d ++ renderGo isz bsz rest (off + d.length) := by
        simp [renderGo]
      have hpo : p - off = d.length + (p - (off + d.length)) := by omega
      rw [hsplit, hpo, writeBytes_append_r, ih (off + d.length) p c0 c h]
      simp only [setCellR, renderGo]

theorem map_if_id (l : List (Nat × CellT)) (q : Nat) (c : CellT)
    (h : ∀ pc ∈ l, pc.1 ≠ q) :
    l.map (fun pc => if pc.1 = q then (q, c) else pc) = l := by
  induction l with
  | nil => rfl
  | cons pc rest ih =>
    simp only [List.map_cons, if_neg (h pc (by simp))]
    rw [ih (fun pc2 h2 => h pc2 (by simp [h2]))]

theorem cellsOfSegA_set_map (cs : List CellT) : ∀ base j c, j < cs.length →
    cellsOfSegA base (setCellsAt cs j c)
      = (cellsOfSegA base cs).map
          (fun pc => if pc.1 = base + 15 * j then (base + 15 * j, c) else pc) := by
  induction cs with
  | nil => intro base j c h; simp at h
  | cons c0 cs ih =>
    intro base j c h
    cases j with
    | zero =>
      simp only [setCellsAt, cellsOfSegA, List.map_cons, Nat.mul_zero, Nat.add_zero]
      rw [map_if_id _ _ _ (by
        intro pc hm
        have := cellsOfSegA_bounds cs (base + 15) pc hm
        omega)]
      simp
    | succ j =>
      simp only [setCellsAt, cellsOfSegA, List.map_cons]
      have hne : base ≠ base + 15 * (j + 1) := by omega
      rw [if_neg hne]
      have hrw : base + 15 + 15 * j = base + 15 * (j + 1) := by ring
      have := ih (base + 15) j c (by simpa using h)
      rw [hrw] at this
      rw [this]

theorem cellsA_setCellR (rs : List Region) : ∀ off p c0 c, (p, c0) ∈ cellsA rs off →
    cellsA (setCellR rs off p c) off
      = (cellsA rs off).map (fun pc => if pc.1 = p then (p, c) else pc) := by
  induction rs with
  | nil => intro off p c0 c h; simp [cellsA] at h
  | cons r rest ih =>
    intro off p c0 c h
    cases r with
    | seg cs =>
      simp only [cellsA, List.mem_append] at h
      rcases h with h | h
      · obtain ⟨j, hj, he⟩ := cellsOfSegA_off cs (off + 9) (p, c0) h
        simp only at he
        have hlt : p < off + (9 + 15 * cs.length) := by omega
        have hidx : (p - (off + 9)) / 15 = j := by
          have hx : p - (off + 9) = 15 * j := by omega
          rw [hx, Nat.mul_div_cancel_left j (by norm_num)]
        simp only [setCellR, if_pos hlt, hidx, cellsA, setCellsAt_length, List.map_append]
        have hmap := cellsOfSegA_set_map cs (off + 9) j c hj
        have hq : off + 9 + 15 * j = p := by omega
        rw [hq] at hmap
        rw [hmap]
        congr 1
        rw [map_if_id _ _ _ (by
          intro pc hm
          have := cellsA_bounds rest (off + (9 + 15 * cs.length)) pc hm
          omega)]
      · have hb := cellsA_bounds rest (off + (9 + 15 * cs.length)) (p, c0) h
        simp only at hb
        have hge : ¬(p < off + (9 + 15 * cs.length)) := by omega
        simp only [setCellR, if_neg hge, cellsA, List.map_append]
        rw [ih (off + (9 + 15 * cs.length)) p c0 c h]
        congr 1
        rw [map_if_id _ _ _ (by
          intro pc hm
          have := cellsOfSegA_bounds cs (off + 9) pc hm
          omega)]
    | blk d =>
      simp only [cellsA] at h
      simp only [setCellR, cellsA]
      exact ih (off + d.length) p c0 c h

theorem blkA_setCellR (rs : List Region) : ∀ off off2 p c,
    blkA (setCellR rs off p c) off2 = blkA rs off2 := by
  induction rs with
  | nil => intro off off2 p c; rfl
  | cons r rest ih =>
    intro off off2 p c
    cases r with
    | seg cs =>
      by_cases hlt : p < off + (9 + 15 * cs.length)
      · simp [setCellR, if_pos hlt, blkA, setCellsAt_length]
      · simp [setCellR, if_neg hlt, blkA, ih]
    | blk d => simp [setCellR, blkA, ih]

theorem sumLens_setCellR (rs : List Region) : ∀ off p c,
    sumLens (setCellR rs off p c) = sumLens rs := by
  induction rs with
  | nil => intro off p c; rfl
  | cons r rest ih =>
    intro off p c
    cases r with
    | seg cs =>
      by_cases hlt : p < off + (9 + 15 * cs.length)
      · simp [setCellR, if_pos hlt, sumLens, regLen, setCellsAt_length]
      · simp [setCellR, if_neg hlt, sumLens, regLen, ih]
    | blk d => simp [setCellR, sumLens, regLen, ih]

theorem segCount_setCellR (rs : List Region) : ∀ off p c,
    segCount (setCellR rs off p c) = segCount rs := by
  induction rs with
  | nil => intro off p c; rfl
  | cons r rest ih =>
    intro off p c
    cases r with
    | seg cs =>
      by_cases hlt : p < off + (9 + 15 * cs.length)
      · simp [setCellR, if_pos hlt, segCount]
      · simp [setCellR, if_neg hlt, segCount, ih]
    | blk d => simp [setCellR, segCount, ih]

theorem headSegB_setCellR (rs : List Region) (off p : Nat) (c : CellT) :
    headSegB (setCellR rs off p c) = headSegB rs := by
  cases rs with
  | nil => rfl
  | cons r rest =>
    cases r with
    | seg cs =>
      by_cases hlt : p < off + (9 + 15 * cs.length)
      · simp [setCellR, if_pos hlt, headSegB]
      · simp [setCellR, if_neg hlt, headSegB]
    | blk d => rfl

theorem setCellsAt_all (cs : List CellT) (bsz : Nat) : ∀ j c,
    (∀ c2 ∈ cs, cellOKb bsz c2 = true) → cellOKb bsz c = true →
    ∀ c2 ∈ setCellsAt cs j c, cellOKb bsz c2 = true := by
  induction cs with
  | nil => intro j c _ _ c2 h2; cases j <;> simp [setCellsAt] at h2
  | cons c0 cs ih =>
    intro j c hall hc c2 h2
    cases j with
    | zero =>
      simp only [setCellsAt, List.mem_cons] at h2
      rcases h2 with h2 | h2
      · subst h2; exact hc
      · exact hall c2 (by simp [h2])
    | succ j =>
      simp only [setCellsAt, List.mem_cons] at h2
      rcases h2 with h2 | h2
      · subst h2; exact hall c2 (by simp)
      · exact ih j c (fun c3 h3 => hall c3 (by simp [h3])) hc c2 h2

theorem regionsOKb_setCellR (isz bsz : Nat) (rs : List Region) : ∀ off p c,
    regionsOKb isz bsz rs = true → cellOKb bsz c = true →
    regionsOKb isz bsz (setCellR rs off p c) = true := by
  induction rs with
  | nil => intro off p c h _; exact h
  | cons r rest ih =>
    intro off p c h hc
    cases r with
    | seg cs =>
      obtain ⟨hlen, hcells, hrest⟩ := regionsOKb_seg isz bsz cs rest h
      by_cases hlt : p < off + (9 + 15 * cs.length)
      · simp only [setCellR, if_pos hlt, regionsOKb, Bool.and_eq_true, beq_iff_eq,
          List.all_eq_true]
        exact ⟨⟨by rw [setCellsAt_length]; exact hlen,
          setCellsAt_all cs bsz _ c hcells hc⟩, hrest⟩
      · simp only [setCellR, if_neg hlt, regionsOKb, Bool.and_eq_true, beq_iff_eq,
          List.all_eq_true]
        exact ⟨⟨hlen, hcells⟩, ih _ p c hrest hc⟩
    | blk d =>
      obtain ⟨hdl, hrest⟩ := regionsOKb_blk isz bsz d rest h
      simp only [setCellR, regionsOKb, Bool.and_eq_true, beq_iff_eq]
      exact ⟨hdl, ih _ p c hrest hc⟩

theorem map_if_id2 {α : Type} (l : List (Nat × α)) (q : Nat) (x : Nat × α)
    (h : ∀ pc ∈ l, pc.1 ≠ q) :
    l.map (fun pc => if pc.1 = q then x else pc) = l := by
  induction l with
  | nil => rfl
  | cons pc rest ih =>
    simp only [List.map_cons, if_neg (h pc (by simp))]
    rw [ih (fun pc2 h2 => h pc2 (by simp [h2]))]

theorem setBlkR_shape (isz bsz : Nat) (hbpos : 0 < bsz) (v : List Nat) :
    ∀ (rs : List Region) (off p : Nat) (d : List Nat),
      (p, d) ∈ blkA rs off → v.length ≤ d.length →
      regionsOKb isz bsz rs = true →
      blkA (setBlkR rs off p v) off
        = (blkA rs off).map (fun pd => if pd.1 = p then (p, v ++ d.drop v.length) else pd) ∧
      cellsA (setBlkR rs off p v) off = cellsA rs off ∧
      sumLens (setBlkR rs off p v) = sumLens rs ∧
      segCount (setBlkR rs off p v) = segCount rs ∧
      regionsOKb isz bsz (setBlkR rs off p v) = true ∧
      headSegB (setBlkR rs off p v) = headSegB rs ∧
      (∀ o, nextSegOff o (setBlkR rs off p v) = nextSegOff o rs) := by
  intro rs
  induction rs with
  | nil => intro off p d h; simp [blkA] at h
  | cons r rest ih =>
    intro off p d hmem hlen hok
    cases r with
    | seg cs =>
      obtain ⟨hclen, hcells, hrest⟩ := regionsOKb_seg isz bsz cs rest hok
      simp only [blkA] at hmem
      obtain ⟨h1, h2, h3, h4, h5, h6, h7⟩ := ih (off + (9 + 15 * cs.length)) p d hmem hlen hrest
      refine ⟨?_, ?_, ?_, ?_, ?_, ?_, ?_⟩
      · simpa [setBlkR, blkA] using h1
      · simpa [setBlkR, cellsA] using h2
      · simpa [setBlkR, sumLens, regLen] using h3
      · simpa [setBlkR, segCount] using h4
      · simp only [setBlkR, regionsOKb, Bool.and_eq_true, beq_iff_eq, List.all_eq_true]
        exact ⟨⟨hclen, hcells⟩, h5⟩
      · simp [setBlkR, headSegB]
      · intro o
        simp [setBlkR, nextSegOff, h7]
    | blk d0 =>
      obtain ⟨hd0, hrest⟩ := regionsOKb_blk isz bsz d0 rest hok
      by_cases hp : p = off
      · have hd : d = d0 := by
          simp only [blkA, List.mem_cons] at hmem
          rcases hmem with hmem | hmem
          · have : (p, d).2 = (off, d0).2 := by rw [hmem]
            simpa using this
          · exfalso
            have := blkA_bounds rest (off + d0.length) (p, d) hmem
            simp only at this
            omega
        subst hd
        subst hp
        have hnew : (v ++ d.drop v.length).length = d.length := by
          simp
          omega
        refine ⟨?_, ?_, ?_, ?_, ?_, ?_, ?_⟩
        · simp only [setBlkR, if_pos rfl, blkA, List.map_cons, if_pos rfl, hnew]
          congr 1
          rw [map_if_id2 _ _ _ (by
            intro pd hm
            have := blkA_bounds rest (p + d.length) pd hm
            omega)]
        · simp [setBlkR, cellsA, hnew]
        · simp [setBlkR, sumLens, regLen, hnew]
        · simp [setBlkR, segCount]
        · simp only [setBlkR, if_pos rfl, regionsOKb, Bool.and_eq_true, beq_iff_eq]
          exact ⟨by rw [hnew]; exact hd0, hrest⟩
        · simp [setBlkR, headSegB]
        · intro o
          simp [setBlkR, nextSegOff, hnew]
      · have hmem2 : (p, d) ∈ blkA rest (off + d0.length) := by
          simp only [blkA, List.mem_cons] at hmem
          rcases hmem with hmem | hmem
          · exfalso
            have : (p, d).1 = (off, d0).1 := by rw [hmem]
            simp at this
            exact hp this
          · exact hmem
        obtain ⟨h1, h2, h3, h4, h5, h6, h7⟩ := ih (off + d0.length) p d hmem2 hlen hrest
        refine ⟨?_, ?_, ?_, ?_, ?_, ?_, ?_⟩
        · simp only [setBlkR, if_neg hp, blkA, List.map_cons]
          rw [h1]
          have hps : ¬(off = p) := fun h => hp h.symm
          simp [hps]
        · simpa [setBlkR, if_neg hp, cellsA] using h2
        · simpa [setBlkR, if_neg hp, sumLens, regLen] using h3
        · simpa [setBlkR, if_neg hp, segCount] using h4
        · simp only [setBlkR, if_neg hp, regionsOKb, Bool.and_eq_true, beq_iff_eq]
          exact ⟨hd0, h5⟩
        · simp [setBlkR, if_neg hp, headSegB]
        · intro o
          simp [setBlkR, if_neg hp, nextSegOff, h7]

theorem writeBytes_setBlkR (isz bsz : Nat) (hbpos : 0 < bsz) (v : List Nat) :
    ∀ (rs : List Region) (off p : Nat) (d : List Nat),
      (p, d) ∈ blkA rs off → v.length ≤ d.length →
      regionsOKb isz bsz rs = true →
      writeBytes (renderGo isz bsz rs off) (p - off) v
        = renderGo isz bsz (setBlkR rs off p v) off := by
  intro rs
  induction rs with
  | nil => intro off p d h; simp [blkA] at h
  | cons r rest ih =>
    intro off p d hmem hlen hok
    cases r with
    | seg cs =>
      obtain ⟨hclen, hcells, hrest⟩ := regionsOKb_seg isz bsz cs rest hok
      simp only [blkA] at hmem
      have hb := blkA_bounds rest (off + (9 + 15 * cs.length)) (p, d) hmem
      simp only at hb
      have hsplit : renderGo isz bsz (Region.seg cs :: rest) off
          = (encodeHeaderC (nextSegOff (off + (9 + 15 * cs.length)) rest) isz bsz
             ++ cellsBytes cs) ++ renderGo isz bsz rest (off + (9 + 15 * cs.length)) := by
        simp [renderGo, List.append_assoc]
      have hlenp : (encodeHeaderC (nextSegOff (off + (9 + 15 * cs.length)) rest) isz bsz
          ++ cellsBytes cs).length = 9 + 15 * cs.length := by
        simp [encodeHeaderC_length, cellsBytes_length]
      have hpo : p - off = (encodeHeaderC (nextSegOff (off + (9 + 15 * cs.length)) rest) isz bsz
          ++ cellsBytes cs).length + (p - (off + (9 + 15 * cs.length))) := by
        rw [hlenp]; omega
      obtain ⟨_, _, _, _, _, _, h7⟩ :=
        setBlkR_shape isz bsz hbpos v rest (off + (9 + 15 * cs.length)) p d hmem hlen hrest
      rw [hsplit, hpo, writeBytes_append_r, ih (off + (9 + 15 * cs.length)) p d hmem hlen hrest]
      simp only [setBlkR, renderGo]
      rw [h7]
    | blk d0 =>
      obtain ⟨hd0, hrest⟩ := regionsOKb_blk isz bsz d0 rest hok
      by_cases hp : p = off
      · have hd : d = d0 := by
          simp only [blkA, List.mem_cons] at hmem
          rcases hmem with hmem | hmem
          · have : (p, d).2 = (off, d0).2 := by rw [hmem]
            simpa using this
          · exfalso
            have := blkA_bounds rest (off + d0.length) (p, d) hmem
            simp only at this
            omega
        subst hd
        subst hp
        have hnew : (v ++ d.drop v.length).length = d.length := by
          simp; omega
        have hpz : p - p = 0 := by omega
        simp only [renderGo, setBlkR, if_pos rfl, hpz, writeBytes_zero, hnew]
        rw [List.drop_append_of_le_length hlen]
        simp [List.append_assoc]
      · have hmem2 : (p, d) ∈ blkA rest (off + d0.length) := by
          simp only [blkA, List.mem_cons] at hmem
          rcases hmem with hmem | hmem
          · exfalso
            have : (p, d).1 = (off, d0).1 := by rw [hmem]
            simp at this
            exact hp this
          · exact hmem
        have hb := blkA_bounds rest (off + d0.length) (p, d) hmem2
        simp only at hb
        have hpo : p - off = d0.length + (p - (off + d0.length)) := by omega
        simp only [renderGo, setBlkR, if_neg hp]
        rw [hpo, writeBytes_append_r, ih (off + d0.length) p d hmem2 hlen hrest]

/-!
Appending regions: block allocation appends a block region at end of
file, and `createIndex` appends a segment and rewrites the previous last
segment's header; both are renderings of the region-appended abstract
store.
-/

theorem sumLens_append (a b : List Region) : sumLens (a ++ b) = sumLens a + sumLens b := by
  induction a with
  | nil => simp [sumLens]
  | cons r rest ih => simp [sumLens, ih]; omega

theorem segCount_append (a b : List Region) : segCount (a ++ b) = segCount a + segCount b := by
  induction a with
  | nil => simp [segCount]
  | cons r rest ih =>
    cases r with
    | seg cs => simp [segCount, ih]; omega
    | blk d => simp [segCount, ih]

theorem nextSegOff_append_blk (rs : List Region) (v : List Nat) : ∀ o,
    nextSegOff o (rs ++ [.blk v]) = nextSegOff o rs := by
  induction rs with
  | nil => intro o; simp [nextSegOff]
  | cons r rest ih =>
    intro o
    cases r with
    | seg cs => simp [nextSegOff]
    | blk d => simp [nextSegOff, ih]

theorem nextSegOff_append_pos (rs : List Region) (l : List Region) (h : segCount rs ≠ 0) : ∀ o,
    nextSegOff o (rs ++ l) = nextSegOff o rs := by
  induction rs with
  | nil => simp [segCount] at h
  | cons r rest ih =>
    intro o
    cases r with
    | seg cs => simp [nextSegOff]
    | blk d =>
      have h2 : segCount rest ≠ 0 := by simpa [segCount] using h
      simp [nextSegOff, ih h2]

theorem nextSegOff_append_seg_zero (rs : List Region) (e : List CellT) (l : List Region) :
    ∀ o, segCount rs = 0 → nextSegOff o (rs ++ (.seg e :: l)) = o + sumLens rs := by
  induction rs with
  | nil => intro o _; simp [nextSegOff, sumLens]
  | cons r rest ih =>
    intro o h
    cases r with
    | seg cs => simp [segCount] at h
    | blk d =>
      have h2 : segCount rest = 0 := by simpa [segCount] using h
      simp only [List.cons_append, List.append_eq, nextSegOff, sumLens, regLen]
      rw [ih (o + d.length) h2]
      omega

theorem renderGo_append_blk (isz bsz : Nat) (v : List Nat) : ∀ (rs : List Region) (off : Nat),
    renderGo isz bsz (rs ++ [.blk v]) off = renderGo isz bsz rs off ++ v := by
  intro rs
  induction rs with
  | nil => intro off; simp [renderGo]
  | cons r rest ih =>
    intro off
    cases r with
    | seg cs =>
      simp only [List.cons_append, List.append_eq, renderGo, nextSegOff_append_blk, ih, List.append_assoc]
    | blk d =>
      simp only [List.cons_append, List.append_eq, renderGo, ih, List.append_assoc]

theorem cellsA_append_blk (rs : List Region) (v : List Nat) : ∀ off,
    cellsA (rs ++ [.blk v]) off = cellsA rs off := by
  induction rs with
  | nil => intro off; simp [cellsA]
  | cons r rest ih =>
    intro off
    cases r with
    | seg cs => simp [cellsA, ih]
    | blk d => simp [cellsA, ih]

theorem blkA_append_blk (rs : List Region) (v : List Nat) : ∀ off,
    blkA (rs ++ [.blk v]) off = blkA rs off ++ [(off + sumLens rs, v)] := by
  induction rs with
  | nil => intro off; simp [blkA, sumLens]
  | cons r rest ih =>
    intro off
    cases r with
    | seg cs =>
      simp only [List.cons_append, List.append_eq, blkA, ih, sumLens, regLen]
      have he : off + (9 + 15 * cs.length) + sumLens rest
          = off + (9 + 15 * cs.length + sumLens rest) := by omega
      rw [he]
    | blk d =>
      simp only [List.cons_append, List.append_eq, blkA, ih, sumLens, regLen, List.cons_append]
      have he : off + d.length + sumLens rest = off + (d.length + sumLens rest) := by omega
      rw [he]

theorem regionsOKb_append (isz bsz : Nat) (a b : List Region)
    (ha : regionsOKb isz bsz a = true) (hb : regionsOKb isz bsz b = true) :
    regionsOKb isz bsz (a ++ b) = true := by
  induction a with
  | nil => simpa using hb
  | cons r rest ih =>
    cases r with
    | seg cs =>
      obtain ⟨h1, h2, h3⟩ := regionsOKb_seg isz bsz cs rest ha
      simp only [List.cons_append, List.append_eq, regionsOKb, Bool.and_eq_true, beq_iff_eq, List.all_eq_true]
      exact ⟨⟨h1, h2⟩, ih h3⟩
    | blk d =>
      obtain ⟨h1, h2⟩ := regionsOKb_blk isz bsz d rest ha
      simp only [List.cons_append, List.append_eq, regionsOKb, Bool.and_eq_true, beq_iff_eq]
      exact ⟨h1, ih h2⟩

theorem headSegB_append (rs l : List Region) (h : headSegB rs = true) :
    headSegB (rs ++ l) = true := by
  cases rs with
  | nil => simp [headSegB] at h
  | cons r rest =>
    cases r with
    | seg cs => rfl
    | blk d => simp [headSegB] at h

theorem segHeadersA_ne_nil (isz bsz : Nat) (rs : List Region) (h : segCount rs ≠ 0) : ∀ off,
    segHeadersA isz bsz rs off ≠ [] := by
  induction rs with
  | nil => simp [segCount] at h
  | cons r rest ih =>
    intro off
    cases r with
    | seg cs => simp [segHeadersA]
    | blk d =>
      have h2 : segCount rest ≠ 0 := by simpa [segCount] using h
      exact ih h2 _

theorem segHeadersA_bounds (isz bsz : Nat) (rs : List Region) : ∀ off ph,
    ph ∈ segHeadersA isz bsz rs off → off ≤ ph.1 ∧ ph.1 + 9 ≤ off + sumLens rs := by
  induction rs with
  | nil => intro off ph h; simp [segHeadersA] at h
  | cons r rest ih =>
    intro off ph h
    cases r with
    | seg cs =>
      simp only [segHeadersA, List.mem_cons] at h
      simp only [sumLens, regLen]
      rcases h with h | h
      · subst h; simp; omega
      · have := ih _ ph h
        omega
    | blk d =>
      simp only [segHeadersA] at h
      simp only [sumLens, regLen]
      have := ih _ ph h
      omega

theorem getLast?_cons_ne (x : Nat × IndexHeaderT) (l : List (Nat × IndexHeaderT)) (h : l ≠ []) :
    (x :: l).getLast? = l.getLast? := by
  cases l with
  | nil => cases h rfl
  | cons y l2 => simp [List.getLast?_cons_cons]

theorem renderGo_append_of_blkonly (isz bsz : Nat) (l : List Region) :
    ∀ (rs : List Region), segCount rs = 0 → ∀ off,
      renderGo isz bsz (rs ++ l) off = renderGo isz bsz rs off ++ renderGo isz bsz l (off + sumLens rs) := by
  intro rs
  induction rs with
  | nil => intro _ off; simp [renderGo, sumLens]
  | cons r rest ih =>
    intro h off
    cases r with
    | seg cs => simp [segCount] at h
    | blk d =>
      have h2 : segCount rest = 0 := by simpa [segCount] using h
      simp only [List.cons_append, List.append_eq, renderGo, ih h2, List.append_assoc, sumLens, regLen]
      have he : off + d.length + sumLens rest = off + (d.length + sumLens rest) := by omega
      rw [he]

theorem renderGo_append_seg (isz bsz : Nat) (e : List CellT) :
    ∀ (rs : List Region) (off lastOff : Nat) (hdr : IndexHeaderT),
      (segHeadersA isz bsz rs off).getLast? = some (lastOff, hdr) →
      renderGo isz bsz (rs ++ [.seg e]) off
        = writeBytes (renderGo isz bsz rs off) (lastOff - off)
            (encodeHeaderC (off + sumLens rs) isz bsz)
          ++ (encodeHeaderC 0 isz bsz ++ cellsBytes e) := by
  intro rs
  induction rs with
  | nil => intro off lastOff hdr h; simp [segHeadersA] at h
  | cons r rest ih =>
    intro off lastOff hdr h
    cases r with
    | seg cs =>
      by_cases hsc : segCount rest = 0
      · have hnil : segHeadersA isz bsz rest (off + (9 + 15 * cs.length)) = [] :=
          segHeadersA_nil isz bsz rest hsc _
        simp only [segHeadersA, hnil, List.getLast?_singleton, Option.some.injEq] at h
        have hoff : lastOff = off := by
          have := congrArg Prod.fst h.symm
          simpa using this
        subst hoff
        have hz : lastOff - lastOff = 0 := by omega
        rw [hz, writeBytes_zero]
        have hnxt : nextSegOff (lastOff + (9 + 15 * cs.length)) (rest ++ [Region.seg e])
            = lastOff + (9 + 15 * cs.length) + sumLens rest := by
          have := nextSegOff_append_seg_zero rest e [] (lastOff + (9 + 15 * cs.length)) hsc
          simpa using this
        have hrest : renderGo isz bsz (rest ++ [Region.seg e]) (lastOff + (9 + 15 * cs.length))
            = renderGo isz bsz rest (lastOff + (9 + 15 * cs.length))
              ++ renderGo isz bsz [Region.seg e]
                  (lastOff + (9 + 15 * cs.length) + sumLens rest) :=
          renderGo_append_of_blkonly isz bsz [Region.seg e] rest hsc _
        have hsum2 : lastOff + sumLens (Region.seg cs :: rest)
            = lastOff + (9 + 15 * cs.length) + sumLens rest := by
          simp only [sumLens, regLen]; omega
        have hdrop9 : (renderGo isz bsz (Region.seg cs :: rest) lastOff).drop
            (encodeHeaderC (lastOff + sumLens (Region.seg cs :: rest)) isz bsz).length
            = cellsBytes cs ++ renderGo isz bsz rest (lastOff + (9 + 15 * cs.length)) := by
          rw [encodeHeaderC_length]
          have hx : renderGo isz bsz (Region.seg cs :: rest) lastOff
              = encodeHeaderC (nextSegOff (lastOff + (9 + 15 * cs.length)) rest) isz bsz
                ++ (cellsBytes cs ++ renderGo isz bsz rest (lastOff + (9 + 15 * cs.length))) := by
            simp [renderGo, List.append_assoc]
          rw [hx]
          have hd := List.drop_left
            (encodeHeaderC (nextSegOff (lastOff + (9 + 15 * cs.length)) rest) isz bsz)
            (cellsBytes cs ++ renderGo isz bsz rest (lastOff + (9 + 15 * cs.length)))
          rw [encodeHeaderC_length] at hd
          exact hd
        have hLHS : renderGo isz bsz ((Region.seg cs :: rest) ++ [Region.seg e]) lastOff
            = encodeHeaderC (lastOff + (9 + 15 * cs.length) + sumLens rest) isz bsz
              ++ (cellsBytes cs
                  ++ (renderGo isz bsz rest (lastOff + (9 + 15 * cs.length))
                      ++ renderGo isz bsz [Region.seg e]
                          (lastOff + (9 + 15 * cs.length) + sumLens rest))) := by
          rw [List.cons_append]
          have hstep : renderGo isz bsz (Region.seg cs :: (rest ++ [Region.seg e])) lastOff
              = encodeHeaderC (nextSegOff (lastOff + (9 + 15 * cs.length))
                  (rest ++ [Region.seg e])) isz bsz
                ++ (cellsBytes cs
                    ++ renderGo isz bsz (rest ++ [Region.seg e])
                        (lastOff + (9 + 15 * cs.length))) := by
            simp [renderGo, List.append_assoc]
          rw [hstep, hnxt, hrest]
        rw [hsum2] at hdrop9
        rw [hLHS, hsum2, hdrop9]
        have hseg1 : renderGo isz bsz [Region.seg e]
            (lastOff + (9 + 15 * cs.length) + sumLens rest)
            = encodeHeaderC 0 isz bsz ++ (cellsBytes e ++ []) := by
          simp [renderGo, nextSegOff]
        rw [hseg1]
        simp [List.append_assoc]
      · have htne : segHeadersA isz bsz rest (off + (9 + 15 * cs.length)) ≠ [] :=
          segHeadersA_ne_nil isz bsz rest hsc _
        have hlast : (segHeadersA isz bsz rest (off + (9 + 15 * cs.length))).getLast?
            = some (lastOff, hdr) := by
          rw [← getLast?_cons_ne _ _ htne]
          simpa [segHeadersA] using h
        have hb : off + (9 + 15 * cs.length) ≤ lastOff := by
          have hmem : (lastOff, hdr) ∈ segHeadersA isz bsz rest (off + (9 + 15 * cs.length)) := by
            obtain ⟨hne2, heq⟩ := List.mem_getLast?_eq_getLast (Option.mem_def.2 hlast)
            rw [heq]
            exact List.getLast_mem hne2
          exact (segHeadersA_bounds isz bsz rest _ _ hmem).1
        have hsplit : renderGo isz bsz (Region.seg cs :: rest) off
            = (encodeHeaderC (nextSegOff (off + (9 + 15 * cs.length)) rest) isz bsz
               ++ cellsBytes cs) ++ renderGo isz bsz rest (off + (9 + 15 * cs.length)) := by
          simp [renderGo, List.append_assoc]
        have hlenp : (encodeHeaderC (nextSegOff (off + (9 + 15 * cs.length)) rest) isz bsz
            ++ cellsBytes cs).length = 9 + 15 * cs.length := by
          simp [encodeHeaderC_length, cellsBytes_length]
        have hpo : lastOff - off
            = (encodeHeaderC (nextSegOff (off + (9 + 15 * cs.length)) rest) isz bsz
               ++ cellsBytes cs).length + (lastOff - (off + (9 + 15 * cs.length))) := by
          rw [hlenp]; omega
        have hsum : off + sumLens (Region.seg cs :: rest)
            = off + (9 + 15 * cs.length) + sumLens rest := by
          simp only [sumLens, regLen]; omega
        have hstep : renderGo isz bsz ((Region.seg cs :: rest) ++ [Region.seg e]) off
            = encodeHeaderC (nextSegOff (off + (9 + 15 * cs.length)) rest) isz bsz
              ++ (cellsBytes cs
                  ++ renderGo isz bsz (rest ++ [Region.seg e]) (off + (9 + 15 * cs.length))) := by
          rw [List.cons_append]
          have hx : renderGo isz bsz (Region.seg cs :: (rest ++ [Region.seg e])) off
              = encodeHeaderC (nextSegOff (off + (9 + 15 * cs.length))
                  (rest ++ [Region.seg e])) isz bsz
                ++ (cellsBytes cs
                    ++ renderGo isz bsz (rest ++ [Region.seg e])
                        (off + (9 + 15 * cs.length))) := by
            simp [renderGo, List.append_assoc]
          rw [hx, nextSegOff_append_pos rest [Region.seg e] hsc]
        rw [hstep, ih (off + (9 + 15 * cs.length)) lastOff hdr hlast, hsplit, hpo, hsum,
          writeBytes_append_r]
        simp [List.append_assoc]
    | blk d =>
      have hlast : (segHeadersA isz bsz rest (off + d.length)).getLast? = some (lastOff, hdr) := by
        simpa [segHeadersA] using h
      have htne : segHeadersA isz bsz rest (off + d.length) ≠ [] := by
        intro h0
        rw [h0] at hlast
        cases hlast
      have hb : off + d.length ≤ lastOff := by
        have hmem : (lastOff, hdr) ∈ segHeadersA isz bsz rest (off + d.length) := by
          obtain ⟨hne2, heq⟩ := List.mem_getLast?_eq_getLast (Option.mem_def.2 hlast)
          rw [heq]
          exact List.getLast_mem hne2
        exact (segHeadersA_bounds isz bsz rest _ _ hmem).1
      have hpo : lastOff - off = d.length + (lastOff - (off + d.length)) := by omega
      have hsum : off + sumLens (Region.blk d :: rest) = off + d.length + sumLens rest := by
        simp only [sumLens, regLen]; omega
      simp only [List.cons_append, List.append_eq, renderGo]
      rw [hpo, hsum, writeBytes_append_r, ih (off + d.length) lastOff hdr hlast]
      have he2 : off + d.length + sumLens rest = off + d.length + sumLens rest := rfl
      simp [List.append_assoc]

theorem cellsA_append_seg (rs : List Region) (e : List CellT) : ∀ off,
    cellsA (rs ++ [.seg e]) off = cellsA rs off ++ cellsOfSegA (off + sumLens rs + 9) e := by
  induction rs with
  | nil => intro off; simp [cellsA, sumLens]
  | cons r rest ih =>
    intro off
    cases r with
    | seg cs =>
      simp only [List.cons_append, List.append_eq, cellsA, ih, sumLens, regLen, List.append_assoc]
      have he : off + (9 + 15 * cs.length) + sumLens rest + 9
          = off + (9 + 15 * cs.length + sumLens rest) + 9 := by omega
      rw [he]
    | blk d =>
      simp only [List.cons_append, List.append_eq, cellsA, ih, sumLens, regLen]
      have he : off + d.length + sumLens rest + 9 = off + (d.length + sumLens rest) + 9 := by
        omega
      rw [he]

theorem blkA_append_seg (rs : List Region) (e : List CellT) : ∀ off,
    blkA (rs ++ [.seg e]) off = blkA rs off := by
  induction rs with
  | nil => intro off; simp [blkA]
  | cons r rest ih =>
    intro off
    cases r with
    | seg cs => simp [blkA, ih]
    | blk d => simp [blkA, ih]

theorem repBytes_encodeCell (c : CellT) : ∀ n,
    repBytes n (encodeCell c) = cellsBytes (List.replicate n c) := by
  intro n
  induction n with
  | zero => rfl
  | succ n ih => simp [repBytes, List.replicate_succ, cellsBytes, ih]

theorem createIndex_spec (H : List Nat → Nat) (A : Abs) (h : WF A) :
    createIndex H (toStore A) = toStore (growA H A) := by
  obtain ⟨hhead, hrok, hisz, hbsz, hbpos, hige, hflen⟩ := WF_fields A h
  obtain ⟨cs, rest, hre⟩ := headSeg_cases A.regions hhead
  have hgi := getIndexes_spec A h
  unfold createIndex
  rw [hgi]
  have hne : segHeadersA A.iSize A.bSize A.regions 0 ≠ [] := by
    rw [hre]; simp [segHeadersA]
  cases hlast : (segHeadersA A.iSize A.bSize A.regions 0).getLast? with
  | none => exact absurd (List.getLast?_eq_none_iff.1 hlast) hne
  | some ph =>
    have hras := renderGo_append_seg A.iSize A.bSize
      (List.replicate (nIdxOf A.iSize) ⟨false, H [], 0, 0⟩) A.regions 0 ph.1 ph.2
      (by rw [hlast])
    simp only [toStore, growA, emptySeg, render]
    simp only [Nat.zero_add, Nat.sub_zero] at hras
    rw [hras]
    have hflen2 : (renderGo A.iSize A.bSize A.regions 0).length = sumLens A.regions :=
      renderGo_length _ _ _ _
    rw [repBytes_encodeCell]
    simp only [hflen2, List.append_assoc]
    rw [hlast]

theorem cellsOfSegA_mem_val (cs : List CellT) : ∀ base pc, pc ∈ cellsOfSegA base cs → pc.2 ∈ cs := by
  induction cs with
  | nil => intro base pc h; simp [cellsOfSegA] at h
  | cons c cs ih =>
    intro base pc h
    simp only [cellsOfSegA, List.mem_cons] at h
    rcases h with h | h
    · subst h; simp
    · simp [ih (base + 15) pc h]

theorem cellsA_cellOK (isz bsz : Nat) (rs : List Region) : ∀ off pc,
    pc ∈ cellsA rs off → regionsOKb isz bsz rs = true → cellOKb bsz pc.2 = true := by
  induction rs with
  | nil => intro off pc h; simp [cellsA] at h
  | cons r rest ih =>
    intro off pc h hok
    cases r with
    | seg cs =>
      obtain ⟨_, hcells, hrest⟩ := regionsOKb_seg isz bsz cs rest hok
      simp only [cellsA, List.mem_append] at h
      rcases h with h | h
      · exact hcells _ (cellsOfSegA_mem_val cs _ pc h)
      · exact ih _ pc h hrest
    | blk d =>
      obtain ⟨_, hrest⟩ := regionsOKb_blk isz bsz d rest hok
      simp only [cellsA] at h
      exact ih _ pc h hrest

theorem blkA_len (isz bsz : Nat) (rs : List Region) : ∀ off pd,
    pd ∈ blkA rs off → regionsOKb isz bsz rs = true → pd.2.length = bsz := by
  induction rs with
  | nil => intro off pd h; simp [blkA] at h
  | cons r rest ih =>
    intro off pd h hok
    cases r with
    | seg cs =>
      obtain ⟨_, _, hrest⟩ := regionsOKb_seg isz bsz cs rest hok
      simp only [blkA] at h
      exact ih _ pd h hrest
    | blk d =>
      obtain ⟨hd, hrest⟩ := regionsOKb_blk isz bsz d rest hok
      simp only [blkA, List.mem_cons] at h
      rcases h with h | h
      · subst h; exact hd
      · exact ih _ pd h hrest

theorem cellsA_sorted (rs : List Region) : ∀ off,
    List.Pairwise (fun a b : Nat × CellT => a.1 < b.1) (cellsA rs off) := by
  have hseg : ∀ (cs : List CellT) (base : Nat),
      List.Pairwise (fun a b : Nat × CellT => a.1 < b.1) (cellsOfSegA base cs) := by
    intro cs
    induction cs with
    | nil => intro base; exact List.Pairwise.nil
    | cons c cs ih =>
      intro base
      simp only [cellsOfSegA, List.pairwise_cons]
      refine ⟨?_, ih (base + 15)⟩
      intro pc hm
      have := cellsOfSegA_bounds cs (base + 15) pc hm
      show base < pc.1
      omega
  induction rs with
  | nil => intro off; exact List.Pairwise.nil
  | cons r rest ih =>
    intro off
    cases r with
    | seg cs =>
      simp only [cellsA]
      rw [List.pairwise_append]
      refine ⟨hseg cs (off + 9), ih _, ?_⟩
      intro a ha b hb
      have h1 := cellsOfSegA_bounds cs (off + 9) a ha
      have h2 := cellsA_bounds rest (off + (9 + 15 * cs.length)) b hb
      omega
    | blk d =>
      simp only [cellsA]
      exact ih _

theorem mem_unique_offset {c : CellT} {l : List (Nat × CellT)} {p : Nat}
    (hs : List.Pairwise (fun a b : Nat × CellT => a.1 < b.1) l)
    (hc : (p, c) ∈ l) : ∀ a ∈ l, a.1 = p → a = (p, c) := by
  induction l with
  | nil => intro a ha; simp at ha
  | cons x rest ih =>
    rw [List.pairwise_cons] at hs
    intro a ha hap
    simp only [List.mem_cons] at hc ha
    rcases hc with hc | hc
    · rcases ha with ha | ha
      · rw [ha, ← hc]
      · exfalso
        have hlt := hs.1 a ha
        rw [← hc] at hlt
        simp only at hlt
        omega
    · rcases ha with ha | ha
      · exfalso
        have hlt := hs.1 (p, c) hc
        simp only at hlt
        rw [ha] at hap
        omega
      · exact ih hs.2 hc a ha hap

theorem map_if_comp (l : List (Nat × CellT)) (p : Nat) (c1 c2 : CellT) :
    ((l.map (fun pc => if pc.1 = p then (p, c1) else pc)).map
      (fun pc => if pc.1 = p then (p, c2) else pc))
      = l.map (fun pc => if pc.1 = p then (p, c2) else pc) := by
  induction l with
  | nil => rfl
  | cons pc rest ih =>
    simp only [List.map_cons]
    by_cases hp : pc.1 = p
    · simp [if_pos hp, ih]
    · simp [if_neg hp, ih]

theorem cellsOfSegA_replicate_mem (c : CellT) : ∀ (n base : Nat) pc,
    pc ∈ cellsOfSegA base (List.replicate n c) → pc.2 = c := by
  intro n
  induction n with
  | zero => intro base pc h; simp [cellsOfSegA] at h
  | succ n ih =>
    intro base pc h
    simp only [List.replicate_succ, cellsOfSegA, List.mem_cons] at h
    rcases h with h | h
    · rw [h]
    · exact ih (base + 15) pc h

theorem cellsOfSegA_replicate_head (c : CellT) (n base : Nat) (h : 0 < n) :
    (base, c) ∈ cellsOfSegA base (List.replicate n c) := by
  cases n with
  | zero => omega
  | succ n => simp [List.replicate_succ, cellsOfSegA]

theorem findFree_cellsOfSegA_replicate (c : CellT) (hocc : c.occupied = false)
    (n base : Nat) (h : 0 < n) :
    findFree (cellsOfSegA base (List.replicate n c)) = some base := by
  cases n with
  | zero => omega
  | succ n => simp [List.replicate_succ, cellsOfSegA, findFree, hocc]

theorem cellsA_growA (H : List Nat → Nat) (A : Abs) :
    cellsA (growA H A).regions 0
      = cellsA A.regions 0
        ++ cellsOfSegA (sumLens A.regions + 9)
            (List.replicate (nIdxOf A.iSize) ⟨false, H [], 0, 0⟩) := by
  simp only [growA, emptySeg]
  have := cellsA_append_seg A.regions
    (List.replicate (nIdxOf A.iSize) ⟨false, H [], 0, 0⟩) 0
  simpa using this

theorem blkA_growA (H : List Nat → Nat) (A : Abs) :
    blkA (growA H A).regions 0 = blkA A.regions 0 := by
  simp only [growA, emptySeg]
  exact blkA_append_seg A.regions _ 0

theorem render_growA_length (H : List Nat → Nat) (A : Abs) :
    (render (growA H A)).length = (render A).length + (9 + 15 * nIdxOf A.iSize) := by
  simp only [render, growA, emptySeg, renderGo_length, sumLens_append, sumLens, regLen,
    List.length_replicate]
  omega

theorem segCount_growA (H : List Nat → Nat) (A : Abs) :
    segCount (growA H A).regions = segCount A.regions + 1 := by
  simp only [growA, emptySeg, segCount_append, segCount]

theorem WF_growA (H : List Nat → Nat) (A : Abs) (h : WF A) (hH0 : H [] < 2 ^ 64)
    (hlen : (render A).length + (9 + 15 * nIdxOf A.iSize) < 2 ^ 32) :
    WF (growA H A) := by
  obtain ⟨hhead, hrok, hisz, hbsz, hbpos, hige, hflen⟩ := WF_fields A h
  have hptr := h.2.2.1
  have hpw := h.2.2.2.1
  refine ⟨?_, ?_, ?_, ?_, hisz, hbsz, hbpos, hige, ?_⟩
  · exact headSegB_append A.regions _ hhead
  · refine regionsOKb_append A.iSize A.bSize A.regions _ hrok ?_
    simp only [emptySeg, regionsOKb, Bool.and_eq_true, beq_iff_eq, List.all_eq_true]
    refine ⟨⟨by simp, ?_⟩, trivial⟩
    intro c hc
    have := List.eq_of_mem_replicate hc
    subst this
    simp [cellOKb]
    omega
  · intro pc hm
    rw [cellsA_growA] at hm
    rw [blkA_growA]
    simp only [List.mem_append] at hm
    rcases hm with hm | hm
    · exact hptr pc hm
    · left
      rw [cellsOfSegA_replicate_mem _ _ _ _ hm]
  · rw [cellsA_growA]
    rw [List.pairwise_append]
    refine ⟨hpw, ?_, ?_⟩
    · apply List.pairwise_of_forall_mem_list
      intro a ha b _
      left
      rw [cellsOfSegA_replicate_mem _ _ _ _ ha]
    · intro a _ b hb
      right; left
      rw [cellsOfSegA_replicate_mem _ _ _ _ hb]
  · rw [render_growA_length]
    exact hlen

/-!
Behaviour of the scans over an updated cell listing, and the operation
specs for `requestFreeIndexCell`, `readBlock` and `discardBlock` on
rendered stores.
-/

theorem findMatch_map_irrelevant (hk p : Nat) (cNew : CellT) (l : List (Nat × CellT))
    (hnew : ¬(cNew.keyHash = hk ∧ cNew.occupied = true))
    (hold : ∀ pc ∈ l, pc.1 = p → ¬(pc.2.keyHash = hk ∧ pc.2.occupied = true)) :
    findMatch hk (l.map (fun pc => if pc.1 = p then (p, cNew) else pc)) = findMatch hk l := by
  induction l with
  | nil => rfl
  | cons x rest ih =>
    simp only [List.map_cons]
    by_cases hx : x.1 = p
    · have hxm : ¬(x.2.keyHash = hk ∧ x.2.occupied = true) := hold x (by simp) hx
      have hnew2 : ¬((p, cNew).2.keyHash = hk ∧ (p, cNew).2.occupied = true) := hnew
      simp only [if_pos hx, findMatch, if_neg hnew2, if_neg hxm]
      exact ih (fun pc h2 hp2 => hold pc (by simp [h2]) hp2)
    · simp only [if_neg hx, findMatch]
      by_cases hxm : x.2.keyHash = hk ∧ x.2.occupied = true
      · simp [if_pos hxm]
      · simp only [if_neg hxm]
        exact ih (fun pc h2 hp2 => hold pc (by simp [h2]) hp2)

theorem findMatch_map_hit (hk p : Nat) (cNew : CellT) (l : List (Nat × CellT))
    (hc : cNew.keyHash = hk ∧ cNew.occupied = true)
    (hnone : ∀ pc ∈ l, ¬(pc.2.keyHash = hk ∧ pc.2.occupied = true)) :
    ∀ c0, (p, c0) ∈ l →
    findMatch hk (l.map (fun pc => if pc.1 = p then (p, cNew) else pc)) = p := by
  induction l with
  | nil => intro c0 h; simp at h
  | cons x rest ih =>
    intro c0 hmem
    simp only [List.map_cons]
    by_cases hx : x.1 = p
    · simp [if_pos hx, findMatch, hc]
    · have hxm := hnone x (by simp)
      simp only [if_neg hx, findMatch, if_neg hxm]
      have hmem2 : (p, c0) ∈ rest := by
        simp only [List.mem_cons] at hmem
        rcases hmem with hmem | hmem
        · exfalso; rw [← hmem] at hx; simp at hx
        · exact hmem
      exact ih (fun pc h2 => hnone pc (by simp [h2])) c0 hmem2

theorem findMatch_map_exist (hk p : Nat) (cNew : CellT) (l : List (Nat × CellT))
    (hc : cNew.keyHash = hk ∧ cNew.occupied = true)
    (hp : p ≠ 0) :
    findMatch hk l = p →
    findMatch hk (l.map (fun pc => if pc.1 = p then (p, cNew) else pc)) = p := by
  induction l with
  | nil => intro h; simp [findMatch] at h; exact absurd h.symm hp
  | cons x rest ih =>
    intro hfm
    simp only [List.map_cons]
    by_cases hx : x.1 = p
    · simp [if_pos hx, findMatch, hc]
    · have hxm : ¬(x.2.keyHash = hk ∧ x.2.occupied = true) := by
        intro hm
        simp only [findMatch, if_pos hm] at hfm
        exact hx hfm
      simp only [findMatch, if_pos, if_neg hxm] at hfm
      simp only [if_neg hx, findMatch, if_neg hxm]
      exact ih hfm

theorem findMatch_map_clear (hk p : Nat) (cNew : CellT) (l : List (Nat × CellT))
    (hnew : ¬(cNew.keyHash = hk ∧ cNew.occupied = true))
    (hone : ∀ pc ∈ l, (pc.2.keyHash = hk ∧ pc.2.occupied = true) → pc.1 = p) :
    findMatch hk (l.map (fun pc => if pc.1 = p then (p, cNew) else pc)) = 0 := by
  apply findMatch_of_no_match
  intro pc2 hm
  rw [List.mem_map] at hm
  obtain ⟨pc, hpc, hf⟩ := hm
  by_cases hx : pc.1 = p
  · rw [if_pos hx] at hf
    rw [← hf]
    simpa using hnew
  · rw [if_neg hx] at hf
    rw [← hf]
    intro hm2
    exact hx (hone pc hpc hm2)

theorem nIdx_pos (A : Abs) (h : WF A) : 0 < nIdxOf A.iSize := by
  have hige := (WF_fields A h).2.2.2.2.2.1
  unfold nIdxOf
  have := (Nat.le_div_iff_mul_le (show 0 < 15 by norm_num)).2 (by omega : 1 * 15 ≤ A.iSize)
  omega

theorem requestFree_some (H : List Nat → Nat) (A : Abs) (h : WF A) (p : Nat)
    (hf : findFree (cellsA A.regions 0) = some p) :
    requestFreeIndexCell H (toStore A) = (toStore A, p) := by
  unfold requestFreeIndexCell
  simp only [requestFreeGo]
  rw [getIndexesCells_spec A h]
  simp [hf]

theorem requestFree_grow (H : List Nat → Nat) (A : Abs) (h : WF A) (hH0 : H [] < 2 ^ 64)
    (hlen : (render A).length + (9 + 15 * nIdxOf A.iSize) < 2 ^ 32)
    (hf : findFree (cellsA A.regions 0) = none) :
    requestFreeIndexCell H (toStore A) = (toStore (growA H A), sumLens A.regions + 9) := by
  have hwf2 := WF_growA H A h hH0 hlen
  unfold requestFreeIndexCell
  simp only [requestFreeGo]
  rw [getIndexesCells_spec A h]
  simp only [hf]
  rw [createIndex_spec H A h, getIndexesCells_spec _ hwf2]
  simp only [cellsA_growA, findFree_append, hf]
  rw [findFree_cellsOfSegA_replicate _ rfl _ _ (nIdx_pos A h)]

theorem found_cell_facts (A : Abs) (h : WF A) (hkey : Nat) (p : Nat)
    (hfm : findMatch hkey (cellsA A.regions 0) = p) (hp : p ≠ 0) :
    ∃ c d, (p, c) ∈ cellsA A.regions 0 ∧ c.occupied = true ∧ c.keyHash = hkey ∧
      c.dataOffset ≠ 0 ∧ (c.dataOffset, d) ∈ blkA A.regions 0 ∧ d.length = A.bSize ∧
      c.dataLength ≤ A.bSize ∧ c.keyHash < 2 ^ 64 ∧ c.dataOffset < 2 ^ 32 := by
  rcases findMatch_cases hkey (cellsA A.regions 0) with h0 | ⟨c, hm, ho, hh⟩
  · rw [hfm] at h0; exact absurd h0 hp
  · rw [hfm] at hm
    have hok := cellsA_cellOK A.iSize A.bSize A.regions 0 (p, c) hm h.2.1
    obtain ⟨hkh, hdo32, hdl, hoccdo⟩ := cellOKb_bounds A.bSize c hok
    have hdo : c.dataOffset ≠ 0 := hoccdo ho
    rcases h.2.2.1 (p, c) hm with h0 | ⟨bd, hbd, hbde⟩
    · exact absurd h0 hdo
    · have hbd2 : (c.dataOffset, bd.2) ∈ blkA A.regions 0 := by
        have : bd = (c.dataOffset, bd.2) := by
          rw [← hbde]
        rw [← this]
        exact hbd
      refine ⟨c, bd.2, hm, ho, hh, hdo, hbd2, ?_, hdl, hkh, hdo32⟩
      exact blkA_len A.iSize A.bSize A.regions 0 (c.dataOffset, bd.2) hbd2 h.2.1

theorem readBlock_none (H : List Nat → Nat) (A : Abs) (key : List Nat) (h : WF A)
    (hz : findMatch (H key) (cellsA A.regions 0) = 0) :
    readBlock H (toStore A) key = .error (.BlockNotFound, toStore A) := by
  unfold readBlock
  rw [keyExists_spec H A h key]
  simp [hz]

theorem readBlock_found (H : List Nat → Nat) (A : Abs) (key : List Nat) (p : Nat)
    (c : CellT) (d : List Nat) (h : WF A)
    (hfm : findMatch (H key) (cellsA A.regions 0) = p) (hp : p ≠ 0)
    (hmem : (p, c) ∈ cellsA A.regions 0)
    (hblk : (c.dataOffset, d) ∈ blkA A.regions 0)
    (hdl : c.dataLength ≤ d.length) :
    readBlock H (toStore A) key = .ok (d.take c.dataLength, toStore A) := by
  have hdec : decodeCell (render A) p = c := by
    exact cellsA_decode A.iSize A.bSize (render A) (WF_fields A h).2.2.2.1 A.regions 0
      (by simp [render]) h.2.1 (p, c) hmem
  obtain ⟨tail, hdrop⟩ := blkA_drop A.iSize A.bSize (render A) A.regions 0
    (by simp [render]) (c.dataOffset, d) hblk
  unfold readBlock
  rw [keyExists_spec H A h key]
  simp only [hfm, hp, ne_eq, not_false_eq_true, if_pos]
  simp only [toStore] at hdec ⊢
  rw [hdec]
  unfold readBytes
  simp only at hdrop
  rw [hdrop, List.take_append_of_le_length hdl]

theorem WF_setCellR (A : Abs) (h : WF A) (p : Nat) (c0 cNew : CellT)
    (hmem : (p, c0) ∈ cellsA A.regions 0)
    (hok : cellOKb A.bSize cNew = true)
    (hdo : cNew.dataOffset = c0.dataOffset ∨
      (cNew.dataOffset ≠ 0 ∧ (∃ bd ∈ blkA A.regions 0, bd.1 = cNew.dataOffset) ∧
        ∀ pc ∈ cellsA A.regions 0, pc.2.dataOffset = 0 ∨ pc.2.dataOffset ≠ cNew.dataOffset)) :
    WF ⟨A.iSize, A.bSize, setCellR A.regions 0 p cNew⟩ := by
  obtain ⟨hhead, hrok, hisz, hbsz, hbpos, hige, hflen⟩ := WF_fields A h
  have hptr := h.2.2.1
  have hpw := h.2.2.2.1
  have hcells := cellsA_setCellR A.regions 0 p c0 cNew hmem
  have hblks := blkA_setCellR A.regions 0 0 p cNew
  have hsorted := cellsA_sorted A.regions 0
  have huniq := mem_unique_offset hsorted hmem
  refine ⟨?_, ?_, ?_, ?_, hisz, hbsz, hbpos, hige, ?_⟩
  · show headSegB (setCellR A.regions 0 p cNew) = true
    rw [headSegB_setCellR]; exact hhead
  · exact regionsOKb_setCellR A.iSize A.bSize A.regions 0 p cNew hrok hok
  · show ∀ pc ∈ cellsA (setCellR A.regions 0 p cNew) 0, _
    rw [hcells]
    intro pc2 hm2
    rw [List.mem_map] at hm2
    obtain ⟨pc, hpc, hf⟩ := hm2
    rw [hblks]
    by_cases hx : pc.1 = p
    · rw [if_pos hx] at hf
      subst hf
      simp only
      rcases hdo with hdo | hdo
      · rw [hdo]
        have hpceq := huniq pc hpc hx
        have := hptr (p, c0) hmem
        simpa using this
      · right; exact hdo.2.1
    · rw [if_neg hx] at hf
      subst hf
      exact hptr pc hpc
  · show List.Pairwise _ (cellsA (setCellR A.regions 0 p cNew) 0)
    rw [hcells, List.pairwise_map]
    have hcomb := hsorted.and hpw
    apply hcomb.imp_of_mem
    intro a b ha hb hab
    obtain ⟨hlt, hR⟩ := hab
    by_cases hxa : a.1 = p
    · have haeq := huniq a ha hxa
      have hao : a.2.dataOffset = c0.dataOffset := by rw [haeq]
      by_cases hxb : b.1 = p
      · exfalso
        have hbeq := huniq b hb hxb
        rw [haeq, hbeq] at hlt
        simp at hlt
      · simp only [if_pos hxa, if_neg hxb]
        show cNew.dataOffset = 0 ∨ b.2.dataOffset = 0 ∨ cNew.dataOffset ≠ b.2.dataOffset
        rcases hdo with hdo | hdo
        · rw [hdo, ← hao]
          exact hR
        · rcases hdo.2.2 b hb with h0 | hne2
          · right; left; exact h0
          · right; right; intro hcon; exact hne2 hcon.symm
    · by_cases hxb : b.1 = p
      · have hbeq := huniq b hb hxb
        have hbo : b.2.dataOffset = c0.dataOffset := by rw [hbeq]
        simp only [if_neg hxa, if_pos hxb]
        show a.2.dataOffset = 0 ∨ cNew.dataOffset = 0 ∨ a.2.dataOffset ≠ cNew.dataOffset
        rcases hdo with hdo | hdo
        · rw [hdo, ← hbo]
          exact hR
        · rcases hdo.2.2 a ha with h0 | hne2
          · left; exact h0
          · right; right; exact hne2
      · simp only [if_neg hxa, if_neg hxb]
        exact hR
  · show (render ⟨A.iSize, A.bSize, setCellR A.regions 0 p cNew⟩).length < 2 ^ 32
    have : (render ⟨A.iSize, A.bSize, setCellR A.regions 0 p cNew⟩).length
        = (render A).length := by
      simp only [render, renderGo_length]
      exact sumLens_setCellR A.regions 0 p cNew
    rw [this]
    exact hflen

theorem discardBlock_spec (H : List Nat → Nat) (A : Abs) (key : List Nat) (p : Nat)
    (c : CellT) (h : WF A) (hH0 : H [] < 2 ^ 64)
    (hfm : findMatch (H key) (cellsA A.regions 0) = p) (hp : p ≠ 0)
    (hmem : (p, c) ∈ cellsA A.regions 0) :
    discardBlock H (toStore A) key
      = .ok (toStore ⟨A.iSize, A.bSize,
          setCellR A.regions 0 p ⟨false, H [], c.dataOffset, c.dataLength⟩⟩) ∧
    WF ⟨A.iSize, A.bSize, setCellR A.regions 0 p ⟨false, H [], c.dataOffset, c.dataLength⟩⟩ ∧
    cellsA (setCellR A.regions 0 p ⟨false, H [], c.dataOffset, c.dataLength⟩) 0
      = (cellsA A.regions 0).map
          (fun pc => if pc.1 = p then (p, ⟨false, H [], c.dataOffset, c.dataLength⟩) else pc) ∧
    blkA (setCellR A.regions 0 p ⟨false, H [], c.dataOffset, c.dataLength⟩) 0
      = blkA A.regions 0 := by
  have hok := cellsA_cellOK A.iSize A.bSize A.regions 0 (p, c) hmem h.2.1
  obtain ⟨hkh, hdo32, hdl, _⟩ := cellOKb_bounds A.bSize c hok
  have hdec : decodeCell (render A) p = c :=
    cellsA_decode A.iSize A.bSize (render A) (WF_fields A h).2.2.2.1 A.regions 0
      (by simp [render]) h.2.1 (p, c) hmem
  have hnewok : cellOKb A.bSize (⟨false, H [], c.dataOffset, c.dataLength⟩ : CellT) = true := by
    simp [cellOKb]
    omega
  refine ⟨?_, WF_setCellR A h p c _ hmem hnewok (Or.inl rfl),
    cellsA_setCellR A.regions 0 p c _ hmem, blkA_setCellR A.regions 0 0 p _⟩
  unfold discardBlock
  rw [keyExists_spec H A h key]
  simp only [hfm, hp, ne_eq, not_false_eq_true, if_pos]
  simp only [toStore] at hdec ⊢
  rw [hdec]
  have hw := writeBytes_setCellR A.iSize A.bSize A.regions 0 p c
    (⟨false, H [], c.dataOffset, c.dataLength⟩ : CellT) hmem
  rw [Nat.sub_zero] at hw
  simp only [render]
  rw [hw]

/-!
Refinement of `writeBlock` on rendered stores, one lemma per control
path (existing key, fresh key into a reused slot, fresh key with a new
block, fresh key after index growth).
-/

theorem blkA_lb_seg (rs : List Region) (off : Nat) (hhead : headSegB rs = true) :
    ∀ pd ∈ blkA rs off, off + 9 ≤ pd.1 := by
  obtain ⟨cs, rest, hre⟩ := headSeg_cases rs hhead
  subst hre
  intro pd hm
  simp only [blkA] at hm
  have := blkA_bounds rest (off + (9 + 15 * cs.length)) pd hm
  omega

theorem WF_setBlkR (A : Abs) (h : WF A) (p : Nat) (v d : List Nat)
    (hmem : (p, d) ∈ blkA A.regions 0) (hlen : v.length ≤ d.length) :
    WF ⟨A.iSize, A.bSize, setBlkR A.regions 0 p v⟩ := by
  obtain ⟨hhead, hrok, hisz, hbsz, hbpos, hige, hflen⟩ := WF_fields A h
  have hptr := h.2.2.1
  have hpw := h.2.2.2.1
  obtain ⟨h1, h2, h3, h4, h5, h6, h7⟩ :=
    setBlkR_shape A.iSize A.bSize hbpos v A.regions 0 p d hmem hlen hrok
  refine ⟨?_, h5, ?_, ?_, hisz, hbsz, hbpos, hige, ?_⟩
  · show headSegB (setBlkR A.regions 0 p v) = true
    rw [h6]; exact hhead
  · intro pc hm
    rw [h2] at hm
    rcases hptr pc hm with h0 | ⟨bd, hbd, hbde⟩
    · left; exact h0
    · right
      refine ⟨if bd.1 = p then (p, v ++ d.drop v.length) else bd, ?_, ?_⟩
      · rw [h1, List.mem_map]
        exact ⟨bd, hbd, rfl⟩
      · by_cases hx : bd.1 = p
        · rw [if_pos hx]
          simp only
          rw [← hx, hbde]
        · rw [if_neg hx]
          exact hbde
  · show List.Pairwise _ (cellsA (setBlkR A.regions 0 p v) 0)
    rw [h2]
    exact hpw
  · show (render ⟨A.iSize, A.bSize, setBlkR A.regions 0 p v⟩).length < 2 ^ 32
    have heq : (render ⟨A.iSize, A.bSize, setBlkR A.regions 0 p v⟩).length
        = (render A).length := by
      simp only [render, renderGo_length]
      exact h3
    rw [heq]
    exact hflen

theorem wb_tail_spec (H : List Nat → Nat) (key value : List Nat) (B : Abs) (p : Nat)
    (c1 : CellT) (d : List Nat) (hB : WF B)
    (hmem : (p, c1) ∈ cellsA B.regions 0)
    (hblk : (c1.dataOffset, d) ∈ blkA B.regions 0)
    (hHk : H key < 2 ^ 64)
    (hv : value.length ≤ B.bSize) :
    writeBytes
        (writeBytes (render B) p
          (encodeCell ⟨(decodeCell (render B) p).occupied, H key,
            (decodeCell (render B) p).dataOffset, value.length⟩))
        (decodeCell (render B) p).dataOffset value
      = render (wbTailA H B key value p c1) ∧
    WF (wbTailA H B key value p c1) ∧
    cellsA (wbTailA H B key value p c1).regions 0
      = (cellsA B.regions 0).map
          (fun pc => if pc.1 = p then (p, ⟨c1.occupied, H key, c1.dataOffset, value.length⟩) else pc) ∧
    blkA (wbTailA H B key value p c1).regions 0
      = (blkA B.regions 0).map
          (fun pd => if pd.1 = c1.dataOffset then (c1.dataOffset, value ++ d.drop value.length) else pd) ∧
    sumLens (wbTailA H B key value p c1).regions = sumLens B.regions ∧
    segCount (wbTailA H B key value p c1).regions = segCount B.regions := by
  obtain ⟨hhead, hrok, hisz, hbsz, hbpos, hige, hflen⟩ := WF_fields B hB
  have hdec : decodeCell (render B) p = c1 :=
    cellsA_decode B.iSize B.bSize (render B) hbsz B.regions 0 (by simp [render]) hrok
      (p, c1) hmem
  have hdlen : d.length = B.bSize := blkA_len B.iSize B.bSize B.regions 0 _ hblk hrok
  have hc1ok := cellsA_cellOK B.iSize B.bSize B.regions 0 (p, c1) hmem hrok
  obtain ⟨_, hdo32, _, _⟩ := cellOKb_bounds B.bSize c1 hc1ok
  have hdonz : c1.dataOffset ≠ 0 := by
    have := blkA_lb_seg B.regions 0 hhead (c1.dataOffset, d) hblk
    simp only at this
    omega
  have hnewok : cellOKb B.bSize
      (⟨c1.occupied, H key, c1.dataOffset, value.length⟩ : CellT) = true := by
    simp [cellOKb, hHk, hdo32, hv]
    exact ⟨⟨hHk, hdo32⟩, Or.inr hdonz⟩
  have hwf1 : WF ⟨B.iSize, B.bSize,
      setCellR B.regions 0 p ⟨c1.occupied, H key, c1.dataOffset, value.length⟩⟩ :=
    WF_setCellR B hB p c1 _ hmem hnewok (Or.inl rfl)
  have hcells1 := cellsA_setCellR B.regions 0 p c1
    (⟨c1.occupied, H key, c1.dataOffset, value.length⟩ : CellT) hmem
  have hblks1 := blkA_setCellR B.regions 0 0 p
    (⟨c1.occupied, H key, c1.dataOffset, value.length⟩ : CellT)
  have hw1 := writeBytes_setCellR B.iSize B.bSize B.regions 0 p c1
    (⟨c1.occupied, H key, c1.dataOffset, value.length⟩ : CellT) hmem
  rw [Nat.sub_zero] at hw1
  have hblkmem1 : (c1.dataOffset, d)
      ∈ blkA (setCellR B.regions 0 p ⟨c1.occupied, H key, c1.dataOffset, value.length⟩) 0 := by
    rw [hblks1]; exact hblk
  have hrok1 : regionsOKb B.iSize B.bSize
      (setCellR B.regions 0 p ⟨c1.occupied, H key, c1.dataOffset, value.length⟩) = true :=
    hwf1.2.1
  have hvd : value.length ≤ d.length := by omega
  have hw2 := writeBytes_setBlkR B.iSize B.bSize hbpos value
    (setCellR B.regions 0 p ⟨c1.occupied, H key, c1.dataOffset, value.length⟩)
    0 c1.dataOffset d hblkmem1 hvd hrok1
  rw [Nat.sub_zero] at hw2
  obtain ⟨hs1, hs2, hs3, hs4, hs5, hs6, hs7⟩ :=
    setBlkR_shape B.iSize B.bSize hbpos value
      (setCellR B.regions 0 p ⟨c1.occupied, H key, c1.dataOffset, value.length⟩)
      0 c1.dataOffset d hblkmem1 hvd hrok1
  refine ⟨?_, ?_, ?_, ?_, ?_, ?_⟩
  · rw [hdec]
    simp only [render] at hw1 hw2 ⊢
    rw [hw1, hw2]
    rfl
  · have := WF_setBlkR ⟨B.iSize, B.bSize,
      setCellR B.regions 0 p ⟨c1.occupied, H key, c1.dataOffset, value.length⟩⟩
      hwf1 c1.dataOffset value d hblkmem1 hvd
    exact this
  · show cellsA (setBlkR _ 0 c1.dataOffset value) 0 = _
    rw [hs2, hcells1]
  · show blkA (setBlkR _ 0 c1.dataOffset value) 0 = _
    rw [hs1, hblks1]
  · show sumLens (setBlkR _ 0 c1.dataOffset value) = sumLens B.regions
    rw [hs3]
    exact sumLens_setCellR B.regions 0 p _
  · show segCount (setBlkR _ 0 c1.dataOffset value) = segCount B.regions
    rw [hs4]
    exact segCount_setCellR B.regions 0 p _

theorem render_pos (A : Abs) (h : WF A) : 0 < (render A).length := by
  obtain ⟨cs, rest, hre⟩ := headSeg_cases A.regions h.1
  have : (render A).length = sumLens A.regions := renderGo_length _ _ _ _
  rw [this, hre]
  simp only [sumLens, regLen]
  omega

theorem WF_append_blk (A : Abs) (h : WF A)
    (hlen : (render A).length + A.bSize < 2 ^ 32) :
    WF ⟨A.iSize, A.bSize, A.regions ++ [.blk (List.replicate A.bSize 0)]⟩ := by
  obtain ⟨hhead, hrok, hisz, hbsz, hbpos, hige, hflen⟩ := WF_fields A h
  have hptr := h.2.2.1
  have hpw := h.2.2.2.1
  have hrender : render (⟨A.iSize, A.bSize,
        A.regions ++ [.blk (List.replicate A.bSize 0)]⟩ : Abs)
      = render A ++ List.replicate A.bSize 0 :=
    renderGo_append_blk A.iSize A.bSize _ A.regions 0
  refine ⟨?_, ?_, ?_, ?_, hisz, hbsz, hbpos, hige, ?_⟩
  · exact headSegB_append A.regions _ hhead
  · refine regionsOKb_append A.iSize A.bSize A.regions _ hrok ?_
    simp [regionsOKb]
  · intro pc hm
    rw [cellsA_append_blk] at hm
    rw [blkA_append_blk]
    rcases hptr pc hm with h0 | ⟨bd, hbd, hbde⟩
    · left; exact h0
    · right; exact ⟨bd, by simp [hbd], hbde⟩
  · rw [cellsA_append_blk]
    exact hpw
  · rw [hrender]
    simp only [List.length_append, List.length_replicate]
    omega

theorem findMatch_append_of_none (hk : Nat) (a b : List (Nat × CellT))
    (h : ∀ pc ∈ a, ¬(pc.2.keyHash = hk ∧ pc.2.occupied = true)) :
    findMatch hk (a ++ b) = findMatch hk b := by
  induction a with
  | nil => rfl
  | cons x rest ih =>
    simp only [List.cons_append, List.append_eq, findMatch, if_neg (h x (by simp))]
    exact ih (fun pc h2 => h pc (by simp [h2]))

theorem findMatch_append_of_found (hk : Nat) (a b : List (Nat × CellT)) (q : Nat)
    (hq : findMatch hk a = q) (hqne : q ≠ 0) :
    findMatch hk (a ++ b) = q := by
  induction a with
  | nil => simp [findMatch] at hq; exact absurd hq.symm hqne
  | cons x rest ih =>
    by_cases hx : x.2.keyHash = hk ∧ x.2.occupied = true
    · simp only [findMatch, if_pos hx] at hq
      simp only [List.cons_append, List.append_eq, findMatch, if_pos hx]
      exact hq
    · simp only [findMatch, if_neg hx] at hq
      simp only [List.cons_append, List.append_eq, findMatch, if_neg hx]
      exact ih hq

theorem writeBlock_existing (H : List Nat → Nat) (A : Abs) (key value : List Nat) (hard : Bool)
    (h : WF A) (hHk : H key < 2 ^ 64) (hv : value.length ≤ A.bSize) (p : Nat)
    (hfm : findMatch (H key) (cellsA A.regions 0) = p) (hp : p ≠ 0) :
    ∃ A' c d,
      (p, c) ∈ cellsA A.regions 0 ∧ c.occupied = true ∧ c.keyHash = H key ∧
      (c.dataOffset, d) ∈ blkA A.regions 0 ∧ d.length = A.bSize ∧
      writeBlock H (toStore A) key value hard = .ok (toStore A') ∧
      WF A' ∧ A'.iSize = A.iSize ∧ A'.bSize = A.bSize ∧
      cellsA A'.regions 0
        = (cellsA A.regions 0).map
            (fun pc => if pc.1 = p then (p, ⟨true, H key, c.dataOffset, value.length⟩) else pc) ∧
      blkA A'.regions 0
        = (blkA A.regions 0).map
            (fun pd => if pd.1 = c.dataOffset
              then (c.dataOffset, value ++ d.drop value.length) else pd) ∧
      (render A').length = (render A).length ∧
      segCount A'.regions = segCount A.regions := by
  obtain ⟨c, d, hmem, ho, hh, hdnz, hblk, hdlen, hdl, hkh, hdo32⟩ :=
    found_cell_facts A h (H key) p hfm hp
  obtain ⟨ht1, ht2, ht3, ht4, ht5, ht6⟩ :=
    wb_tail_spec H key value A p c d h hmem hblk hHk hv
  rw [ho] at ht3
  refine ⟨wbTailA H A key value p c, c, d, hmem, ho, hh, hblk, hdlen, ?_, ht2, rfl, rfl,
    ht3, ht4, ?_, ht6⟩
  · unfold writeBlock
    rw [if_neg (by simp only [toStore]; omega)]
    rw [keyExists_spec H A h key, hfm]
    simp only [if_neg hp]
    simp only [toStore] at ht1 ⊢
    rw [ht1]
    rfl
  · have e1 : (render (wbTailA H A key value p c)).length
        = sumLens (wbTailA H A key value p c).regions := renderGo_length _ _ _ _
    have e2 : (render A).length = sumLens A.regions := renderGo_length _ _ _ _
    rw [e1, e2, ht5]

theorem writeBlock_fresh_reuse (H : List Nat → Nat) (A G : Abs) (key value : List Nat)
    (hard : Bool) (h : WF A) (hG : WF G) (hHk : H key < 2 ^ 64)
    (hv : value.length ≤ A.bSize)
    (hfm : findMatch (H key) (cellsA A.regions 0) = 0)
    (pG : Nat) (hrf : requestFreeIndexCell H (toStore A) = (toStore G, pG))
    (hGb : G.bSize = A.bSize)
    (cfree : CellT) (hmemf : (pG, cfree) ∈ cellsA G.regions 0)
    (hdo : cfree.dataOffset ≠ 0) :
    ∃ A' d,
      (cfree.dataOffset, d) ∈ blkA G.regions 0 ∧ d.length = A.bSize ∧
      writeBlock H (toStore A) key value hard = .ok (toStore A') ∧
      WF A' ∧ A'.iSize = G.iSize ∧ A'.bSize = G.bSize ∧
      cellsA A'.regions 0
        = (cellsA G.regions 0).map
            (fun pc => if pc.1 = pG
              then (pG, ⟨true, H key, cfree.dataOffset, value.length⟩) else pc) ∧
      blkA A'.regions 0
        = (blkA G.regions 0).map
            (fun pd => if pd.1 = cfree.dataOffset
              then (cfree.dataOffset, value ++ d.drop value.length) else pd) ∧
      (render A').length = (render G).length ∧
      segCount A'.regions = segCount G.regions := by
  obtain ⟨hheadG, hrokG, hiszG, hbszG, hbposG, higeG, hflenG⟩ := WF_fields G hG
  obtain ⟨d, hblk, hdlen⟩ : ∃ d, (cfree.dataOffset, d) ∈ blkA G.regions 0 ∧
      d.length = A.bSize := by
    rcases hG.2.2.1 (pG, cfree) hmemf with h0 | ⟨bd, hbd, hbde⟩
    · exact absurd h0 hdo
    · refine ⟨bd.2, ?_, ?_⟩
      · have : bd = (cfree.dataOffset, bd.2) := by rw [← hbde]
        rw [← this]; exact hbd
      · rw [← hGb]
        exact blkA_len G.iSize G.bSize G.regions 0 (cfree.dataOffset, bd.2)
          (by have : bd = (cfree.dataOffset, bd.2) := by rw [← hbde]
              rw [← this]; exact hbd) hrokG
  have hcok := cellsA_cellOK G.iSize G.bSize G.regions 0 (pG, cfree) hmemf hrokG
  obtain ⟨hkh, hdo32, hdl, _⟩ := cellOKb_bounds G.bSize cfree hcok
  have hdecf : decodeCell (render G) pG = cfree :=
    cellsA_decode G.iSize G.bSize (render G) hbszG G.regions 0 (by simp [render]) hrokG
      (pG, cfree) hmemf
  have hnewok : cellOKb G.bSize
      (⟨true, H key, cfree.dataOffset, cfree.dataLength⟩ : CellT) = true := by
    simp [cellOKb, hHk, hdo32, hdl]
    exact ⟨⟨hHk, hdo32⟩, hdo⟩
  have hwf1 : WF ⟨G.iSize, G.bSize,
      setCellR G.regions 0 pG ⟨true, H key, cfree.dataOffset, cfree.dataLength⟩⟩ :=
    WF_setCellR G hG pG cfree _ hmemf hnewok (Or.inl rfl)
  have hcells1 := cellsA_setCellR G.regions 0 pG cfree
    (⟨true, H key, cfree.dataOffset, cfree.dataLength⟩ : CellT) hmemf
  have hblks1 := blkA_setCellR G.regions 0 0 pG
    (⟨true, H key, cfree.dataOffset, cfree.dataLength⟩ : CellT)
  have hw1 : writeBytes (render G) pG
      (encodeCell ⟨true, H key, cfree.dataOffset, cfree.dataLength⟩)
      = render (⟨G.iSize, G.bSize,
          setCellR G.regions 0 pG ⟨true, H key, cfree.dataOffset, cfree.dataLength⟩⟩ : Abs) := by
    have hx := writeBytes_setCellR G.iSize G.bSize G.regions 0 pG cfree
      (⟨true, H key, cfree.dataOffset, cfree.dataLength⟩ : CellT) hmemf
    rw [Nat.sub_zero] at hx
    exact hx
  have hmem1 : (pG, (⟨true, H key, cfree.dataOffset, cfree.dataLength⟩ : CellT))
      ∈ cellsA (⟨G.iSize, G.bSize,
        setCellR G.regions 0 pG ⟨true, H key, cfree.dataOffset, cfree.dataLength⟩⟩ : Abs).regions 0 := by
    show _ ∈ cellsA (setCellR G.regions 0 pG _) 0
    rw [hcells1]
    refine List.mem_map.2 ⟨(pG, cfree), hmemf, ?_⟩
    simp
  have hblk1 : ((⟨true, H key, cfree.dataOffset, cfree.dataLength⟩ : CellT).dataOffset, d)
      ∈ blkA (⟨G.iSize, G.bSize,
        setCellR G.regions 0 pG ⟨true, H key, cfree.dataOffset, cfree.dataLength⟩⟩ : Abs).regions 0 := by
    show _ ∈ blkA (setCellR G.regions 0 pG _) 0
    rw [hblks1]
    exact hblk
  have hvG : value.length ≤ (⟨G.iSize, G.bSize,
      setCellR G.regions 0 pG ⟨true, H key, cfree.dataOffset, cfree.dataLength⟩⟩ : Abs).bSize := by
    show value.length ≤ G.bSize
    rw [hGb]; exact hv
  obtain ⟨ht1, ht2, ht3, ht4, ht5, ht6⟩ :=
    wb_tail_spec H key value
      (⟨G.iSize, G.bSize,
        setCellR G.regions 0 pG ⟨true, H key, cfree.dataOffset, cfree.dataLength⟩⟩ : Abs)
      pG (⟨true, H key, cfree.dataOffset, cfree.dataLength⟩ : CellT) d hwf1 hmem1 hblk1 hHk hvG
  refine ⟨wbTailA H
      (⟨G.iSize, G.bSize,
        setCellR G.regions 0 pG ⟨true, H key, cfree.dataOffset, cfree.dataLength⟩⟩ : Abs)
      key value pG (⟨true, H key, cfree.dataOffset, cfree.dataLength⟩ : CellT),
    d, hblk, hdlen, ?_, ht2, rfl, rfl, ?_, ?_, ?_, ?_⟩
  · unfold writeBlock
    rw [if_neg (by simp only [toStore]; omega)]
    simp only [keyExists_spec H A h key, hfm, if_pos (Eq.refl (0 : Nat))]
    rw [hrf]
    simp only [toStore]
    rw [hdecf]
    simp only [if_true, if_neg hdo, hw1, ht1]
    rfl
  · rw [ht3]
    show (cellsA (setCellR G.regions 0 pG _) 0).map _ = _
    rw [hcells1, map_if_comp]
  · rw [ht4]
    show (blkA (setCellR G.regions 0 pG _) 0).map _ = _
    rw [hblks1]
  · have e1 : (render (wbTailA H
        (⟨G.iSize, G.bSize,
          setCellR G.regions 0 pG ⟨true, H key, cfree.dataOffset, cfree.dataLength⟩⟩ : Abs)
        key value pG (⟨true, H key, cfree.dataOffset, cfree.dataLength⟩ : CellT))).length
        = sumLens (wbTailA H
          (⟨G.iSize, G.bSize,
            setCellR G.regions 0 pG ⟨true, H key, cfree.dataOffset, cfree.dataLength⟩⟩ : Abs)
          key value pG (⟨true, H key, cfree.dataOffset, cfree.dataLength⟩ : CellT)).regions :=
      renderGo_length _ _ _ _
    have e2 : (render G).length = sumLens G.regions := renderGo_length _ _ _ _
    have e3 : sumLens (setCellR G.regions 0 pG
        (⟨true, H key, cfree.dataOffset, cfree.dataLength⟩ : CellT)) = sumLens G.regions :=
      sumLens_setCellR G.regions 0 pG _
    rw [e1, e2, ht5]
    exact e3
  · rw [ht6]
    show segCount (setCellR G.regions 0 pG _) = segCount G.regions
    exact segCount_setCellR G.regions 0 pG _

theorem writeBlock_fresh_alloc (H : List Nat → Nat) (A G : Abs) (key value : List Nat)
    (hard : Bool) (h : WF A) (hG : WF G) (hHk : H key < 2 ^ 64)
    (hv : value.length ≤ A.bSize)
    (hfm : findMatch (H key) (cellsA A.regions 0) = 0)
    (pG : Nat) (hrf : requestFreeIndexCell H (toStore A) = (toStore G, pG))
    (hGb : G.bSize = A.bSize)
    (cfree : CellT) (hmemf : (pG, cfree) ∈ cellsA G.regions 0)
    (hdo : cfree.dataOffset = 0)
    (hroom : (render G).length + G.bSize < 2 ^ 32) :
    ∃ A',
      writeBlock H (toStore A) key value hard = .ok (toStore A') ∧
      WF A' ∧ A'.iSize = G.iSize ∧ A'.bSize = G.bSize ∧
      cellsA A'.regions 0
        = (cellsA G.regions 0).map
            (fun pc => if pc.1 = pG
              then (pG, ⟨true, H key, (render G).length, value.length⟩) else pc) ∧
      blkA A'.regions 0
        = blkA G.regions 0
          ++ [((render G).length,
              value ++ (List.replicate G.bSize 0).drop value.length)] ∧
      (render A').length = (render G).length + G.bSize ∧
      segCount A'.regions = segCount G.regions := by
  obtain ⟨hheadG, hrokG, hiszG, hbszG, hbposG, higeG, hflenG⟩ := WF_fields G hG
  have hLsum : (render G).length = sumLens G.regions := renderGo_length _ _ _ _
  have hLpos : 0 < (render G).length := render_pos G hG
  have hcok := cellsA_cellOK G.iSize G.bSize G.regions 0 (pG, cfree) hmemf hrokG
  obtain ⟨hkh, hdo32, hdl, _⟩ := cellOKb_bounds G.bSize cfree hcok
  have hdecf : decodeCell (render G) pG = cfree :=
    cellsA_decode G.iSize G.bSize (render G) hbszG G.regions 0 (by simp [render]) hrokG
      (pG, cfree) hmemf
  have hwfAb : WF ⟨G.iSize, G.bSize, G.regions ++ [.blk (List.replicate G.bSize 0)]⟩ :=
    WF_append_blk G hG hroom
  have hrenderAb : render (⟨G.iSize, G.bSize,
        G.regions ++ [.blk (List.replicate G.bSize 0)]⟩ : Abs)
      = render G ++ List.replicate G.bSize 0 :=
    renderGo_append_blk G.iSize G.bSize _ G.regions 0
  have hfl : (if hard
        then writeBytes (render G) (render G).length (List.replicate G.bSize 0)
        else truncFile (render G) ((render G).length + G.bSize))
      = render (⟨G.iSize, G.bSize,
          G.regions ++ [.blk (List.replicate G.bSize 0)]⟩ : Abs) := by
    rw [hrenderAb]
    cases hard
    · show truncFile (render G) ((render G).length + G.bSize) = _
      exact truncFile_extend (render G) G.bSize
    · show writeBytes (render G) (render G).length (List.replicate G.bSize 0) = _
      exact writeBytes_at_end (render G) (List.replicate G.bSize 0)
  have hmemAb : (pG, cfree) ∈ cellsA (⟨G.iSize, G.bSize,
      G.regions ++ [.blk (List.replicate G.bSize 0)]⟩ : Abs).regions 0 := by
    show (pG, cfree) ∈ cellsA (G.regions ++ [.blk (List.replicate G.bSize 0)]) 0
    rw [cellsA_append_blk]
    exact hmemf
  have hblkAb : blkA (⟨G.iSize, G.bSize,
        G.regions ++ [.blk (List.replicate G.bSize 0)]⟩ : Abs).regions 0
      = blkA G.regions 0 ++ [((render G).length, List.replicate G.bSize 0)] := by
    show blkA (G.regions ++ [.blk (List.replicate G.bSize 0)]) 0 = _
    rw [blkA_append_blk]
    rw [hLsum]
    simp
  have hnewok : cellOKb G.bSize
      (⟨true, H key, (render G).length, cfree.dataLength⟩ : CellT) = true := by
    have hL32 : (render G).length < 2 ^ 32 := by omega
    have hLnz : (render G).length ≠ 0 := by omega
    simp [cellOKb, hHk, hdl, hL32, hLnz]
    exact ⟨hHk, hL32⟩
  have hwf1 : WF ⟨G.iSize, G.bSize,
      setCellR (G.regions ++ [.blk (List.replicate G.bSize 0)]) 0 pG
        ⟨true, H key, (render G).length, cfree.dataLength⟩⟩ := by
    refine WF_setCellR _ hwfAb pG cfree _ hmemAb hnewok
      (Or.inr ⟨by show (render G).length ≠ 0; omega, ?_, ?_⟩)
    · refine ⟨((render G).length, List.replicate G.bSize 0), ?_, rfl⟩
      rw [hblkAb]
      simp
    · intro pc hm
      have hm2 : pc ∈ cellsA G.regions 0 := by
        rw [cellsA_append_blk] at hm
        exact hm
      by_cases hz : pc.2.dataOffset = 0
      · left; exact hz
      · right
        rcases hG.2.2.1 pc hm2 with h0 | ⟨bd, hbd, hbde⟩
        · exact absurd h0 hz
        · have hb := blkA_bounds G.regions 0 bd hbd
          have hbl : bd.2.length = G.bSize := blkA_len G.iSize G.bSize G.regions 0 bd hbd hrokG
          show pc.2.dataOffset
            ≠ (⟨true, H key, (render G).length, cfree.dataLength⟩ : CellT).dataOffset
          have hbe : bd.1 = pc.2.dataOffset := hbde
          show pc.2.dataOffset ≠ (render G).length
          omega
  have hcells1 := cellsA_setCellR (G.regions ++ [.blk (List.replicate G.bSize 0)]) 0 pG cfree
    (⟨true, H key, (render G).length, cfree.dataLength⟩ : CellT) hmemAb
  have hblks1 := blkA_setCellR (G.regions ++ [.blk (List.replicate G.bSize 0)]) 0 0 pG
    (⟨true, H key, (render G).length, cfree.dataLength⟩ : CellT)
  have hw1 : writeBytes (render (⟨G.iSize, G.bSize,
        G.regions ++ [.blk (List.replicate G.bSize 0)]⟩ : Abs)) pG
      (encodeCell ⟨true, H key, (render G).length, cfree.dataLength⟩)
      = render (⟨G.iSize, G.bSize,
          setCellR (G.regions ++ [.blk (List.replicate G.bSize 0)]) 0 pG
            ⟨true, H key, (render G).length, cfree.dataLength⟩⟩ : Abs) := by
    have hx := writeBytes_setCellR G.iSize G.bSize
      (G.regions ++ [.blk (List.replicate G.bSize 0)]) 0 pG cfree
      (⟨true, H key, (render G).length, cfree.dataLength⟩ : CellT) hmemAb
    rw [Nat.sub_zero] at hx
    exact hx
  have hmem1 : (pG, (⟨true, H key, (render G).length, cfree.dataLength⟩ : CellT))
      ∈ cellsA (⟨G.iSize, G.bSize,
        setCellR (G.regions ++ [.blk (List.replicate G.bSize 0)]) 0 pG
          ⟨true, H key, (render G).length, cfree.dataLength⟩⟩ : Abs).regions 0 := by
    show _ ∈ cellsA (setCellR (G.regions ++ [.blk (List.replicate G.bSize 0)]) 0 pG _) 0
    rw [hcells1]
    refine List.mem_map.2 ⟨(pG, cfree), hmemAb, ?_⟩
    simp
  have hblk1 : ((⟨true, H key, (render G).length, cfree.dataLength⟩ : CellT).dataOffset,
      List.replicate G.bSize 0)
      ∈ blkA (⟨G.iSize, G.bSize,
        setCellR (G.regions ++ [.blk (List.replicate G.bSize 0)]) 0 pG
          ⟨true, H key, (render G).length, cfree.dataLength⟩⟩ : Abs).regions 0 := by
    show _ ∈ blkA (setCellR (G.regions ++ [.blk (List.replicate G.bSize 0)]) 0 pG _) 0
    rw [hblks1, hblkAb]
    simp
  have hvB1 : value.length ≤ (⟨G.iSize, G.bSize,
      setCellR (G.regions ++ [.blk (List.replicate G.bSize 0)]) 0 pG
        ⟨true, H key, (render G).length, cfree.dataLength⟩⟩ : Abs).bSize := by
    show value.length ≤ G.bSize
    rw [hGb]; exact hv
  obtain ⟨ht1, ht2, ht3, ht4, ht5, ht6⟩ :=
    wb_tail_spec H key value
      (⟨G.iSize, G.bSize,
        setCellR (G.regions ++ [.blk (List.replicate G.bSize 0)]) 0 pG
          ⟨true, H key, (render G).length, cfree.dataLength⟩⟩ : Abs)
      pG (⟨true, H key, (render G).length, cfree.dataLength⟩ : CellT)
      (List.replicate G.bSize 0) hwf1 hmem1 hblk1 hHk hvB1
  have hblkGne : ∀ pd ∈ blkA G.regions 0, pd.1 ≠ (render G).length := by
    intro pd hpd
    have hb := blkA_bounds G.regions 0 pd hpd
    have hbl : pd.2.length = G.bSize := blkA_len G.iSize G.bSize G.regions 0 pd hpd hrokG
    omega
  refine ⟨wbTailA H
      (⟨G.iSize, G.bSize,
        setCellR (G.regions ++ [.blk (List.replicate G.bSize 0)]) 0 pG
          ⟨true, H key, (render G).length, cfree.dataLength⟩⟩ : Abs)
      key value pG (⟨true, H key, (render G).length, cfree.dataLength⟩ : CellT),
    ?_, ht2, rfl, rfl, ?_, ?_, ?_, ?_⟩
  · unfold writeBlock
    rw [if_neg (by simp only [toStore]; omega)]
    simp only [keyExists_spec H A h key, hfm, if_pos (Eq.refl (0 : Nat))]
    rw [hrf]
    simp only [toStore]
    rw [hdecf]
    simp only [if_pos hdo, hfl, hw1, if_true, ht1]
    rfl
  · rw [ht3]
    show (cellsA (setCellR (G.regions ++ [.blk (List.replicate G.bSize 0)]) 0 pG _) 0).map _ = _
    rw [hcells1, cellsA_append_blk, map_if_comp]
  · rw [ht4]
    show (blkA (setCellR (G.regions ++ [.blk (List.replicate G.bSize 0)]) 0 pG _) 0).map _ = _
    rw [hblks1, hblkAb, List.map_append]
    rw [map_if_id2 (blkA G.regions 0) _ _ hblkGne]
    simp
  · have e1 : (render (wbTailA H
        (⟨G.iSize, G.bSize,
          setCellR (G.regions ++ [.blk (List.replicate G.bSize 0)]) 0 pG
            ⟨true, H key, (render G).length, cfree.dataLength⟩⟩ : Abs)
        key value pG (⟨true, H key, (render G).length, cfree.dataLength⟩ : CellT))).length
        = sumLens (wbTailA H
          (⟨G.iSize, G.bSize,
            setCellR (G.regions ++ [.blk (List.replicate G.bSize 0)]) 0 pG
              ⟨true, H key, (render G).length, cfree.dataLength⟩⟩ : Abs)
          key value pG
          (⟨true, H key, (render G).length, cfree.dataLength⟩ : CellT)).regions :=
      renderGo_length _ _ _ _
    have e3 : sumLens (setCellR (G.regions ++ [.blk (List.replicate G.bSize 0)]) 0 pG
        (⟨true, H key, (render G).length, cfree.dataLength⟩ : CellT))
        = sumLens (G.regions ++ [.blk (List.replicate G.bSize 0)]) :=
      sumLens_setCellR _ 0 pG _
    rw [e1, ht5]
    rw [e3, sumLens_append]
    simp only [sumLens, regLen, List.length_replicate]
    omega
  · rw [ht6]
    show segCount (setCellR (G.regions ++ [.blk (List.replicate G.bSize 0)]) 0 pG _)
      = segCount G.regions
    rw [segCount_setCellR, segCount_append]
    simp [segCount]

theorem blkA_sorted (isz bsz : Nat) :
    ∀ (rs : List Region) (off : Nat), regionsOKb isz bsz rs = true → 0 < bsz →
    List.Pairwise (fun a b : Nat × List Nat => a.1 < b.1) (blkA rs off) := by
  intro rs
  induction rs with
  | nil => intro off _ _; simp [blkA]
  | cons r rest ih =>
    intro off hok hbpos
    cases r with
    | seg cs =>
      obtain ⟨h1, h2, h3⟩ := regionsOKb_seg isz bsz cs rest hok
      exact ih _ h3 hbpos
    | blk d =>
      obtain ⟨h1, h2⟩ := regionsOKb_blk isz bsz d rest hok
      refine List.Pairwise.cons ?_ (ih _ h2 hbpos)
      intro pd hm
      have hb := blkA_bounds rest (off + d.length) pd hm
      show off < pd.1
      omega

theorem findAt_eq_of_mem {α : Type} (l : List (Nat × α)) (p : Nat) (c : α)
    (hs : List.Pairwise (fun a b : Nat × α => a.1 < b.1) l) (hm : (p, c) ∈ l) :
    l.find? (fun pc => pc.1 == p) = some (p, c) := by
  induction l with
  | nil => simp at hm
  | cons x rest ih =>
    rw [List.pairwise_cons] at hs
    rcases List.mem_cons.1 hm with he | hr
    · rw [← he]
      exact List.find?_cons_of_pos rest (by simp)
    · have hlt : x.1 < p := by
        have := hs.1 (p, c) hr
        exact this
      rw [List.find?_cons_of_neg rest (by simp; omega)]
      exact ih hs.2 hr

theorem findAt_map_if_ne {α : Type} (l : List (Nat × α)) (p q : Nat) (x : Nat × α)
    (hx : x.1 = p) (hne : q ≠ p) :
    (l.map (fun pc => if pc.1 = p then x else pc)).find? (fun pc => pc.1 == q)
      = l.find? (fun pc => pc.1 == q) := by
  induction l with
  | nil => rfl
  | cons y rest ih =>
    simp only [List.map_cons]
    by_cases hy : y.1 = p
    · rw [if_pos hy]
      rw [List.find?_cons_of_neg _ (by simp [hx]; omega),
        List.find?_cons_of_neg rest (by simp [hy]; omega)]
      exact ih
    · rw [if_neg hy]
      by_cases hq : y.1 = q
      · rw [List.find?_cons_of_pos _ (by simp [hq]),
          List.find?_cons_of_pos rest (by simp [hq])]
      · rw [List.find?_cons_of_neg _ (by simp [hq]),
          List.find?_cons_of_neg rest (by simp [hq])]
        exact ih

theorem cellAt_eq_of_mem (l : List (Nat × CellT)) (p : Nat) (c : CellT)
    (hs : List.Pairwise (fun a b : Nat × CellT => a.1 < b.1) l) (hm : (p, c) ∈ l) :
    cellAt l p = some c := by
  unfold cellAt
  rw [findAt_eq_of_mem l p c hs hm]
  rfl

theorem blkAt_eq_of_mem (l : List (Nat × List Nat)) (o : Nat) (d : List Nat)
    (hs : List.Pairwise (fun a b : Nat × List Nat => a.1 < b.1) l) (hm : (o, d) ∈ l) :
    blkAt l o = some d := by
  unfold blkAt
  rw [findAt_eq_of_mem l o d hs hm]
  rfl

theorem cellAt_map_if_ne (l : List (Nat × CellT)) (p q : Nat) (c : CellT) (hne : q ≠ p) :
    cellAt (l.map (fun pc => if pc.1 = p then (p, c) else pc)) q = cellAt l q := by
  unfold cellAt
  rw [findAt_map_if_ne l p q (p, c) rfl hne]

theorem blkAt_map_if_ne (l : List (Nat × List Nat)) (p q : Nat) (w : List Nat) (hne : q ≠ p) :
    blkAt (l.map (fun pd => if pd.1 = p then (p, w) else pd)) q = blkAt l q := by
  unfold blkAt
  rw [findAt_map_if_ne l p q (p, w) rfl hne]

theorem blkAt_append_new (l : List (Nat × List Nat)) (o : Nat) (w : List Nat)
    (h : ∀ pd ∈ l, pd.1 ≠ o) :
    blkAt (l ++ [(o, w)]) o = some w := by
  unfold blkAt
  rw [List.find?_append]
  have h1 : l.find? (fun pd => pd.1 == o) = none := by
    rw [List.find?_eq_none]
    intro x hx
    simp
    exact h x hx
  rw [h1]
  simp

theorem blkAt_append_left (l l2 : List (Nat × List Nat)) (o : Nat) (d : List Nat)
    (h : blkAt l o = some d) :
    blkAt (l ++ l2) o = some d := by
  unfold blkAt at h ⊢
  rw [List.find?_append]
  cases hf : l.find? (fun pd => pd.1 == o) with
  | none => rw [hf] at h; simp at h
  | some x => rw [hf] at h; simpa using h

theorem cellAt_append_left (l l2 : List (Nat × CellT)) (p : Nat) (c : CellT)
    (h : cellAt l p = some c) :
    cellAt (l ++ l2) p = some c := by
  unfold cellAt at h ⊢
  rw [List.find?_append]
  cases hf : l.find? (fun pc => pc.1 == p) with
  | none => rw [hf] at h; simp at h
  | some x => rw [hf] at h; simpa using h

theorem countP_map_if (pred : Nat × CellT → Bool) (l : List (Nat × CellT)) (p : Nat)
    (c0 cNew : CellT)
    (hs : List.Pairwise (fun a b : Nat × CellT => a.1 < b.1) l) (hmem : (p, c0) ∈ l) :
    (l.map (fun pc => if pc.1 = p then (p, cNew) else pc)).countP pred
        + (if pred (p, c0) then 1 else 0)
      = l.countP pred + (if pred (p, cNew) then 1 else 0) := by
  induction l with
  | nil => simp at hmem
  | cons x rest ih =>
    rw [List.pairwise_cons] at hs
    by_cases hx : x.1 = p
    · have hxe : x = (p, c0) := by
        rcases List.mem_cons.1 hmem with he | hr
        · exact he.symm
        · have := hs.1 (p, c0) hr
          omega
      have hrest : rest.map (fun pc => if pc.1 = p then (p, cNew) else pc) = rest := by
        refine map_if_id2 rest p (p, cNew) ?_
        intro pc hpc
        have := hs.1 pc hpc
        omega
      simp only [List.map_cons, if_pos hx, hrest]
      rw [hxe]
      simp only [List.countP_cons]
      omega
    · have hr : (p, c0) ∈ rest := by
        rcases List.mem_cons.1 hmem with he | hr
        · exfalso; rw [← he] at hx; exact hx rfl
        · exact hr
      simp only [List.map_cons, if_neg hx, List.countP_cons]
      have := ih hs.2 hr
      omega

theorem cellsOfSegA_length (cs : List CellT) : ∀ base, (cellsOfSegA base cs).length = cs.length := by
  induction cs with
  | nil => intro base; rfl
  | cons c rest ih => intro base; simp [cellsOfSegA, ih]

theorem countP_free_replicate (n base : Nat) (c : CellT) (hc : c.occupied = false) :
    (cellsOfSegA base (List.replicate n c)).countP (fun pc => pc.2.occupied == false) = n := by
  have h1 : (cellsOfSegA base (List.replicate n c)).countP
        (fun pc => pc.2.occupied == false)
      = (cellsOfSegA base (List.replicate n c)).length := by
    refine List.countP_eq_length.2 ?_
    intro pc hm
    have := cellsOfSegA_replicate_mem c n base pc hm
    simp [this, hc]
  rw [h1, cellsOfSegA_length, List.length_replicate]

theorem WF_distinct_offsets (A : Abs) (h : WF A) (p q : Nat) (c c2 : CellT)
    (hp : (p, c) ∈ cellsA A.regions 0) (hq : (q, c2) ∈ cellsA A.regions 0)
    (hne : p ≠ q) (hc : c.dataOffset ≠ 0) (hc2 : c2.dataOffset ≠ 0) :
    c.dataOffset ≠ c2.dataOffset := by
  have hpw := h.2.2.2.1
  have hsymm : Symmetric (fun a b : Nat × CellT =>
      a.2.dataOffset = 0 ∨ b.2.dataOffset = 0 ∨ a.2.dataOffset ≠ b.2.dataOffset) := by
    intro a b hab
    rcases hab with h1 | h1 | h1
    · right; left; exact h1
    · left; exact h1
    · right; right; exact fun he => h1 he.symm
  have hne2 : ((p, c) : Nat × CellT) ≠ (q, c2) := by
    intro he
    exact hne (congrArg Prod.fst he)
  have := hpw.forall hsymm hp hq hne2
  rcases this with h1 | h1 | h1
  · exact absurd h1 hc
  · exact absurd h1 hc2
  · exact h1

theorem lookupA_of_found (A : Abs) (h : WF A) (hk p : Nat)
    (hfm : findMatch hk (cellsA A.regions 0) = p) (hp : p ≠ 0) :
    ∃ c d, cellAt (cellsA A.regions 0) p = some c ∧ c.occupied = true ∧
      c.keyHash = hk ∧ c.dataOffset ≠ 0 ∧
      blkAt (blkA A.regions 0) c.dataOffset = some d ∧ d.length = A.bSize ∧
      c.dataLength ≤ A.bSize ∧ lookupA A hk = some (d.take c.dataLength) := by
  obtain ⟨c, d, hmem, ho, hh, hdnz, hblk, hdlen, hdl, hkh, hdo32⟩ :=
    found_cell_facts A h hk p hfm hp
  have hca := cellAt_eq_of_mem _ p c (cellsA_sorted A.regions 0) hmem
  have hba := blkAt_eq_of_mem _ _ d
    (blkA_sorted A.iSize A.bSize A.regions 0 h.2.1 (WF_fields A h).2.2.2.2.1) hblk
  refine ⟨c, d, hca, ho, hh, hdnz, hba, hdlen, hdl, ?_⟩
  unfold lookupA
  simp only [hfm, if_neg hp, hca, hba]

theorem lookupA_none_findMatch (A : Abs) (h : WF A) (hk : Nat)
    (hl : lookupA A hk = none) : findMatch hk (cellsA A.regions 0) = 0 := by
  by_contra hne
  obtain ⟨c, d, _, _, _, _, _, _, _, hsome⟩ := lookupA_of_found A h hk _ rfl hne
  rw [hsome] at hl
  exact Option.noConfusion hl

theorem readBlock_some (H : List Nat → Nat) (A : Abs) (key : List Nat) (v : List Nat)
    (h : WF A) (hl : lookupA A (H key) = some v) :
    readBlock H (toStore A) key = .ok (v, toStore A) := by
  by_cases hp : findMatch (H key) (cellsA A.regions 0) = 0
  · have hnone : lookupA A (H key) = none := by
      unfold lookupA
      simp [hp]
    rw [hnone] at hl
    exact Option.noConfusion hl
  · obtain ⟨c, d, hmem, ho, hh, hdnz, hblk, hdlen, hdl, hkh, hdo32⟩ :=
      found_cell_facts A h (H key) _ rfl hp
    have hrd := readBlock_found H A key _ c d h rfl hp hmem hblk (by omega)
    have hca := cellAt_eq_of_mem _ _ c (cellsA_sorted A.regions 0) hmem
    have hba := blkAt_eq_of_mem _ _ d
      (blkA_sorted A.iSize A.bSize A.regions 0 h.2.1 (WF_fields A h).2.2.2.2.1) hblk
    have hsome : lookupA A (H key) = some (d.take c.dataLength) := by
      unfold lookupA
      simp only [if_neg hp, hca, hba]
    rw [hsome] at hl
    have hv := Option.some.inj hl
    rw [← hv]
    exact hrd

theorem readBlock_noneA (H : List Nat → Nat) (A : Abs) (key : List Nat)
    (h : WF A) (hl : lookupA A (H key) = none) :
    readBlock H (toStore A) key = .error (.BlockNotFound, toStore A) :=
  readBlock_none H A key h (lookupA_none_findMatch A h (H key) hl)

theorem lookupA_growA (H : List Nat → Nat) (A : Abs) (h : WF A) (hk : Nat) :
    lookupA (growA H A) hk = lookupA A hk := by
  have hcells := cellsA_growA H A
  have hblks := blkA_growA H A
  by_cases hp : findMatch hk (cellsA A.regions 0) = 0
  · have hz : ∀ pc ∈ cellsA A.regions 0, ¬(pc.2.keyHash = hk ∧ pc.2.occupied = true) :=
      findMatch_zero_no_match hk _
        (fun pc hm => by have := cellsA_bounds A.regions 0 pc hm; omega) hp
    have hz2 : findMatch hk (cellsA (growA H A).regions 0) = 0 := by
      rw [hcells, findMatch_append_of_none hk _ _ hz]
      refine findMatch_of_no_match hk _ ?_
      intro pc hm
      have := cellsOfSegA_replicate_mem _ _ _ pc hm
      simp [this]
    unfold lookupA
    simp [hp, hz2]
  · obtain ⟨c, d, hmem, ho, hh, hdnz, hblk, hdlen, hdl, hkh, hdo32⟩ :=
      found_cell_facts A h hk _ rfl hp
    have hfm2 : findMatch hk (cellsA (growA H A).regions 0)
        = findMatch hk (cellsA A.regions 0) := by
      rw [hcells]
      exact findMatch_append_of_found hk _ _ _ rfl hp
    have hca := cellAt_eq_of_mem _ _ c (cellsA_sorted A.regions 0) hmem
    have hca2 : cellAt (cellsA (growA H A).regions 0)
        (findMatch hk (cellsA A.regions 0)) = some c := by
      rw [hcells]
      exact cellAt_append_left _ _ _ c hca
    have hba := blkAt_eq_of_mem _ _ d
      (blkA_sorted A.iSize A.bSize A.regions 0 h.2.1 (WF_fields A h).2.2.2.2.1) hblk
    have hba2 : blkAt (blkA (growA H A).regions 0) c.dataOffset = some d := by
      rw [hblks]
      exact hba
    unfold lookupA
    simp only [hfm2, if_neg hp, hca2, hca, hba2, hba]

theorem lookupA_update_hit (B A2 : Abs) (hk p off : Nat) (value w : List Nat) (c0 : CellT)
    (hmemB : (p, c0) ∈ cellsA B.regions 0)
    (hcase : findMatch hk (cellsA B.regions 0) = p ∨ findMatch hk (cellsA B.regions 0) = 0)
    (hcell : cellsA A2.regions 0
      = (cellsA B.regions 0).map
          (fun pc => if pc.1 = p then (p, ⟨true, hk, off, value.length⟩) else pc))
    (hblkat : blkAt (blkA A2.regions 0) off = some (value ++ w)) :
    lookupA A2 hk = some value ∧ findMatch hk (cellsA A2.regions 0) = p := by
  have hbnd := cellsA_bounds B.regions 0 (p, c0) hmemB
  have hpnz : p ≠ 0 := by
    simp only at hbnd
    omega
  have hfm2 : findMatch hk (cellsA A2.regions 0) = p := by
    rw [hcell]
    rcases hcase with hfm | hfm
    · exact findMatch_map_exist hk p _ _ ⟨rfl, rfl⟩ hpnz hfm
    · exact findMatch_map_hit hk p _ _ ⟨rfl, rfl⟩
        (findMatch_zero_no_match hk _
          (fun pc hm => by have := cellsA_bounds B.regions 0 pc hm; omega) hfm)
        c0 hmemB
  have hmem2 : (p, (⟨true, hk, off, value.length⟩ : CellT)) ∈ cellsA A2.regions 0 := by
    rw [hcell]
    exact List.mem_map.2 ⟨(p, c0), hmemB, by simp⟩
  have hca2 : cellAt (cellsA A2.regions 0) p = some ⟨true, hk, off, value.length⟩ :=
    cellAt_eq_of_mem _ _ _ (cellsA_sorted A2.regions 0) hmem2
  refine ⟨?_, hfm2⟩
  unfold lookupA
  simp only [hfm2, if_neg hpnz, hca2, hblkat]
  rw [List.take_left]

theorem lookupA_update_other (B A2 : Abs) (hk hk2 p off vl : Nat) (w : List Nat) (c0 : CellT)
    (hWB : WF B) (hne : hk2 ≠ hk)
    (hmemB : (p, c0) ∈ cellsA B.regions 0)
    (hc0 : ¬(c0.keyHash = hk2 ∧ c0.occupied = true))
    (hcell : cellsA A2.regions 0
      = (cellsA B.regions 0).map
          (fun pc => if pc.1 = p then (p, ⟨true, hk, off, vl⟩) else pc))
    (hblk : (blkA A2.regions 0
        = (blkA B.regions 0).map (fun pd => if pd.1 = off then (off, w) else pd)
          ∧ off = c0.dataOffset ∧ c0.dataOffset ≠ 0)
      ∨ (blkA A2.regions 0 = blkA B.regions 0 ++ [(off, w)]
          ∧ ∀ pd ∈ blkA B.regions 0, pd.1 ≠ off)) :
    lookupA A2 hk2 = lookupA B hk2 := by
  have hsB := cellsA_sorted B.regions 0
  have hold : ∀ pc ∈ cellsA B.regions 0, pc.1 = p →
      ¬(pc.2.keyHash = hk2 ∧ pc.2.occupied = true) := by
    intro pc hm hp1
    have he := mem_unique_offset hsB hmemB pc hm hp1
    rw [he]
    exact hc0
  have hnew : ¬((⟨true, hk, off, vl⟩ : CellT).keyHash = hk2
      ∧ (⟨true, hk, off, vl⟩ : CellT).occupied = true) := by
    intro hx
    exact hne hx.1.symm
  have hfm2 : findMatch hk2 (cellsA A2.regions 0) = findMatch hk2 (cellsA B.regions 0) := by
    rw [hcell]
    exact findMatch_map_irrelevant hk2 p _ _ hnew hold
  by_cases hq : findMatch hk2 (cellsA B.regions 0) = 0
  · unfold lookupA
    simp [hfm2, hq]
  · obtain ⟨c2, d2, hmem2, ho2, hh2, hdnz2, hblk2, hdlen2, hdl2, hkh2, hdo322⟩ :=
      found_cell_facts B hWB hk2 _ rfl hq
    have hqp : findMatch hk2 (cellsA B.regions 0) ≠ p := by
      intro he
      have hx := mem_unique_offset hsB hmemB (findMatch hk2 (cellsA B.regions 0), c2) hmem2 he
      have hc2c0 : c2 = c0 := congrArg Prod.snd hx
      rw [hc2c0] at hh2 ho2
      exact hc0 ⟨hh2, ho2⟩
    have hca : cellAt (cellsA B.regions 0) (findMatch hk2 (cellsA B.regions 0)) = some c2 :=
      cellAt_eq_of_mem _ _ _ hsB hmem2
    have hca2 : cellAt (cellsA A2.regions 0) (findMatch hk2 (cellsA B.regions 0)) = some c2 := by
      rw [hcell, cellAt_map_if_ne _ _ _ _ hqp]
      exact hca
    have hbaB : blkAt (blkA B.regions 0) c2.dataOffset = some d2 :=
      blkAt_eq_of_mem _ _ _
        (blkA_sorted B.iSize B.bSize B.regions 0 hWB.2.1 (WF_fields B hWB).2.2.2.2.1) hblk2
    have hba2 : blkAt (blkA A2.regions 0) c2.dataOffset = some d2 := by
      rcases hblk with ⟨hbeq, hoff, hoffnz⟩ | ⟨hbeq, hfresh⟩
      · rw [hbeq]
        have hoffne : c2.dataOffset ≠ off := by
          rw [hoff]
          exact WF_distinct_offsets B hWB _ p c2 c0 hmem2 hmemB hqp hdnz2 hoffnz
        rw [blkAt_map_if_ne _ _ _ _ hoffne]
        exact hbaB
      · rw [hbeq]
        exact blkAt_append_left _ _ _ _ hbaB
    unfold lookupA
    simp only [hfm2, if_neg hq, hca2, hca, hba2, hbaB]

theorem blkA_ne_render_len (A : Abs) (h : WF A) :
    ∀ pd ∈ blkA A.regions 0, pd.1 ≠ (render A).length := by
  intro pd hm
  have hb := blkA_bounds A.regions 0 pd hm
  have hbl : pd.2.length = A.bSize := blkA_len A.iSize A.bSize A.regions 0 pd hm h.2.1
  have hbpos := (WF_fields A h).2.2.2.2.1
  have hLsum : (render A).length = sumLens A.regions := renderGo_length _ _ _ _
  omega

theorem findMatch_growA_zero (H : List Nat → Nat) (A : Abs) (hk : Nat)
    (hz : findMatch hk (cellsA A.regions 0) = 0) :
    findMatch hk (cellsA (growA H A).regions 0) = 0 := by
  have hz2 : ∀ pc ∈ cellsA A.regions 0, ¬(pc.2.keyHash = hk ∧ pc.2.occupied = true) :=
    findMatch_zero_no_match hk _
      (fun pc hm => by have := cellsA_bounds A.regions 0 pc hm; omega) hz
  rw [cellsA_growA, findMatch_append_of_none hk _ _ hz2]
  refine findMatch_of_no_match hk _ ?_
  intro pc hm
  have := cellsOfSegA_replicate_mem _ _ _ pc hm
  simp [this]

theorem freeHash_update (H : List Nat → Nat) (B A2 : Abs) (p off vl hk : Nat)
    (hcell : cellsA A2.regions 0
      = (cellsA B.regions 0).map
          (fun pc => if pc.1 = p then (p, ⟨true, hk, off, vl⟩) else pc))
    (hB : ∀ pc ∈ cellsA B.regions 0, pc.2.occupied = false → pc.2.keyHash = H []) :
    freeHash H A2 := by
  intro pc hm hocc
  rw [hcell] at hm
  obtain ⟨pc0, hm0, hf⟩ := List.mem_map.1 hm
  by_cases hx : pc0.1 = p
  · rw [if_pos hx] at hf
    rw [← hf] at hocc
    simp at hocc
  · rw [if_neg hx] at hf
    rw [← hf] at hocc ⊢
    exact hB pc0 hm0 hocc

theorem freeHash_growA (H : List Nat → Nat) (A : Abs) (hA : freeHash H A) :
    freeHash H (growA H A) := by
  intro pc hm hocc
  rw [cellsA_growA] at hm
  rcases List.mem_append.1 hm with hm | hm
  · exact hA pc hm hocc
  · have := cellsOfSegA_replicate_mem _ _ _ pc hm
    rw [this]

theorem freeCount_ne_zero_of_free (A : Abs) (q : Nat) (c : CellT)
    (hmem : (q, c) ∈ cellsA A.regions 0) (hocc : c.occupied = false) :
    freeCount A ≠ 0 := by
  unfold freeCount
  intro h0
  have := List.countP_eq_zero.1 h0 (q, c) hmem
  simp [hocc] at this

theorem freeCount_zero_of_findFree_none (A : Abs)
    (hff : findFree (cellsA A.regions 0) = none) : freeCount A = 0 := by
  unfold freeCount
  refine List.countP_eq_zero.2 ?_
  intro pc hm
  have := (findFree_none _).1 hff pc hm
  simp [this]

theorem writeBlock_ok (H : List Nat → Nat) (A : Abs) (key value : List Nat) (hard : Bool)
    (h : WF A) (hHk : H key < 2 ^ 64) (hH0 : H [] < 2 ^ 64)
    (hv : value.length ≤ A.bSize)
    (hroom : (render A).length + (9 + 15 * nIdxOf A.iSize) + A.bSize < 2 ^ 32) :
    ∃ A', writeBlock H (toStore A) key value hard = .ok (toStore A') ∧ WF A' ∧
      A'.iSize = A.iSize ∧ A'.bSize = A.bSize ∧
      lookupA A' (H key) = some value ∧
      (∀ hk2, hk2 ≠ H key → lookupA A' hk2 = lookupA A hk2) ∧
      (freeHash H A → freeHash H A') ∧
      (render A').length ≤ (render A).length + ((9 + 15 * nIdxOf A.iSize) + A.bSize) ∧
      (findMatch (H key) (cellsA A.regions 0) ≠ 0 →
        (render A').length = (render A).length ∧
        segCount A'.regions = segCount A.regions ∧ freeCount A' = freeCount A) ∧
      (findMatch (H key) (cellsA A.regions 0) = 0 →
        (0 < freeCount A →
          segCount A'.regions = segCount A.regions ∧ freeCount A' + 1 = freeCount A) ∧
        (freeCount A = 0 →
          segCount A'.regions = segCount A.regions + 1 ∧ freeCount A' + 1 = nIdxOf A.iSize) ∧
        (∀ q c, findFree (cellsA A.regions 0) = some q → (q, c) ∈ cellsA A.regions 0 →
          c.dataOffset ≠ 0 → (render A').length = (render A).length)) := by
  by_cases hfm0 : findMatch (H key) (cellsA A.regions 0) = 0
  · cases hff : findFree (cellsA A.regions 0) with
    | some q =>
      obtain ⟨cfree, hmemf, hocc⟩ := findFree_mem _ q hff
      have hfcnz : freeCount A ≠ 0 := freeCount_ne_zero_of_free A q cfree hmemf hocc
      have hc0free : ¬(cfree.keyHash = H key ∧ cfree.occupied = true) := by
        intro hx
        rw [hocc] at hx
        exact Bool.noConfusion hx.2
      have hrf := requestFree_some H A h q hff
      by_cases hdo : cfree.dataOffset = 0
      · -- free cell never allocated: a fresh block is appended at end of file
        have hroomG : (render A).length + A.bSize < 2 ^ 32 := by omega
        obtain ⟨A', hwb, hWF', hiz, hbz, hcells, hblks, hlen, hseg⟩ :=
          writeBlock_fresh_alloc H A A key value hard h h hHk hv hfm0 q hrf rfl
            cfree hmemf hdo hroomG
        have hblkne := blkA_ne_render_len A h
        have hblkat : blkAt (blkA A'.regions 0) (render A).length
            = some (value ++ (List.replicate A.bSize 0).drop value.length) := by
          rw [hblks]
          exact blkAt_append_new _ _ _ hblkne
        have hhit := lookupA_update_hit A A' (H key) q (render A).length value
          ((List.replicate A.bSize 0).drop value.length) cfree hmemf (Or.inr hfm0)
          hcells hblkat
        refine ⟨A', hwb, hWF', hiz, hbz, hhit.1, ?_, ?_, by omega, ?_, ?_⟩
        · intro hk2 hne
          exact lookupA_update_other A A' (H key) hk2 q (render A).length value.length
            (value ++ (List.replicate A.bSize 0).drop value.length) cfree h hne hmemf
            (fun hx => by rw [hocc] at hx; exact Bool.noConfusion hx.2) hcells
            (Or.inr ⟨hblks, hblkne⟩)
        · intro hFH
          exact freeHash_update H A A' q (render A).length value.length (H key) hcells hFH
        · intro hne
          exact absurd hfm0 hne
        · intro _
          refine ⟨?_, ?_, ?_⟩
          · intro _
            refine ⟨hseg, ?_⟩
            have hc := countP_map_if (fun pc => pc.2.occupied == false)
              (cellsA A.regions 0) q cfree ⟨true, H key, (render A).length, value.length⟩
              (cellsA_sorted _ _) hmemf
            unfold freeCount
            rw [hcells]
            simp [hocc] at hc ⊢
            omega
          · intro h0
            exact absurd h0 hfcnz
          · intro q2 c2 hfq2 hmem2 hdnz2
            have hq2 : q2 = q := (Option.some.inj hfq2).symm
            subst hq2
            have := mem_unique_offset (cellsA_sorted A.regions 0) hmemf (q2, c2) hmem2 rfl
            have hc2 : c2 = cfree := congrArg Prod.snd this
            rw [hc2] at hdnz2
            exact absurd hdo hdnz2
      · -- free cell with a retained block region: reuse, no growth
        obtain ⟨A', d, hblk, hdlen, hwb, hWF', hiz, hbz, hcells, hblks, hlen, hseg⟩ :=
          writeBlock_fresh_reuse H A A key value hard h h hHk hv hfm0 q hrf rfl
            cfree hmemf hdo
        have hmemblk : (cfree.dataOffset, value ++ d.drop value.length)
            ∈ blkA A'.regions 0 := by
          rw [hblks]
          refine List.mem_map.2 ⟨(cfree.dataOffset, d), hblk, ?_⟩
          simp
        have hblkat : blkAt (blkA A'.regions 0) cfree.dataOffset
            = some (value ++ d.drop value.length) :=
          blkAt_eq_of_mem _ _ _
            (blkA_sorted A'.iSize A'.bSize A'.regions 0 hWF'.2.1
              (WF_fields A' hWF').2.2.2.2.1) hmemblk
        have hhit := lookupA_update_hit A A' (H key) q cfree.dataOffset value
          (d.drop value.length) cfree hmemf (Or.inr hfm0) hcells hblkat
        refine ⟨A', hwb, hWF', hiz, hbz, hhit.1, ?_, ?_, by omega, ?_, ?_⟩
        · intro hk2 hne
          exact lookupA_update_other A A' (H key) hk2 q cfree.dataOffset value.length
            (value ++ d.drop value.length) cfree h hne hmemf
            (fun hx => by rw [hocc] at hx; exact Bool.noConfusion hx.2) hcells
            (Or.inl ⟨hblks, rfl, hdo⟩)
        · intro hFH
          exact freeHash_update H A A' q cfree.dataOffset value.length (H key) hcells hFH
        · intro hne
          exact absurd hfm0 hne
        · intro _
          refine ⟨?_, ?_, ?_⟩
          · intro _
            refine ⟨hseg, ?_⟩
            have hc := countP_map_if (fun pc => pc.2.occupied == false)
              (cellsA A.regions 0) q cfree ⟨true, H key, cfree.dataOffset, value.length⟩
              (cellsA_sorted _ _) hmemf
            unfold freeCount
            rw [hcells]
            simp [hocc] at hc ⊢
            omega
          · intro h0
            exact absurd h0 hfcnz
          · intro q2 c2 hfq2 hmem2 hdnz2
            exact hlen
    | none =>
      have hfc0 : freeCount A = 0 := freeCount_zero_of_findFree_none A hff
      have hroomG1 : (render A).length + (9 + 15 * nIdxOf A.iSize) < 2 ^ 32 := by omega
      have hrf := requestFree_grow H A h hH0 hroomG1 hff
      have hWFG : WF (growA H A) := WF_growA H A h hH0 hroomG1
      have hlenG : (render (growA H A)).length
          = (render A).length + (9 + 15 * nIdxOf A.iSize) := render_growA_length H A
      have hsegG : segCount (growA H A).regions = segCount A.regions + 1 := segCount_growA H A
      have hmemf : (sumLens A.regions + 9, (⟨false, H [], 0, 0⟩ : CellT))
          ∈ cellsA (growA H A).regions 0 := by
        rw [cellsA_growA]
        refine List.mem_append.2 (Or.inr ?_)
        exact cellsOfSegA_replicate_head _ _ _ (nIdx_pos A h)
      have hroomG2 : (render (growA H A)).length + (growA H A).bSize < 2 ^ 32 := by
        rw [hlenG]
        show _ + A.bSize < _
        omega
      obtain ⟨A', hwb, hWF', hiz, hbz, hcells, hblks, hlen, hseg⟩ :=
        writeBlock_fresh_alloc H A (growA H A) key value hard h hWFG hHk hv hfm0
          (sumLens A.regions + 9) hrf rfl _ hmemf rfl hroomG2
      have hfmG : findMatch (H key) (cellsA (growA H A).regions 0) = 0 :=
        findMatch_growA_zero H A (H key) hfm0
      have hblkne := blkA_ne_render_len (growA H A) hWFG
      have hblkat : blkAt (blkA A'.regions 0) (render (growA H A)).length
          = some (value ++ (List.replicate (growA H A).bSize 0).drop value.length) := by
        rw [hblks]
        exact blkAt_append_new _ _ _ hblkne
      have hhit := lookupA_update_hit (growA H A) A' (H key) (sumLens A.regions + 9)
        (render (growA H A)).length value
        ((List.replicate (growA H A).bSize 0).drop value.length)
        ⟨false, H [], 0, 0⟩ hmemf (Or.inr hfmG) hcells hblkat
      refine ⟨A', hwb, hWF', hiz, hbz, hhit.1, ?_, ?_, ?_, ?_, ?_⟩
      · intro hk2 hne
        have h1 : lookupA A' hk2 = lookupA (growA H A) hk2 :=
          lookupA_update_other (growA H A) A' (H key) hk2 (sumLens A.regions + 9)
            (render (growA H A)).length value.length
            (value ++ (List.replicate (growA H A).bSize 0).drop value.length)
            ⟨false, H [], 0, 0⟩ hWFG hne hmemf
            (fun hx => Bool.noConfusion hx.2) hcells (Or.inr ⟨hblks, hblkne⟩)
        rw [h1]
        exact lookupA_growA H A h hk2
      · intro hFH
        exact freeHash_update H (growA H A) A' (sumLens A.regions + 9)
          (render (growA H A)).length value.length (H key) hcells
          (freeHash_growA H A hFH)
      · rw [hlen, hlenG]
        show _ + A.bSize ≤ _
        omega
      · intro hne
        exact absurd hfm0 hne
      · intro _
        refine ⟨?_, ?_, ?_⟩
        · intro h0
          omega
        · intro _
          refine ⟨by rw [hseg, hsegG], ?_⟩
          have hcfree : (cellsA (growA H A).regions 0).countP
              (fun pc => pc.2.occupied == false) = nIdxOf A.iSize := by
            rw [cellsA_growA, List.countP_append]
            have h1 : (cellsA A.regions 0).countP (fun pc => pc.2.occupied == false) = 0 := hfc0
            rw [h1, countP_free_replicate _ _ _ rfl]
            omega
          have hc := countP_map_if (fun pc => pc.2.occupied == false)
            (cellsA (growA H A).regions 0) (sumLens A.regions + 9)
            ⟨false, H [], 0, 0⟩
            ⟨true, H key, (render (growA H A)).length, value.length⟩
            (cellsA_sorted _ _) hmemf
          unfold freeCount
          rw [hcells]
          simp at hc hcfree ⊢
          omega
        · intro q2 c2 hfq2 hmem2 hdnz2
          exact Option.noConfusion hfq2
  · -- the key's hash is already present: in-place update
    obtain ⟨A', c, d, hmem, ho, hh, hblk, hdlen, hwb, hWF', hiz, hbz, hcells, hblks,
      hlen, hseg⟩ :=
      writeBlock_existing H A key value hard h hHk hv _ rfl hfm0
    have hdnz : c.dataOffset ≠ 0 := by
      have := blkA_lb_seg A.regions 0 h.1 (c.dataOffset, d) hblk
      simp only at this
      omega
    have hmemblk : (c.dataOffset, value ++ d.drop value.length) ∈ blkA A'.regions 0 := by
      rw [hblks]
      refine List.mem_map.2 ⟨(c.dataOffset, d), hblk, ?_⟩
      simp
    have hblkat : blkAt (blkA A'.regions 0) c.dataOffset
        = some (value ++ d.drop value.length) :=
      blkAt_eq_of_mem _ _ _
        (blkA_sorted A'.iSize A'.bSize A'.regions 0 hWF'.2.1
          (WF_fields A' hWF').2.2.2.2.1) hmemblk
    have hhit := lookupA_update_hit A A' (H key) _ c.dataOffset value
      (d.drop value.length) c hmem (Or.inl rfl) hcells hblkat
    refine ⟨A', hwb, hWF', hiz, hbz, hhit.1, ?_, ?_, by omega, ?_, ?_⟩
    · intro hk2 hne
      refine lookupA_update_other A A' (H key) hk2 _ c.dataOffset value.length
        (value ++ d.drop value.length) c h hne hmem ?_ hcells (Or.inl ⟨hblks, rfl, hdnz⟩)
      intro hx
      rw [hh] at hx
      exact hne hx.1.symm
    · intro hFH
      exact freeHash_update H A A' _ c.dataOffset value.length (H key) hcells hFH
    · intro _
      refine ⟨hlen, hseg, ?_⟩
      have hc := countP_map_if (fun pc => pc.2.occupied == false)
        (cellsA A.regions 0) _ c ⟨true, H key, c.dataOffset, value.length⟩
        (cellsA_sorted _ _) hmem
      unfold freeCount
      rw [hcells]
      simp [ho] at hc ⊢
      omega
    · intro h0
      exact absurd h0 hfm0

theorem neededGrowth_succ_pos (m f n : Nat) :
    neededGrowth (m + 1) (f + 1) n = neededGrowth m f n := by
  unfold neededGrowth
  by_cases hmf : m ≤ f
  · rw [if_pos (by omega), if_pos hmf]
  · rw [if_neg (by omega), if_neg hmf]
    have he : m + 1 - (f + 1) = m - f := by omega
    rw [he]

theorem neededGrowth_succ_zero (m n : Nat) (hn : 0 < n) :
    neededGrowth (m + 1) 0 n = 1 + neededGrowth m (n - 1) n := by
  unfold neededGrowth
  rw [if_neg (by omega)]
  by_cases hm : m ≤ n - 1
  · rw [if_pos hm]
    unfold ceilDiv
    have h1 : m + 1 - 0 + n - 1 = m + n := by omega
    rw [h1]
    have h2 : (m + n) / n = 1 := by
      refine Nat.div_eq_of_lt_le (by omega) ?_
      have : (1 + 1) * n = n + n := by ring
      omega
    omega
  · rw [if_neg hm]
    unfold ceilDiv
    have h1 : m + 1 - 0 + n - 1 = m + n := by omega
    have h2 : m - (n - 1) + n - 1 = m := by omega
    rw [h1, h2, Nat.add_div_right _ hn]
    omega

theorem writeMany_ok (H : List Nat → Nat) (kvs : List (List Nat × List Nat)) :
    ∀ (A : Abs), WF A → H [] < 2 ^ 64 →
    (∀ kv ∈ kvs, kv.2.length ≤ A.bSize ∧ H kv.1 < 2 ^ 64) →
    (∀ kv ∈ kvs, lookupA A (H kv.1) = none) →
    kvs.Pairwise (fun a b => H a.1 ≠ H b.1) →
    (render A).length + kvs.length * (9 + 15 * nIdxOf A.iSize + A.bSize) < 2 ^ 32 →
    ∃ A', writeMany H (toStore A) kvs = .ok (toStore A') ∧ WF A' ∧
      A'.iSize = A.iSize ∧ A'.bSize = A.bSize ∧
      segCount A'.regions = segCount A.regions
        + neededGrowth kvs.length (freeCount A) (nIdxOf A.iSize) ∧
      (∀ kv ∈ kvs, lookupA A' (H kv.1) = some kv.2) ∧
      (∀ hk2, (∀ kv ∈ kvs, hk2 ≠ H kv.1) → lookupA A' hk2 = lookupA A hk2) ∧
      (render A').length
        ≤ (render A).length + kvs.length * (9 + 15 * nIdxOf A.iSize + A.bSize) := by
  induction kvs with
  | nil =>
    intro A h hH0 hkv hfresh hdist hroom
    exact ⟨A, rfl, h, rfl, rfl, by simp [neededGrowth], by simp,
      fun hk2 _ => rfl, by simp⟩
  | cons kv rest ih =>
    intro A h hH0 hkv hfresh hdist hroom
    obtain ⟨hv1, hk1⟩ := hkv kv (by simp)
    have hmul : (rest.length + 1) * (9 + 15 * nIdxOf A.iSize + A.bSize)
        = rest.length * (9 + 15 * nIdxOf A.iSize + A.bSize)
          + (9 + 15 * nIdxOf A.iSize + A.bSize) := by
      rw [Nat.succ_mul]
    have hroomL : (render A).length
        + (rest.length * (9 + 15 * nIdxOf A.iSize + A.bSize)
          + (9 + 15 * nIdxOf A.iSize + A.bSize)) < 2 ^ 32 := by
      have := hroom
      simp only [List.length_cons] at this
      rw [hmul] at this
      omega
    have hroom1 : (render A).length + (9 + 15 * nIdxOf A.iSize) + A.bSize < 2 ^ 32 := by
      omega
    obtain ⟨A1, hwb, hWF1, hiz1, hbz1, hlk1, hpres1, hfh1, hlenb1, hne1, heq1⟩ :=
      writeBlock_ok H A kv.1 kv.2 false h hk1 hH0 hv1 hroom1
    have hfm0 : findMatch (H kv.1) (cellsA A.regions 0) = 0 :=
      lookupA_none_findMatch A h _ (hfresh kv (by simp))
    obtain ⟨hcase_pos, hcase_zero, _⟩ := heq1 hfm0
    have hdist1 := List.pairwise_cons.1 hdist
    have hkv' : ∀ kv2 ∈ rest, kv2.2.length ≤ A1.bSize ∧ H kv2.1 < 2 ^ 64 := by
      intro kv2 hm
      have := hkv kv2 (by simp [hm])
      rw [hbz1]
      exact this
    have hfresh' : ∀ kv2 ∈ rest, lookupA A1 (H kv2.1) = none := by
      intro kv2 hm
      rw [hpres1 (H kv2.1) (hdist1.1 kv2 hm).symm]
      exact hfresh kv2 (by simp [hm])
    have hroom' : (render A1).length
        + rest.length * (9 + 15 * nIdxOf A1.iSize + A1.bSize) < 2 ^ 32 := by
      rw [hiz1, hbz1]
      omega
    obtain ⟨A2, hwm, hWF2, hiz2, hbz2, hseg2, hlk2, hpres2, hlenb2⟩ :=
      ih A1 hWF1 hH0 hkv' hfresh' hdist1.2 hroom'
    refine ⟨A2, ?_, hWF2, hiz2.trans hiz1, hbz2.trans hbz1, ?_, ?_, ?_, ?_⟩
    · show writeMany H (toStore A) (kv :: rest) = .ok (toStore A2)
      simp only [writeMany, hwb]
      exact hwm
    · simp only [List.length_cons]
      rw [hseg2, hiz1]
      by_cases hf0 : freeCount A = 0
      · obtain ⟨hsg, hfc⟩ := hcase_zero hf0
        rw [hsg, hf0, neededGrowth_succ_zero rest.length (nIdxOf A.iSize) (nIdx_pos A h)]
        have hfc2 : freeCount A1 = nIdxOf A.iSize - 1 := by omega
        rw [hfc2]
        omega
      · obtain ⟨hsg, hfc⟩ := hcase_pos (Nat.pos_of_ne_zero hf0)
        rw [hsg]
        obtain ⟨f, hf⟩ : ∃ f, freeCount A = f + 1 := ⟨freeCount A - 1, by omega⟩
        rw [hf]
        have hfc2 : freeCount A1 = f := by omega
        rw [hfc2, neededGrowth_succ_pos]
    · intro kv2 hm
      rcases List.mem_cons.1 hm with he | hm2
      · rw [he]
        rw [hpres2 (H kv.1) (fun kv3 hm3 => hdist1.1 kv3 hm3)]
        exact hlk1
      · exact hlk2 kv2 hm2
    · intro hk2 hall
      rw [hpres2 hk2 (fun kv2 hm2 => hall kv2 (by simp [hm2]))]
      exact hpres1 hk2 (hall kv (by simp))
    · simp only [List.length_cons]
      rw [hmul]
      rw [hiz1, hbz1] at hlenb2
      omega

theorem readBlocksGo_ok (ctx : Ctx) (key : List Nat) (A : Abs) (h : WF A) :
    ∀ (count first : Nat),
    (∀ i, first ≤ i → i < first + count →
      ∃ v, lookupA A (ctx.H (constructNodeBlockKey ctx key i)) = some v
        ∧ v.length = A.bSize) →
    ∃ out, Handle.readBlocksGo ctx key (toStore A) first count = .ok (out, toStore A) ∧
      out.length = count * A.bSize := by
  intro count
  induction count with
  | zero => exact fun first _ => ⟨[], rfl, by simp⟩
  | succ n ihc =>
    intro first hblocks
    obtain ⟨v, hv, hvl⟩ := hblocks first (Nat.le_refl _) (by omega)
    have hrb := readBlock_some ctx.H A _ v h hv
    obtain ⟨out, hrest, hol⟩ := ihc (first + 1) (fun i h1 h2 => hblocks i (by omega) (by omega))
    refine ⟨v ++ out, ?_, ?_⟩
    · simp only [Handle.readBlocksGo, hrb, hrest]
    · simp only [List.length_append, hvl, hol]
      ring

theorem ceilDiv_mul_ge (x b : Nat) (hb : 0 < b) : x ≤ ceilDiv x b * b := by
  unfold ceilDiv
  have h1 := Nat.div_add_mod (x + b - 1) b
  have h2 : (x + b - 1) % b < b := Nat.mod_lt _ hb
  have h3 : (x + b - 1) / b * b = b * ((x + b - 1) / b) := Nat.mul_comm _ _
  omega

/-- C2 (corrected): `read(size)` is served by `readBlock` on every
derived block key touching the range, so it raises `BlockNotFound` as
soon as the range covers an unallocated block (see the closed
counterexample on a fresh node) — it does not return zero padding past
the node's logical length.  What does hold: whenever every derived
block covering `[position, position+size)` is allocated (each holding a
full `block_size` bytes), `read(size)` succeeds, returns exactly `size`
bytes — never a short read — and advances the cursor by `size`. -/
theorem read_within_span (ctx : Ctx) (A : Abs) (key : List Nat) (pos size : Nat)
    (h : WF A)
    (hblocks : ∀ i, pos / A.bSize ≤ i → i < ceilDiv (pos + size) A.bSize →
      ∃ v, lookupA A (ctx.H (constructNodeBlockKey ctx key i)) = some v
        ∧ v.length = A.bSize) :
    ∃ out, Handle.read ctx ⟨toStore A, key, pos⟩ (some size)
        = .ok (out, ⟨toStore A, key, pos + size⟩) ∧ out.length = size := by
  have hbp : 0 < A.bSize := (WF_fields A h).2.2.2.2.1
  have hsb_le : pos / A.bSize ≤ ceilDiv (pos + size) A.bSize := by
    have h1 : pos / A.bSize ≤ (pos + size) / A.bSize :=
      Nat.div_le_div_right (by omega)
    have h2 : (pos + size) / A.bSize ≤ ceilDiv (pos + size) A.bSize := by
      unfold ceilDiv
      exact Nat.div_le_div_right (by omega)
    omega
  obtain ⟨out0, hgo, hol⟩ := readBlocksGo_ok ctx key A h
    (ceilDiv (pos + size) A.bSize - pos / A.bSize) (pos / A.bSize)
    (fun i h1 h2 => hblocks i h1 (by omega))
  have hceil : pos + size ≤ ceilDiv (pos + size) A.bSize * A.bSize :=
    ceilDiv_mul_ge (pos + size) A.bSize hbp
  have hsbmul : pos / A.bSize * A.bSize ≤ pos := Nat.div_mul_le_self pos A.bSize
  have hsubmul : (ceilDiv (pos + size) A.bSize - pos / A.bSize) * A.bSize
      = ceilDiv (pos + size) A.bSize * A.bSize - pos / A.bSize * A.bSize :=
    Nat.sub_mul _ _ _
  have hrr : Handle.readrange ctx ⟨toStore A, key, pos⟩ pos (pos + size) true
      = .ok ((out0.drop (pos - pos / A.bSize * A.bSize)).take size,
             ⟨toStore A, key, pos⟩) := by
    unfold Handle.readrange
    simp only [toStore] at hgo ⊢
    rw [hgo]
    have he : pos + size - pos = size := by omega
    simp [he]
  refine ⟨(out0.drop (pos - pos / A.bSize * A.bSize)).take size, ?_, ?_⟩
  · simp only [Handle.read, hrr]
  · simp only [List.length_take, List.length_drop, hol]
    omega

theorem lookupA_some_ne_zero (A : Abs) (hk : Nat) (v : List Nat)
    (h : lookupA A hk = some v) : findMatch hk (cellsA A.regions 0) ≠ 0 := by
  intro h0
  unfold lookupA at h
  simp [h0] at h

theorem allocBlocksGo_spec (ctx : Ctx) (key : List Nat) :
    ∀ (count : Nat) (idx : Nat) (A : Abs), WF A → ctx.H [] < 2 ^ 64 →
    (∀ i, idx ≤ i → i < idx + count → ctx.H (constructNodeBlockKey ctx key i) < 2 ^ 64) →
    (∀ i j, idx ≤ i → i < j → j < idx + count →
      ctx.H (constructNodeBlockKey ctx key i) ≠ ctx.H (constructNodeBlockKey ctx key j)) →
    (render A).length + count * (9 + 15 * nIdxOf A.iSize + A.bSize) < 2 ^ 32 →
    ∃ A', Handle.allocBlocksGo ctx key (toStore A) idx count = .ok (toStore A') ∧ WF A' ∧
      A'.iSize = A.iSize ∧ A'.bSize = A.bSize ∧
      (∀ i, idx ≤ i → i < idx + count →
        (lookupA A (ctx.H (constructNodeBlockKey ctx key i)) = none →
          lookupA A' (ctx.H (constructNodeBlockKey ctx key i))
            = some (List.replicate A.bSize 0)) ∧
        (∀ v, lookupA A (ctx.H (constructNodeBlockKey ctx key i)) = some v →
          lookupA A' (ctx.H (constructNodeBlockKey ctx key i)) = some v)) ∧
      (∀ hk2,
        (∀ i, idx ≤ i → i < idx + count → hk2 ≠ ctx.H (constructNodeBlockKey ctx key i)) →
        lookupA A' hk2 = lookupA A hk2) ∧
      (render A').length ≤ (render A).length
        + count * (9 + 15 * nIdxOf A.iSize + A.bSize) := by
  intro count
  induction count with
  | zero =>
    intro idx A h hH0 hhk hdist hroom
    exact ⟨A, rfl, h, rfl, rfl, fun i h1 h2 => by omega, fun hk2 _ => rfl, by simp⟩
  | succ n ihc =>
    intro idx A h hH0 hhk hdist hroom
    have hmul : (n + 1) * (9 + 15 * nIdxOf A.iSize + A.bSize)
        = n * (9 + 15 * nIdxOf A.iSize + A.bSize) + (9 + 15 * nIdxOf A.iSize + A.bSize) := by
      rw [Nat.succ_mul]
    have hroom1 : (render A).length + (9 + 15 * nIdxOf A.iSize) + A.bSize < 2 ^ 32 := by
      omega
    by_cases hfm : findMatch (ctx.H (constructNodeBlockKey ctx key idx))
        (cellsA A.regions 0) = 0
    · -- this derived key is absent: a zero-filled block is written for it
      obtain ⟨A1, hwb, hWF1, hiz1, hbz1, hlk1, hpres1, hfh1, hlenb1, hne1, heq1⟩ :=
        writeBlock_ok ctx.H A (constructNodeBlockKey ctx key idx)
          (List.replicate A.bSize 0) false h (hhk idx (by omega) (by omega)) hH0
          (by simp) hroom1
      obtain ⟨A', hgo, hWF', hiz', hbz', hup, hoth, hlen'⟩ :=
        ihc (idx + 1) A1 hWF1 hH0
          (fun i h1 h2 => hhk i (by omega) (by omega))
          (fun i j h1 h2 h3 => hdist i j (by omega) h2 (by omega))
          (by rw [hiz1, hbz1]; omega)
      refine ⟨A', ?_, hWF', hiz'.trans hiz1, hbz'.trans hbz1, ?_, ?_, ?_⟩
      · simp only [Handle.allocBlocksGo]
        rw [keyExists_spec ctx.H A h, hfm]
        rw [if_pos (show ((toStore A, (0 : Nat)).2 = 0) from rfl)]
        have hwb3 : writeBlock ctx.H ((toStore A, (0 : Nat))).1
            (constructNodeBlockKey ctx key idx)
            (List.replicate ((toStore A, (0 : Nat))).1.blockSize 0) false
            = Except.ok (toStore A1) := hwb
        rw [hwb3]
        exact hgo
      · intro i h1 h2
        by_cases hi : i = idx
        · subst hi
          constructor
          · intro _
            have hoth2 := hoth (ctx.H (constructNodeBlockKey ctx key i))
              (fun j hj1 hj2 => hdist i j (by omega) (by omega) (by omega))
            rw [hoth2]
            exact hlk1
          · intro v hv
            exact absurd hfm (lookupA_some_ne_zero A _ v hv)
        · have hlkpre : lookupA A1 (ctx.H (constructNodeBlockKey ctx key i))
              = lookupA A (ctx.H (constructNodeBlockKey ctx key i)) :=
            hpres1 _ (hdist idx i (by omega) (by omega) (by omega)).symm
          have := hup i (by omega) (by omega)
          constructor
          · intro hnone
            rw [← hbz1]
            exact this.1 (by rw [hlkpre]; exact hnone)
          · intro v hv
            exact this.2 v (by rw [hlkpre]; exact hv)
      · intro hk2 hall
        rw [hoth hk2 (fun i h1 h2 => hall i (by omega) (by omega))]
        exact hpres1 hk2 (hall idx (by omega) (by omega))
      · rw [hiz1, hbz1] at hlen'
        omega
    · -- the derived key already exists: the loop leaves the store untouched
      obtain ⟨A', hgo, hWF', hiz', hbz', hup, hoth, hlen'⟩ :=
        ihc (idx + 1) A h hH0
          (fun i h1 h2 => hhk i (by omega) (by omega))
          (fun i j h1 h2 h3 => hdist i j (by omega) h2 (by omega))
          (by omega)
      refine ⟨A', ?_, hWF', hiz', hbz', ?_, ?_, by omega⟩
      · simp only [Handle.allocBlocksGo]
        rw [keyExists_spec ctx.H A h]
        rw [if_neg (show ¬((toStore A,
            findMatch (ctx.H (constructNodeBlockKey ctx key idx))
              (cellsA A.regions 0)).2 = 0) from hfm)]
        exact hgo
      · intro i h1 h2
        by_cases hi : i = idx
        · subst hi
          constructor
          · intro hnone
            exact absurd (lookupA_none_findMatch A h _ hnone) hfm
          · intro v hv
            rw [hoth (ctx.H (constructNodeBlockKey ctx key i))
              (fun j hj1 hj2 => hdist i j (by omega) (by omega) (by omega))]
            exact hv
        · exact hup i (by omega) (by omega)
      · intro hk2 hall
        exact hoth hk2 (fun i h1 h2 => hall i (by omega) (by omega))

/-- C3 (corrected): a growing `truncate(size)` zero-fills only the
derived blocks whose keys were *absent* (`keyExists` guards each
allocation), so bytes of the range `[L, size)` that fall into blocks
already allocated keep their previous contents rather than reading as
zeros (see the closed counterexample, where a shrink followed by a
regrow exposes old payload bytes).  What does hold, stated here for a
growing truncate: every absent derived block below the new block count
is written as `block_size` zero bytes, every present one is left
untouched, every other key's visible value is untouched, and `length()`
returns the new size immediately afterwards. -/
theorem truncate_grow_spec (ctx : Ctx) (A : Abs) (key : List Nat) (pos size : Nat)
    (props : NodeProps) (h : WF A)
    (hH0 : ctx.H [] < 2 ^ 64) (hhk : ctx.H key < 2 ^ 64)
    (hmeta : lookupA A (ctx.H key) = some (ctx.enc props))
    (hdec : ctx.dec (ctx.enc props) = props)
    (hdec2 : ctx.dec (ctx.enc { props with size := size, blocks := ceilDiv size A.bSize })
      = { props with size := size, blocks := ceilDiv size A.bSize })
    (henc2 : (ctx.enc { props with size := size, blocks := ceilDiv size A.bSize }).length
      ≤ A.bSize)
    (hgrow : ceilDiv props.size A.bSize < ceilDiv size A.bSize)
    (hbk : ∀ i, i < ceilDiv size A.bSize →
      ctx.H (constructNodeBlockKey ctx key i) < 2 ^ 64)
    (hbkdist : ∀ i j, i < j → j < ceilDiv size A.bSize →
      ctx.H (constructNodeBlockKey ctx key i) ≠ ctx.H (constructNodeBlockKey ctx key j))
    (hbkkey : ∀ i, i < ceilDiv size A.bSize →
      ctx.H (constructNodeBlockKey ctx key i) ≠ ctx.H key)
    (hroom : (render A).length
      + (ceilDiv size A.bSize + 1) * (9 + 15 * nIdxOf A.iSize + A.bSize) < 2 ^ 32) :
    ∃ A', Handle.truncate ctx ⟨toStore A, key, pos⟩ (some size)
        = .ok ⟨toStore A', key, pos⟩ ∧
      WF A' ∧
      Handle.length ctx ⟨toStore A', key, pos⟩ = .ok (size, ⟨toStore A', key, pos⟩) ∧
      (∀ i, i < ceilDiv size A.bSize →
        (lookupA A (ctx.H (constructNodeBlockKey ctx key i)) = none →
          lookupA A' (ctx.H (constructNodeBlockKey ctx key i))
            = some (List.replicate A.bSize 0)) ∧
        (∀ v, lookupA A (ctx.H (constructNodeBlockKey ctx key i)) = some v →
          lookupA A' (ctx.H (constructNodeBlockKey ctx key i)) = some v)) ∧
      (∀ hk2, hk2 ≠ ctx.H key →
        (∀ i, i < ceilDiv size A.bSize → hk2 ≠ ctx.H (constructNodeBlockKey ctx key i)) →
        lookupA A' hk2 = lookupA A hk2) := by
  have hbp : 0 < A.bSize := (WF_fields A h).2.2.2.2.1
  have hmulX : (ceilDiv size A.bSize + 1) * (9 + 15 * nIdxOf A.iSize + A.bSize)
      = ceilDiv size A.bSize * (9 + 15 * nIdxOf A.iSize + A.bSize)
        + (9 + 15 * nIdxOf A.iSize + A.bSize) := Nat.succ_mul _ _
  obtain ⟨A1, hgo, hWF1, hiz1, hbz1, hup, hoth, hlen1⟩ :=
    allocBlocksGo_spec ctx key (ceilDiv size A.bSize) 0 A h hH0
      (fun i h1 h2 => hbk i (by omega))
      (fun i j h1 h2 h3 => hbkdist i j h2 (by omega))
      (by omega)
  have hmetaA1 : lookupA A1 (ctx.H key) = some (ctx.enc props) := by
    rw [hoth (ctx.H key) (fun i h1 h2 => (hbkkey i (by omega)).symm)]
    exact hmeta
  have hroomA1 : (render A1).length + (9 + 15 * nIdxOf A1.iSize) + A1.bSize < 2 ^ 32 := by
    rw [hiz1, hbz1]
    omega
  obtain ⟨A2, hwb, hWF2, hiz2, hbz2, hlk2, hpres2, hfh2, hlenb2, hne2, heq2⟩ :=
    writeBlock_ok ctx.H A1 key
      (ctx.enc { props with size := size, blocks := ceilDiv size A.bSize })
      false hWF1 hhk hH0 (by rw [hbz1]; exact henc2) hroomA1
  have hlen0 : Handle.length ctx ⟨toStore A, key, pos⟩
      = .ok (props.size, ⟨toStore A, key, pos⟩) := by
    simp only [Handle.length, getNodeProperties]
    rw [readBlock_some ctx.H A key _ h hmeta]
    simp only [hdec]
  have hget1 : getNodeProperties ctx (toStore A1) key = .ok (props, toStore A1) := by
    simp only [getNodeProperties]
    rw [readBlock_some ctx.H A1 key _ hWF1 hmetaA1]
    simp only [hdec]
  have hset1 : setNodeProperties ctx (toStore A1) key
      { props with size := size, blocks := ceilDiv size A.bSize } = .ok (toStore A2) := by
    simp only [setNodeProperties]
    exact hwb
  refine ⟨A2, ?_, hWF2, ?_, ?_, ?_⟩
  · have hgo2 : Handle.allocBlocksGo ctx key (toStore A) 0
        (ceilDiv size (toStore A).blockSize) = Except.ok (toStore A1) := hgo
    have hset2 : setNodeProperties ctx (toStore A1) key
        { props with size := size, blocks := ceilDiv size (toStore A).blockSize }
        = .ok (toStore A2) := hset1
    simp only [Handle.truncate, hlen0, Option.getD]
    rw [if_pos (show ceilDiv props.size (toStore A).blockSize
        < ceilDiv size (toStore A).blockSize from hgrow)]
    simp only [hgo2, hget1, hset2]
  · simp only [Handle.length, getNodeProperties]
    rw [readBlock_some ctx.H A2 key _ hWF2 hlk2]
    simp only [hdec2]
  · intro i hi
    have hu := hup i (by omega) (by omega)
    constructor
    · intro hnone
      rw [hpres2 _ (hbkkey i hi)]
      exact hu.1 hnone
    · intro v hv
      rw [hpres2 _ (hbkkey i hi)]
      exact hu.2 v hv
  · intro hk2 hne hall
    rw [hpres2 hk2 hne]
    exact hoth hk2 (fun i h1 h2 => hall i (by omega))

theorem findFree_first_alloc (l : List (Nat × CellT))
    (hpw : List.Pairwise (fun a b : Nat × CellT =>
      a.2.dataOffset = 0 → b.2.dataOffset = 0) l) :
    ∀ (p : Nat) (c : CellT), (p, c) ∈ l → c.occupied = false → c.dataOffset ≠ 0 →
    ∃ q c2, findFree l = some q ∧ (q, c2) ∈ l ∧ c2.occupied = false
      ∧ c2.dataOffset ≠ 0 := by
  induction l with
  | nil => intro p c hmem; simp at hmem
  | cons x rest ih =>
    intro p c hmem hocc hdnz
    rw [List.pairwise_cons] at hpw
    by_cases hx : x.2.occupied = false
    · refine ⟨x.1, x.2, by simp [findFree, hx], by simp, hx, ?_⟩
      rcases List.mem_cons.1 hmem with he | hr
      · rw [← he]
        exact hdnz
      · intro h0
        exact hdnz (hpw.1 (p, c) hr h0)
    · have hr : (p, c) ∈ rest := by
        rcases List.mem_cons.1 hmem with he | hr
        · exfalso
          rw [← he] at hx
          exact hx hocc
        · exact hr
      obtain ⟨q, c2, hfq, hm2, ho2, hd2⟩ := ih hpw.2 p c hr hocc hdnz
      refine ⟨q, c2, ?_, by simp [hm2], ho2, hd2⟩
      simp [findFree, hx, hfq]

theorem allocPrefix_map_same_offset (B A2 : Abs) (p : Nat) (cNew c0 : CellT)
    (hcell : cellsA A2.regions 0
      = (cellsA B.regions 0).map (fun pc => if pc.1 = p then (p, cNew) else pc))
    (hoff : cNew.dataOffset = c0.dataOffset)
    (hmem : (p, c0) ∈ cellsA B.regions 0)
    (hap : allocPrefix B) : allocPrefix A2 := by
  have hu := mem_unique_offset (cellsA_sorted B.regions 0) hmem
  unfold allocPrefix at hap ⊢
  rw [hcell, List.pairwise_map]
  refine hap.imp_of_mem ?_
  intro a b ha hb hab
  have ea : (if a.1 = p then (p, cNew) else a).2.dataOffset = a.2.dataOffset := by
    by_cases hxa : a.1 = p
    · rw [if_pos hxa, hu a ha hxa]
      exact hoff
    · rw [if_neg hxa]
  have eb : (if b.1 = p then (p, cNew) else b).2.dataOffset = b.2.dataOffset := by
    by_cases hxb : b.1 = p
    · rw [if_pos hxb, hu b hb hxb]
      exact hoff
    · rw [if_neg hxb]
  intro h0
  rw [eb]
  rw [ea] at h0
  exact hab h0

theorem discardBlock_absent (H : List Nat → Nat) (A : Abs) (key : List Nat) (h : WF A)
    (hz : findMatch (H key) (cellsA A.regions 0) = 0) :
    discardBlock H (toStore A) key = .error (.BlockNotFound, toStore A) := by
  unfold discardBlock
  rw [keyExists_spec H A h key]
  simp [hz]

/-- C1: for every well-formed store, key and value with
`len(value) ≤ block_size` (hashes in 64-bit range and room left in the
32-bit offset space), `writeBlock` succeeds and a subsequent `readBlock`
of the same key returns exactly the written value.  No
hash-distinctness assumption is needed: the proof covers stores with
arbitrary existing cells. -/
theorem writeValue_readValue_roundtrip (H : List Nat → Nat) (A : Abs)
    (key value : List Nat) (hard : Bool)
    (h : WF A) (hHk : H key < 2 ^ 64) (hH0 : H [] < 2 ^ 64)
    (hv : value.length ≤ A.bSize)
    (hroom : (render A).length + (9 + 15 * nIdxOf A.iSize) + A.bSize < 2 ^ 32) :
    ∃ A', writeBlock H (toStore A) key value hard = .ok (toStore A') ∧
      readBlock H (toStore A') key = .ok (value, toStore A') := by
  obtain ⟨A', hwb, hWF', _, _, hlk, _⟩ :=
    writeBlock_ok H A key value hard h hHk hH0 hv hroom
  exact ⟨A', hwb, readBlock_some H A' key value hWF' hlk⟩

/-- C4: a `writeBlock` whose value exceeds the block size raises
`WriteAboveBlockSize` before touching the file: the store carried by the
exception is exactly the input store, so no cell or block was written.
This holds for every store, not only well-formed ones. -/
theorem oversized_write_rejected (H : List Nat → Nat) (s : Store)
    (key value : List Nat) (hard : Bool) (hv : value.length > s.blockSize) :
    writeBlock H s key value hard = .error (.WriteAboveBlockSize, s) := by
  unfold writeBlock
  rw [if_pos hv]

/-- C6: when the key's hash matches exactly one occupied cell,
`discardBlock` succeeds, and afterwards both `readBlock` and a second
`discardBlock` of the same key raise `BlockNotFound`. -/
theorem discard_removes_visibility (H : List Nat → Nat) (A : Abs) (key : List Nat)
    (p : Nat) (c : CellT) (h : WF A) (hH0 : H [] < 2 ^ 64)
    (hfm : findMatch (H key) (cellsA A.regions 0) = p) (hp : p ≠ 0)
    (hmem : (p, c) ∈ cellsA A.regions 0)
    (hone : ∀ pc ∈ cellsA A.regions 0,
      pc.2.keyHash = H key ∧ pc.2.occupied = true → pc.1 = p) :
    ∃ A1, discardBlock H (toStore A) key = .ok (toStore A1) ∧
      readBlock H (toStore A1) key = .error (.BlockNotFound, toStore A1) ∧
      discardBlock H (toStore A1) key = .error (.BlockNotFound, toStore A1) := by
  obtain ⟨hdb, hWF1, hcells, hblks⟩ := discardBlock_spec H A key p c h hH0 hfm hp hmem
  have hz : findMatch (H key)
      (cellsA (⟨A.iSize, A.bSize,
        setCellR A.regions 0 p ⟨false, H [], c.dataOffset, c.dataLength⟩⟩ : Abs).regions 0)
      = 0 := by
    show findMatch (H key) (cellsA (setCellR A.regions 0 p _) 0) = 0
    rw [hcells]
    refine findMatch_map_clear (H key) p _ _ ?_ hone
    intro hx
    exact Bool.noConfusion hx.2
  exact ⟨_, hdb, readBlock_none H _ key hWF1 hz, discardBlock_absent H _ key hWF1 hz⟩

/-- C8: `keyExists` scans the cells in offset order and returns the
offset of the first occupied cell whose stored hash equals the key's
hash, or the sentinel `0` when no occupied cell matches; `0` can never
be a cell offset because every cell lies at or after the 9-byte header
of its segment. -/
theorem findKey_offset_or_sentinel (H : List Nat → Nat) (A : Abs) (key : List Nat)
    (h : WF A) :
    keyExists H (toStore A) key = (toStore A, findMatch (H key) (cellsA A.regions 0)) ∧
    (∀ pc ∈ cellsA A.regions 0, 9 ≤ pc.1) ∧
    (findMatch (H key) (cellsA A.regions 0) = 0 →
      ∀ pc ∈ cellsA A.regions 0, ¬(pc.2.keyHash = H key ∧ pc.2.occupied = true)) ∧
    (findMatch (H key) (cellsA A.regions 0) ≠ 0 →
      ∃ c, (findMatch (H key) (cellsA A.regions 0), c) ∈ cellsA A.regions 0 ∧
        c.occupied = true ∧ c.keyHash = H key ∧
        9 ≤ findMatch (H key) (cellsA A.regions 0)) := by
  have hbnd : ∀ pc ∈ cellsA A.regions 0, 9 ≤ pc.1 := by
    intro pc hm
    have := cellsA_bounds A.regions 0 pc hm
    omega
  refine ⟨keyExists_spec H A h key, hbnd, ?_, ?_⟩
  · intro hz
    exact findMatch_zero_no_match (H key) _
      (fun pc hm => by have := hbnd pc hm; omega) hz
  · intro hnz
    rcases findMatch_cases (H key) (cellsA A.regions 0) with h0 | ⟨c, hm, ho, hh⟩
    · exact absurd h0 hnz
    · exact ⟨c, hm, ho, hh, hbnd _ hm⟩

/-- C5: on a store whose never-allocated cells all come after its
allocated ones (true of every store the interface can reach), discarding
a present key `k1` and then writing a fresh key `k2` whose value fits in
a block reuses a retained block region of an unoccupied cell: the
backing file does not grow, and the new value is readable. -/
theorem discard_then_write_reuses_slot (H : List Nat → Nat) (A : Abs)
    (k1 k2 v2 : List Nat) (hard : Bool)
    (h : WF A) (hap : allocPrefix A) (hH0 : H [] < 2 ^ 64)
    (hHk2 : H k2 < 2 ^ 64) (hv2 : v2.length ≤ A.bSize)
    (p : Nat) (hk1p : findMatch (H k1) (cellsA A.regions 0) = p) (hp : p ≠ 0)
    (hfresh : findMatch (H k2) (cellsA A.regions 0) = 0) :
    ∃ A1 A2, discardBlock H (toStore A) k1 = .ok (toStore A1) ∧
      writeBlock H (toStore A1) k2 v2 hard = .ok (toStore A2) ∧
      (render A1).length = (render A).length ∧
      (render A2).length = (render A).length ∧
      (∃ q c2, findFree (cellsA A1.regions 0) = some q ∧
        (q, c2) ∈ cellsA A1.regions 0 ∧ c2.occupied = false ∧ c2.dataOffset ≠ 0) ∧
      lookupA A2 (H k2) = some v2 := by
  obtain ⟨c, d, hmem, ho, hh, hdnz, hblkc, hdlen, hdl, hkh, hdo32⟩ :=
    found_cell_facts A h (H k1) p hk1p hp
  obtain ⟨hdb, hWF1, hcells1, hblks1⟩ := discardBlock_spec H A k1 p c h hH0 hk1p hp hmem
  have hlen1 : (render (⟨A.iSize, A.bSize,
      setCellR A.regions 0 p ⟨false, H [], c.dataOffset, c.dataLength⟩⟩ : Abs)).length
      = (render A).length := by
    have e1 : (render (⟨A.iSize, A.bSize,
        setCellR A.regions 0 p ⟨false, H [], c.dataOffset, c.dataLength⟩⟩ : Abs)).length
        = sumLens (setCellR A.regions 0 p ⟨false, H [], c.dataOffset, c.dataLength⟩) :=
      renderGo_length _ _ _ _
    have e2 : (render A).length = sumLens A.regions := renderGo_length _ _ _ _
    rw [e1, e2, sumLens_setCellR]
  have hap1 : allocPrefix ⟨A.iSize, A.bSize,
      setCellR A.regions 0 p ⟨false, H [], c.dataOffset, c.dataLength⟩⟩ := by
    exact allocPrefix_map_same_offset A _ p
      ⟨false, H [], c.dataOffset, c.dataLength⟩ c hcells1 rfl hmem hap
  have hmem1 : (p, (⟨false, H [], c.dataOffset, c.dataLength⟩ : CellT))
      ∈ cellsA (⟨A.iSize, A.bSize,
        setCellR A.regions 0 p ⟨false, H [], c.dataOffset, c.dataLength⟩⟩ : Abs).regions 0 := by
    show _ ∈ cellsA (setCellR A.regions 0 p _) 0
    rw [hcells1]
    exact List.mem_map.2 ⟨(p, c), hmem, by simp⟩
  obtain ⟨q, c2, hfq, hm2, ho2, hd2⟩ :=
    findFree_first_alloc _ hap1 p _ hmem1 rfl hdnz
  have hfresh1 : findMatch (H k2)
      (cellsA (⟨A.iSize, A.bSize,
        setCellR A.regions 0 p ⟨false, H [], c.dataOffset, c.dataLength⟩⟩ : Abs).regions 0)
      = 0 := by
    show findMatch (H k2) (cellsA (setCellR A.regions 0 p _) 0) = 0
    rw [hcells1]
    refine findMatch_map_clear (H k2) p _ _ ?_ ?_
    · intro hx
      exact Bool.noConfusion hx.2
    · intro pc hm hmatch
      exfalso
      have := findMatch_zero_no_match (H k2) _
        (fun pc2 hm2b => by have := cellsA_bounds A.regions 0 pc2 hm2b; omega) hfresh
      exact this pc hm hmatch
  have hrf := requestFree_some H _ hWF1 q hfq
  obtain ⟨A2, d2, hblk2, hdlen2, hwb, hWF2, hiz2, hbz2, hcells2, hblks2, hlen2, hseg2⟩ :=
    writeBlock_fresh_reuse H _ _ k2 v2 hard hWF1 hWF1 hHk2 (by show v2.length ≤ A.bSize; exact hv2)
      hfresh1 q hrf rfl c2 hm2 hd2
  have hmemblk2 : (c2.dataOffset, v2 ++ d2.drop v2.length) ∈ blkA A2.regions 0 := by
    rw [hblks2]
    exact List.mem_map.2 ⟨(c2.dataOffset, d2), hblk2, by simp⟩
  have hblkat2 : blkAt (blkA A2.regions 0) c2.dataOffset = some (v2 ++ d2.drop v2.length) :=
    blkAt_eq_of_mem _ _ _
      (blkA_sorted A2.iSize A2.bSize A2.regions 0 hWF2.2.1
        (WF_fields A2 hWF2).2.2.2.2.1) hmemblk2
  have hhit := lookupA_update_hit _ A2 (H k2) q c2.dataOffset v2 (d2.drop v2.length)
    c2 hm2 (Or.inr hfresh1) hcells2 hblkat2
  exact ⟨_, A2, hdb, hwb, hlen1, by rw [hlen2, hlen1], ⟨q, c2, hfq, hm2, ho2, hd2⟩, hhit.1⟩

/-- C7: writing `m` fresh keys with pairwise-distinct hashes triggers
exactly `neededGrowth m (freeCount A) (index_size / 15)` index growths —
the final segment count exceeds the initial one by exactly that number —
while every key written in the batch is afterwards readable and every
other key's visible value is untouched.  `createIndex` itself appends
one fresh all-unoccupied segment (cells built from the empty key) to the
region list and rewrites the previous last header, as witnessed by its
effect on every well-formed store. -/
theorem index_growth_correctness (H : List Nat → Nat) (A : Abs)
    (kvs : List (List Nat × List Nat))
    (h : WF A) (hH0 : H [] < 2 ^ 64)
    (hkv : ∀ kv ∈ kvs, kv.2.length ≤ A.bSize ∧ H kv.1 < 2 ^ 64)
    (hfresh : ∀ kv ∈ kvs, lookupA A (H kv.1) = none)
    (hdist : kvs.Pairwise (fun a b => H a.1 ≠ H b.1))
    (hroom : (render A).length
      + kvs.length * (9 + 15 * nIdxOf A.iSize + A.bSize) < 2 ^ 32) :
    (∀ B : Abs, WF B → createIndex H (toStore B)
      = toStore ⟨B.iSize, B.bSize, B.regions
          ++ [.seg (List.replicate (nIdxOf B.iSize) ⟨false, H [], 0, 0⟩)]⟩) ∧
    ∃ A', writeMany H (toStore A) kvs = .ok (toStore A') ∧ WF A' ∧
      segCount A'.regions = segCount A.regions
        + neededGrowth kvs.length (freeCount A) (nIdxOf A.iSize) ∧
      (∀ kv ∈ kvs, lookupA A' (H kv.1) = some kv.2) ∧
      (∀ hk2, (∀ kv ∈ kvs, hk2 ≠ H kv.1) → lookupA A' hk2 = lookupA A hk2) := by
  constructor
  · intro B hB
    exact createIndex_spec H B hB
  · obtain ⟨A', h1, h2, _, _, h5, h6, h7, _⟩ :=
      writeMany_ok H kvs A h hH0 hkv hfresh hdist hroom
    exact ⟨A', h1, h2, h5, h6, h7⟩

/-- C9: an end-relative `seek` with nonzero offset raises
`io.UnsupportedOperation` and returns the handle unchanged (position
included), while `seek(0, End)` re-reads the node's length and sets the
position to it, returning the new position. -/
theorem seek_end_semantics (ctx : Ctx) (h : Handle) (L : Nat) (h2 : Handle)
    (hlen : Handle.length ctx h = .ok (L, h2)) :
    (∀ off, off ≠ 0 →
      Handle.seek ctx h off 2 = .error (.UnsupportedOperation, h)) ∧
    Handle.seek ctx h 0 2 = .ok (L, { h2 with position := L }) := by
  constructor
  · intro off hoff
    simp [Handle.seek, hoff]
  · simp [Handle.seek, hlen]

/-- C10: key lookup only ever matches occupied cells — a nonzero
`keyExists` result always designates an occupied cell, and on a store
whose cells are all unoccupied (fresh cells and discarded cells alike
store the hash of the empty key) every lookup, the empty key's included,
returns the sentinel `0`.  The all-free-cells-hash-the-empty-key
invariant is preserved by `writeBlock`, `discardBlock` and
`createIndex`. -/
theorem lookup_matches_only_occupied (H : List Nat → Nat) :
    (∀ (A : Abs) (key : List Nat) (p : Nat), WF A →
      findMatch (H key) (cellsA A.regions 0) = p → p ≠ 0 →
      ∃ c, (p, c) ∈ cellsA A.regions 0 ∧ c.occupied = true) ∧
    (∀ (A : Abs) (key : List Nat), WF A →
      (∀ pc ∈ cellsA A.regions 0, pc.2.occupied = false) →
      keyExists H (toStore A) key = (toStore A, 0)) ∧
    (∀ (A : Abs), WF A → freeHash H A → H [] < 2 ^ 64 →
      (∀ (key value : List Nat) (hard : Bool), H key < 2 ^ 64 →
        value.length ≤ A.bSize →
        (render A).length + (9 + 15 * nIdxOf A.iSize) + A.bSize < 2 ^ 32 →
        ∃ A', writeBlock H (toStore A) key value hard = .ok (toStore A') ∧ freeHash H A') ∧
      (∀ (key : List Nat) (p : Nat) (c : CellT),
        findMatch (H key) (cellsA A.regions 0) = p → p ≠ 0 →
        (p, c) ∈ cellsA A.regions 0 →
        ∃ A', discardBlock H (toStore A) key = .ok (toStore A') ∧ freeHash H A') ∧
      (createIndex H (toStore A) = toStore (growA H A) ∧ freeHash H (growA H A))) := by
  refine ⟨?_, ?_, ?_⟩
  · intro A key p hA hfm hp
    rcases findMatch_cases (H key) (cellsA A.regions 0) with h0 | ⟨c, hm, ho, hh⟩
    · rw [hfm] at h0
      exact absurd h0 hp
    · rw [hfm] at hm
      exact ⟨c, hm, ho⟩
  · intro A key hA hall
    rw [keyExists_spec H A hA key]
    refine congrArg _ ?_
    exact findMatch_of_no_match (H key) _ (fun pc hm hx => by
      have := hall pc hm
      rw [this] at hx
      exact Bool.noConfusion hx.2)
  · intro A hA hFH hH0
    refine ⟨?_, ?_, createIndex_spec H A hA, freeHash_growA H A hFH⟩
    · intro key value hard hHk hv hroom
      obtain ⟨A', hwb, _, _, _, _, _, hfh, _⟩ :=
        writeBlock_ok H A key value hard hA hHk hH0 hv hroom
      exact ⟨A', hwb, hfh hFH⟩
    · intro key p c hfm hp hmem
      obtain ⟨hdb, hWF1, hcells1, _⟩ := discardBlock_spec H A key p c hA hH0 hfm hp hmem
      refine ⟨_, hdb, ?_⟩
      intro pc hm hocc
      have hm2 : pc ∈ (cellsA A.regions 0).map
          (fun pc => if pc.1 = p then (p, ⟨false, H [], c.dataOffset, c.dataLength⟩)
            else pc) := by
        rw [← hcells1]
        exact hm
      obtain ⟨pc0, hm0, hf⟩ := List.mem_map.1 hm2
      by_cases hx : pc0.1 = p
      · rw [if_pos hx] at hf
        rw [← hf]
      · rw [if_neg hx] at hf
        rw [← hf]
        rw [← hf] at hocc
        exact hFH pc0 hm0 hocc

/-- Counterexample to C2 as stated: on a fresh node (logical length 0),
`read(1)` raises `BlockNotFound` instead of returning one byte of zero
padding — block 0 was never allocated and `readBlock` fails on its
derived key. -/
theorem read_past_logical_length_raises :
    (match makeNode tCtx (toStore c1A) [7] with
     | .ok s1 =>
       match getHandle tCtx s1 [7] with
       | .ok h1 =>
         match Handle.read tCtx h1 (some 1) with
         | .error e => e.1 = YErr.BlockNotFound
         | .ok _ => False
       | .error _ => False
     | .error _ => False) := by
  rfl

/-- Counterexample to C3 as stated: write `AAAA` (one full block), shrink
to length 2 with `truncate(2)` (the block is kept — only the metadata
size changes), then grow back with `truncate(4)`.  The newly added range
`[2, 4)` reads as `AA`, not as zero bytes: the growth loop skips blocks
whose keys already exist and zero-fills nothing inside them. -/
theorem truncate_regrow_exposes_old_bytes :
    (match makeNode tCtx (toStore c1A) [9] with
     | .ok s1 =>
       match getHandle tCtx s1 [9] with
       | .ok h1 =>
         match Handle.write tCtx h1 [65, 65, 65, 65] with
         | .ok wh =>
           match Handle.truncate tCtx wh.2 (some 2) with
           | .ok h3 =>
             match Handle.truncate tCtx h3 (some 4) with
             | .ok h4 =>
               match Handle.read tCtx { h4 with position := 2 } (some 2) with
               | .ok r => r.1 = [65, 65]
               | .error _ => False
             | .error _ => False
           | .error _ => False
         | .error _ => False
       | .error _ => False
     | .error _ => False) := by
  rfl

theorem writeValue_readValue_roundtrip_witness :
    ∃ A', writeBlock tH (toStore c1A) [1] [5, 6] false = .ok (toStore A') ∧
      readBlock tH (toStore A') [1] = .ok ([5, 6], toStore A') :=
  writeValue_readValue_roundtrip tH c1A [1] [5, 6] false (by unfold WF; decide)
    (by decide) (by decide) (by decide) (by decide)

theorem read_within_span_witness :
    ∃ out, Handle.read tCtx ⟨toStore c2A, [7], 1⟩ (some 2)
        = .ok (out, ⟨toStore c2A, [7], 3⟩) ∧ out.length = 2 :=
  read_within_span tCtx c2A [7] 1 2 (by unfold WF; decide)
    (fun i h1 h2 => by
      have hb : ceilDiv (1 + 2) c2A.bSize = 1 := by decide
      rw [hb] at h2
      have hi : i = 0 := by omega
      subst hi
      exact ⟨[9, 9, 9, 9], by rfl, by rfl⟩)

theorem truncate_grow_spec_witness :
    ∃ A', Handle.truncate tCtx ⟨toStore c3A, [9], 0⟩ (some 6)
        = .ok ⟨toStore A', [9], 0⟩ ∧
      Handle.length tCtx ⟨toStore A', [9], 0⟩ = .ok (6, ⟨toStore A', [9], 0⟩) := by
  obtain ⟨A', h1, _, h3, _⟩ := truncate_grow_spec tCtx c3A [9] 0 6 ⟨[9], 1, 2⟩
    (by unfold WF; decide) (by decide) (by decide) (by rfl) (by rfl) (by rfl)
    (by decide) (by decide) (by decide)
    (fun i j hij hj => by
      have hb : ceilDiv 6 c3A.bSize = 2 := by decide
      rw [hb] at hj
      have hj1 : j = 1 := by omega
      have hi0 : i = 0 := by omega
      subst hj1
      subst hi0
      decide)
    (by decide) (by decide)
  exact ⟨A', h1, h3⟩

theorem oversized_write_rejected_witness :
    writeBlock tH (toStore c1A) [1] [1, 2, 3, 4, 5] false
      = .error (.WriteAboveBlockSize, toStore c1A) :=
  oversized_write_rejected tH (toStore c1A) [1] [1, 2, 3, 4, 5] false (by decide)

theorem discard_then_write_reuses_slot_witness :
    ∃ A1 A2, discardBlock tH (toStore c5A) [1] = .ok (toStore A1) ∧
      writeBlock tH (toStore A1) [2] [7] false = .ok (toStore A2) ∧
      (render A1).length = (render c5A).length ∧
      (render A2).length = (render c5A).length ∧
      (∃ q c2, findFree (cellsA A1.regions 0) = some q ∧
        (q, c2) ∈ cellsA A1.regions 0 ∧ c2.occupied = false ∧ c2.dataOffset ≠ 0) ∧
      lookupA A2 (tH [2]) = some [7] :=
  discard_then_write_reuses_slot tH c5A [1] [2] [7] false (by unfold WF; decide)
    (by unfold allocPrefix; decide) (by decide) (by decide) (by decide) 9
    (by decide) (by decide) (by decide)

theorem discard_removes_visibility_witness :
    ∃ A1, discardBlock tH (toStore c5A) [1] = .ok (toStore A1) ∧
      readBlock tH (toStore A1) [1] = .error (.BlockNotFound, toStore A1) ∧
      discardBlock tH (toStore A1) [1] = .error (.BlockNotFound, toStore A1) :=
  discard_removes_visibility tH c5A [1] 9 ⟨true, tH [1], 39, 2⟩ (by unfold WF; decide)
    (by decide) (by decide) (by decide) (by decide) (by decide)

theorem index_growth_correctness_witness :
    (∀ B : Abs, WF B → createIndex tH (toStore B)
      = toStore ⟨B.iSize, B.bSize, B.regions
          ++ [.seg (List.replicate (nIdxOf B.iSize) ⟨false, tH [], 0, 0⟩)]⟩) ∧
    ∃ A', writeMany tH (toStore c1A) [([1], [5]), ([2], [6, 7]), ([3], [])]
        = .ok (toStore A') ∧ WF A' ∧
      segCount A'.regions = segCount c1A.regions
        + neededGrowth 3 (freeCount c1A) (nIdxOf c1A.iSize) ∧
      (∀ kv ∈ [([1], [5]), ([2], [6, 7]), ([3], ([] : List Nat))],
        lookupA A' (tH kv.1) = some kv.2) ∧
      (∀ hk2, (∀ kv ∈ [([1], [5]), ([2], [6, 7]), ([3], ([] : List Nat))],
        hk2 ≠ tH kv.1) → lookupA A' hk2 = lookupA c1A hk2) :=
  index_growth_correctness tH c1A [([1], [5]), ([2], [6, 7]), ([3], [])]
    (by unfold WF; decide) (by decide) (by decide) (by decide) (by decide)
    (by decide)

theorem findKey_offset_or_sentinel_witness :
    keyExists tH (toStore c5A) [1]
        = (toStore c5A, findMatch (tH [1]) (cellsA c5A.regions 0)) ∧
    (∀ pc ∈ cellsA c5A.regions 0, 9 ≤ pc.1) ∧
    (findMatch (tH [1]) (cellsA c5A.regions 0) = 0 →
      ∀ pc ∈ cellsA c5A.regions 0, ¬(pc.2.keyHash = tH [1] ∧ pc.2.occupied = true)) ∧
    (findMatch (tH [1]) (cellsA c5A.regions 0) ≠ 0 →
      ∃ c, (findMatch (tH [1]) (cellsA c5A.regions 0), c) ∈ cellsA c5A.regions 0 ∧
        c.occupied = true ∧ c.keyHash = tH [1] ∧
        9 ≤ findMatch (tH [1]) (cellsA c5A.regions 0)) :=
  findKey_offset_or_sentinel tH c5A [1] (by unfold WF; decide)

theorem seek_end_semantics_witness :
    (∀ off, off ≠ 0 →
      Handle.seek tCtx ⟨toStore c9A, [9], 7⟩ off 2
        = .error (.UnsupportedOperation, ⟨toStore c9A, [9], 7⟩)) ∧
    Handle.seek tCtx ⟨toStore c9A, [9], 7⟩ 0 2
      = .ok (4, { (⟨toStore c9A, [9], 7⟩ : Handle) with position := 4 }) :=
  seek_end_semantics tCtx ⟨toStore c9A, [9], 7⟩ 4 ⟨toStore c9A, [9], 7⟩ (by rfl)

theorem lookup_matches_only_occupied_witness :
    ∃ c, ((9 : Nat), c) ∈ cellsA c5A.regions 0 ∧ c.occupied = true :=
  (lookup_matches_only_occupied tH).1 c5A [1] 9 (by unfold WF; decide)
    (by decide) (by decide)

end Yunyun
